import Mathlib

/-!
# Discrete differential geometry operators on a halfedge mesh

A shallow embedding of `core/src/discrete-exterior-calculus.cpp` and
`core/src/geometry.cpp` (class `VertexPositionGeometry`).

* Mesh elements (vertices, edges, faces, halfedges, corners) are their dense
  indices, as natural numbers.
* A sparse matrix is the coordinate list handed to `setFromTriplets`; the
  coefficient at `(i, j)` is the sum of the values of all triplets with that
  index pair.
* Scalars are taken in an arbitrary linearly ordered field `K` (exact
  arithmetic) wherever the code only adds, multiplies and divides; the
  routines that take square roots or arc cosines are stated over `ℝ`.
-/

set_option autoImplicit false

namespace DDG

/-! ## Mesh topology -/

/-- Modelled from the spec: the mesh-topology collaborator of spec sections 3 and 6,
whose code is outside the repository sources. Every element is a dense index.
Per halfedge the mesh gives its next halfedge, twin, edge, face (`none` on the
boundary), tail and tip vertex and orientation flag; per edge its canonical
halfedge; per face its first halfedge and the ordered list of its halfedges;
per vertex the list of its outgoing halfedges. -/
structure SurfaceMesh where
  nVertices : Nat
  nEdges : Nat
  nFaces : Nat
  nHalfedges : Nat
  next : Nat → Nat
  twin : Nat → Nat
  edge : Nat → Nat
  face : Nat → Option Nat
  tailVertex : Nat → Nat
  tipVertex : Nat → Nat
  orientation : Nat → Bool
  edgeHalfedge : Nat → Nat
  faceHalfedge : Nat → Nat
  adjacentHalfedges : Nat → List Nat
  outgoingHalfedges : Nat → List Nat

namespace SurfaceMesh

/-- The iteration `mesh.vertices()`: all vertex indices in order. -/
def vertices (M : SurfaceMesh) : List Nat := List.range M.nVertices

/-- The iteration `mesh.edges()`. -/
def edges (M : SurfaceMesh) : List Nat := List.range M.nEdges

/-- The iteration `mesh.faces()`. -/
def faces (M : SurfaceMesh) : List Nat := List.range M.nFaces

/-- The first vertex of an edge, `e.firstVertex()`: the tail of its canonical halfedge. -/
def firstVertex (M : SurfaceMesh) (e : Nat) : Nat := M.tailVertex (M.edgeHalfedge e)

/-- The second vertex of an edge, `e.secondVertex()`: the tip of its canonical halfedge. -/
def secondVertex (M : SurfaceMesh) (e : Nat) : Nat := M.tipVertex (M.edgeHalfedge e)

/-- A halfedge is interior when it has a face. -/
def isInterior (M : SurfaceMesh) (h : Nat) : Bool := (M.face h).isSome

/-- The test `e.isBoundary()`: one of the two halfedges of the edge has no face. -/
def edgeIsBoundary (M : SurfaceMesh) (e : Nat) : Bool :=
  !(M.isInterior (M.edgeHalfedge e)) || !(M.isInterior (M.twin (M.edgeHalfedge e)))

/-- The iteration `v.adjacentCorners()`: a corner is identified with the interior
halfedge leaving the vertex inside the corner's face. -/
def adjacentCorners (M : SurfaceMesh) (v : Nat) : List Nat :=
  (M.outgoingHalfedges v).filter M.isInterior

/-- The iteration `v.adjacentFaces()`: the faces of the interior outgoing halfedges. -/
def adjacentFaces (M : SurfaceMesh) (v : Nat) : List Nat :=
  (M.outgoingHalfedges v).filterMap M.face

/-- The halfedge relations every manifold halfedge mesh satisfies: indices are in
range, `twin` is a fixed-point-free involution that keeps the edge and swaps tail
and tip, the tip of a halfedge is the tail of its successor, an edge has exactly
its canonical halfedge and that halfedge's twin, the orientation flag marks the
canonical halfedge, and the per-face and per-vertex iterations list exactly the
halfedges of that face, respectively leaving that vertex, once each. -/
def WellFormed (M : SurfaceMesh) : Prop :=
  (∀ h, h < M.nHalfedges →
    M.next h < M.nHalfedges ∧ M.twin h < M.nHalfedges ∧ M.edge h < M.nEdges ∧
    M.tailVertex h < M.nVertices ∧ M.tipVertex h < M.nVertices ∧
    M.twin (M.twin h) = h ∧ M.twin h ≠ h ∧ M.edge (M.twin h) = M.edge h ∧
    M.tailVertex (M.twin h) = M.tipVertex h ∧
    M.tipVertex h = M.tailVertex (M.next h) ∧
    (M.edgeHalfedge (M.edge h) = h ∨ M.edgeHalfedge (M.edge h) = M.twin h) ∧
    M.orientation h = decide (M.edgeHalfedge (M.edge h) = h) ∧
    h ∈ M.outgoingHalfedges (M.tailVertex h) ∧
    (∀ f ∈ M.face h, f < M.nFaces ∧ h ∈ M.adjacentHalfedges f)) ∧
  (∀ e, e < M.nEdges →
    M.edgeHalfedge e < M.nHalfedges ∧ M.edge (M.edgeHalfedge e) = e) ∧
  (∀ f, f < M.nFaces →
    (M.adjacentHalfedges f).Nodup ∧
    ∀ h ∈ M.adjacentHalfedges f, h < M.nHalfedges ∧ M.face h = some f) ∧
  (∀ v, v < M.nVertices →
    (M.outgoingHalfedges v).Nodup ∧
    ∀ h ∈ M.outgoingHalfedges v, h < M.nHalfedges ∧ M.tailVertex h = v)

instance (M : SurfaceMesh) : Decidable M.WellFormed := by
  unfold WellFormed; infer_instance

/-- Every face is a triangle: its halfedge iteration is the first halfedge followed
by two successors, after which `next` returns to the first halfedge. -/
def Triangulated (M : SurfaceMesh) : Prop :=
  ∀ f, f < M.nFaces →
    M.adjacentHalfedges f =
      [M.faceHalfedge f, M.next (M.faceHalfedge f), M.next (M.next (M.faceHalfedge f))] ∧
    M.next (M.next (M.next (M.faceHalfedge f))) = M.faceHalfedge f

instance (M : SurfaceMesh) : Decidable M.Triangulated := by
  unfold Triangulated; infer_instance

/-- The mesh has no boundary: every halfedge has a face. -/
def Closed (M : SurfaceMesh) : Prop :=
  ∀ h, h < M.nHalfedges → M.isInterior h = true

instance (M : SurfaceMesh) : Decidable M.Closed := by
  unfold Closed; infer_instance

/-- A closed manifold triangle mesh. -/
def ClosedManifoldTriangleMesh (M : SurfaceMesh) : Prop :=
  M.WellFormed ∧ M.Triangulated ∧ M.Closed

instance (M : SurfaceMesh) : Decidable M.ClosedManifoldTriangleMesh := by
  unfold ClosedManifoldTriangleMesh; infer_instance

end SurfaceMesh

/-! ## Sparse matrices assembled from triplets -/

/-- An `Eigen::Triplet`: row index, column index, value. -/
structure Triplet (K : Type) where
  row : Nat
  col : Nat
  value : K

/-- A sparse matrix: its dimensions and the coordinate list it was assembled from. -/
structure SparseMatrix (K : Type) where
  rows : Nat
  cols : Nat
  triplets : List (Triplet K)

namespace SparseMatrix

variable {K : Type}

/-- The call `A.setFromTriplets(begin, end)` on a fresh `rows` by `cols` matrix. -/
def setFromTriplets (rows cols : Nat) (tripList : List (Triplet K)) : SparseMatrix K :=
  ⟨rows, cols, tripList⟩

/-- The sum of the values of the triplets of a coordinate list that sit at `(i, j)`. -/
def sumAt [Zero K] [Add K] (tripList : List (Triplet K)) (i j : Nat) : K :=
  ((tripList.filter (fun t => decide (t.row = i ∧ t.col = j))).map Triplet.value).sum

/-- The coefficient at `(i, j)`: duplicate triplets for one index pair are summed,
an index pair without triplet holds zero. -/
def coeff [Zero K] [Add K] (A : SparseMatrix K) (i j : Nat) : K :=
  sumAt A.triplets i j

/-- The coefficient `(i, j)` of the matrix product `A * B`. -/
def mulCoeff [Semiring K] (A B : SparseMatrix K) (i j : Nat) : K :=
  ((List.range A.cols).map (fun k => A.coeff i k * B.coeff k j)).sum

/-- The entry `i` of the matrix-vector product `A * x`. -/
def mulVec [Semiring K] (A : SparseMatrix K) (x : Nat → K) (i : Nat) : K :=
  ((List.range A.cols).map (fun j => A.coeff i j * x j)).sum

/-- The quadratic form `xᵀ A x`. -/
def quadForm [Semiring K] (A : SparseMatrix K) (x : Nat → K) : K :=
  ((List.range A.rows).map (fun i => x i * A.mulVec x i)).sum

/-- The sum of the diagonal entries. -/
def diagSum [Semiring K] (A : SparseMatrix K) : K :=
  ((List.range A.rows).map (fun i => A.coeff i i)).sum

/-- The assignment `A.insert(i, j) = value`: one more stored entry at `(i, j)`. -/
def insert (A : SparseMatrix K) (i j : Nat) (value : K) : SparseMatrix K :=
  ⟨A.rows, A.cols, A.triplets ++ [⟨i, j, value⟩]⟩

/-- The transposed matrix: rows and columns exchanged. -/
def transpose (A : SparseMatrix K) : SparseMatrix K :=
  ⟨A.cols, A.rows, A.triplets.map (fun t => ⟨t.col, t.row, t.value⟩)⟩

/-- The coefficient `(i, j)` of the matrix product `(A * B) * C`. -/
def mulCoeff3 [Semiring K] (A B C : SparseMatrix K) (i j : Nat) : K :=
  ((List.range B.cols).map (fun l => A.mulCoeff B i l * C.coeff l j)).sum

end SparseMatrix

/-! ## Exterior derivatives (`discrete-exterior-calculus.cpp`) -/

section ExteriorDerivative

variable {K : Type} [LinearOrderedField K]

/-- The routine `VertexPositionGeometry::buildExteriorDerivative0Form`: per edge one triplet `-1` in
the column of the first vertex and one triplet `1` in the column of the second. -/
def buildExteriorDerivative0Form (M : SurfaceMesh) : SparseMatrix K :=
  let tripList : List (Triplet K) :=
    M.edges.flatMap (fun e =>
      [⟨e, M.firstVertex e, -1⟩, ⟨e, M.secondVertex e, 1⟩])
  SparseMatrix.setFromTriplets M.nEdges M.nVertices tripList

/-- The routine `VertexPositionGeometry::buildExteriorDerivative1Form`: per face and per halfedge of
that face one triplet in the column of the halfedge's edge, `1.0` when the halfedge's
orientation flag is set and `-1.0` otherwise. -/
def buildExteriorDerivative1Form (M : SurfaceMesh) : SparseMatrix K :=
  let tripList : List (Triplet K) :=
    M.faces.flatMap (fun f =>
      (M.adjacentHalfedges f).map (fun he =>
        let coeff : K := if M.orientation he then 1.0 else -1.0
        ⟨f, M.edge he, coeff⟩))
  SparseMatrix.setFromTriplets M.nFaces M.nEdges tripList

end ExteriorDerivative

/-! ## Areas, Laplace and mass matrices (`geometry.cpp`, `discrete-exterior-calculus.cpp`)

The library queries `faceArea` and `edgeCotanWeight` are not part of the repository
sources; the builders below take them as parameters. -/

section Operators

variable {K : Type} [LinearOrderedField K]

/-- The routine `VertexPositionGeometry::eulerCharacteristic`: the three counts are cast to `int`
(value-preserving for counts below `2^31`) and combined as `V - E + F`. -/
def eulerCharacteristic (M : SurfaceMesh) : Int :=
  (M.nVertices : Int) - (M.nEdges : Int) + (M.nFaces : Int)

/-- The routine `VertexPositionGeometry::totalArea`: the loop `total += faceArea(f)` over all faces. -/
def totalArea (M : SurfaceMesh) (faceArea : Nat → K) : K :=
  M.faces.foldl (fun total f => total + faceArea f) 0.0

/-- The routine `VertexPositionGeometry::barycentricDualArea`: the loop
`barycentricDualArea += faceArea(f) / 3.0` over the faces adjacent to `v`. -/
def barycentricDualArea (M : SurfaceMesh) (faceArea : Nat → K) (v : Nat) : K :=
  (M.adjacentFaces v).foldl (fun area f => area + faceArea f / 3.0) 0.0

/-- The routine `VertexPositionGeometry::buildHodgeStar0Form`: one triplet `(v, v, A)` per vertex with
`A = barycentricDualArea(v)`. -/
def buildHodgeStar0Form (M : SurfaceMesh) (faceArea : Nat → K) : SparseMatrix K :=
  let n := M.nVertices
  let tripList : List (Triplet K) :=
    M.vertices.map (fun v =>
      let vid := v
      let A := barycentricDualArea M faceArea v
      ⟨vid, vid, A⟩)
  SparseMatrix.setFromTriplets n n tripList

/-- The routine `VertexPositionGeometry::buildHodgeStar1Form`: one triplet
`(eid, eid, 0.5 * cotValue)` per edge, where `cotValue` starts at `0.0` and accumulates
`cotan(e.halfedge())` and `cotan(e.halfedge().twin())`. The routine `cotan` is a
parameter here. -/
def buildHodgeStar1Form (M : SurfaceMesh) (cotan : Nat → K) : SparseMatrix K :=
  let n := M.nEdges
  let tripList : List (Triplet K) :=
    M.edges.map (fun e =>
      let eid := e
      let cotValue : K := 0.0 + cotan (M.edgeHalfedge e) + cotan (M.twin (M.edgeHalfedge e))
      ⟨eid, eid, 0.5 * cotValue⟩)
  SparseMatrix.setFromTriplets n n tripList

/-- The routine `VertexPositionGeometry::buildHodgeStar2Form`: starting from the empty
`n` by `n` matrix, `HodgeStar.insert(f, f) = 1 / faceArea(f)` for every face. -/
def buildHodgeStar2Form (M : SurfaceMesh) (faceArea : Nat → K) : SparseMatrix K :=
  let n := M.nFaces
  M.faces.foldl (fun HodgeStar f => HodgeStar.insert f f (1 / faceArea f))
    (⟨n, n, []⟩ : SparseMatrix K)

/-- The routine `VertexPositionGeometry::massMatrix`: one triplet `(v, v, barycentricDualArea(v))` per
vertex. -/
def massMatrix (M : SurfaceMesh) (faceArea : Nat → K) : SparseMatrix K :=
  let tripList : List (Triplet K) :=
    M.vertices.map (fun v => ⟨v, v, barycentricDualArea M faceArea v⟩)
  SparseMatrix.setFromTriplets M.nVertices M.nVertices tripList

/-- The routine `VertexPositionGeometry::laplaceMatrix`: per vertex `v` and per outgoing halfedge
`he` one triplet `(he.tailVertex(), he.tipVertex(), -cot)` with
`cot = edgeCotanWeight(he.edge())`, then one triplet `(v, v, sumCot + 1e-8)` where
`sumCot` accumulates the weights of the outgoing halfedges. -/
def laplaceMatrix (M : SurfaceMesh) (edgeCotanWeight : Nat → K) : SparseMatrix K :=
  let tripList : List (Triplet K) :=
    M.vertices.flatMap (fun v =>
      let sumCot : K :=
        (M.outgoingHalfedges v).foldl (fun sum he => sum + edgeCotanWeight (M.edge he)) 0.0
      (M.outgoingHalfedges v).map (fun he =>
          let cot := edgeCotanWeight (M.edge he)
          (⟨M.tailVertex he, M.tipVertex he, -cot⟩ : Triplet K))
        ++ [⟨v, v, sumCot + 1e-8⟩])
  SparseMatrix.setFromTriplets M.nVertices M.nVertices tripList

/-- A `std::complex` scalar: real part and imaginary part. Sums are componentwise. -/
abbrev ComplexScalar (K : Type) : Type := K × K

/-- The routine `VertexPositionGeometry::complexLaplaceMatrix` as written: per vertex `v` and per
outgoing halfedge one triplet at index `(v, v)` with value `(-cot, 0.0)`, then one
triplet `(v, v, value + 1e-8)` where `value` accumulates the weights in its real part.
The triplet list is taken with complex values, as the result matrix is. -/
def complexLaplaceMatrix (M : SurfaceMesh) (edgeCotanWeight : Nat → K) :
    SparseMatrix (ComplexScalar K) :=
  let tripList : List (Triplet (ComplexScalar K)) :=
    M.vertices.flatMap (fun v =>
      let value : ComplexScalar K :=
        (M.outgoingHalfedges v).foldl
          (fun value he => (value.1 + edgeCotanWeight (M.edge he), value.2)) (0.0, 0.0)
      (M.outgoingHalfedges v).map (fun he =>
          let cot := edgeCotanWeight (M.edge he)
          (⟨v, v, (-cot, 0.0)⟩ : Triplet (ComplexScalar K)))
        ++ [⟨v, v, (value.1 + 1e-8, value.2)⟩])
  SparseMatrix.setFromTriplets M.nVertices M.nVertices tripList

end Operators

/-! ## Embedded geometry (`geometry.cpp`)

Positions are points of real 3-space and arithmetic is exact. The vector operations and
the queries `halfedgeVector`, `edgeLength`, `faceArea`, `edgeCotanWeight` belong to the
geometry library, outside the repository sources. -/

/-- Modelled from the spec: the 3D vector type of the position storage (spec section 3),
with real coordinates. -/
@[ext]
structure Vector3 where
  x : ℝ
  y : ℝ
  z : ℝ

namespace Vector3

instance : Zero Vector3 := ⟨⟨0, 0, 0⟩⟩

instance : Add Vector3 := ⟨fun a b => ⟨a.x + b.x, a.y + b.y, a.z + b.z⟩⟩

instance : Sub Vector3 := ⟨fun a b => ⟨a.x - b.x, a.y - b.y, a.z - b.z⟩⟩

/-- Division of a vector by a scalar, `v / s`. -/
noncomputable instance : HDiv Vector3 ℝ Vector3 := ⟨fun a s => ⟨a.x / s, a.y / s, a.z / s⟩⟩

/-- A vector times a scalar, `v * s`. -/
instance : HMul Vector3 ℝ Vector3 := ⟨fun a s => ⟨a.x * s, a.y * s, a.z * s⟩⟩

/-- A scalar times a vector, `s * v`. -/
instance : HMul ℝ Vector3 Vector3 := ⟨fun s a => ⟨s * a.x, s * a.y, s * a.z⟩⟩

/-- The dot product `dot(a, b)`. -/
def dot (a b : Vector3) : ℝ := a.x * b.x + a.y * b.y + a.z * b.z

/-- The cross product `cross(a, b)`. -/
def cross (a b : Vector3) : Vector3 :=
  ⟨a.y * b.z - a.z * b.y, a.z * b.x - a.x * b.z, a.x * b.y - a.y * b.x⟩

/-- The squared length `norm2(a)`. -/
def norm2 (a : Vector3) : ℝ := a.x * a.x + a.y * a.y + a.z * a.z

/-- The Euclidean length `norm(a)`. -/
noncomputable def norm (a : Vector3) : ℝ := Real.sqrt a.norm2

/-- Modelled from the spec: the member `a.normalize()` of the vector type, "normalized"
(spec 4.1, 4.5): the value `a / |a|`. The member returns the unit vector and leaves `a`
itself as it is; the code takes its value in `halfedgeVector(he).normalize()` and
`return vertexNormal.normalize()`. -/
noncomputable def normalize (a : Vector3) : Vector3 := a / a.norm

/-- The point of Euclidean 3-space with the coordinates of `a`. -/
noncomputable def toEuclidean (a : Vector3) : EuclideanSpace ℝ (Fin 3) :=
  (WithLp.equiv 2 (Fin 3 → ℝ)).symm ![a.x, a.y, a.z]

end Vector3

/-- The class `VertexPositionGeometry`: a mesh together with the position of each vertex. -/
structure VertexPositionGeometry where
  mesh : SurfaceMesh
  inputVertexPositions : Nat → Vector3

namespace VertexPositionGeometry

open Vector3

/-- Modelled from the spec: `halfedgeVector(he)`, tip position minus tail position
(spec 4.1). -/
def halfedgeVector (G : VertexPositionGeometry) (he : Nat) : Vector3 :=
  G.inputVertexPositions (G.mesh.tipVertex he) - G.inputVertexPositions (G.mesh.tailVertex he)

/-- Modelled from the spec: `edgeLength(e)`, the Euclidean distance between the two
endpoint positions of `e` (spec 4.1). -/
noncomputable def edgeLength (G : VertexPositionGeometry) (e : Nat) : ℝ :=
  (G.inputVertexPositions (G.mesh.secondVertex e)
    - G.inputVertexPositions (G.mesh.firstVertex e)).norm

/-- Modelled from the spec: `faceArea(f)`, for a triangular face half the magnitude of
the cross product of two edge vectors from one vertex (spec 4.1). The vertex is the tail
of the face's first halfedge, the two edge vectors lead to the two other vertices in the
order of the face. -/
noncomputable def faceArea (G : VertexPositionGeometry) (f : Nat) : ℝ :=
  let he := G.mesh.faceHalfedge f
  let pA := G.inputVertexPositions (G.mesh.tailVertex he)
  let pB := G.inputVertexPositions (G.mesh.tipVertex he)
  let pC := G.inputVertexPositions (G.mesh.tipVertex (G.mesh.next he))
  0.5 * (cross (pB - pA) (pC - pA)).norm

/-- The routine `VertexPositionGeometry::cotan`: with `he1 = he.next()` and
`he2 = he1.next().twin()`, the quotient `cos / sin` of
`dot(v1, v2) / mode` and `cross(v1, v2).norm() / mode`, where `v1`, `v2` are the
halfedge vectors of `he1`, `he2` and `mode = abs(l1 * l2)` is the product of
their edge lengths. The length `l3` of the edge of `he` is computed by the code and not
used. Division of a real by zero is zero here, where the floating-point code yields NaN
or infinity. -/
noncomputable def cotan (G : VertexPositionGeometry) (he : Nat) : ℝ :=
  let he1 := G.mesh.next he
  let he2 := G.mesh.twin (G.mesh.next he1)
  let l1 := G.edgeLength (G.mesh.edge he1)
  let l2 := G.edgeLength (G.mesh.edge he2)
  let v1 := G.halfedgeVector he1
  let v2 := G.halfedgeVector he2
  let mode := |l1 * l2|
  let cos := dot v1 v2 / mode
  let sin := (cross v1 v2).norm / mode
  cos / sin

/-- Modelled from the spec: `edgeCotanWeight(e)`, 0.5 times the cotan of each of the
edge's two halfedges; at a boundary edge only the halfedge that has a face counts
(spec 4.1). -/
noncomputable def edgeCotanWeight (G : VertexPositionGeometry) (e : Nat) : ℝ :=
  let he := G.mesh.edgeHalfedge e
  0.5 * ((if G.mesh.isInterior he then G.cotan he else 0)
    + (if G.mesh.isInterior (G.mesh.twin he) then G.cotan (G.mesh.twin he) else 0))

/-- The routine `VertexPositionGeometry::angle`: `0` when the corner's halfedge lies on a boundary
edge, otherwise `acos(dot(l1, l2) / (norm(l1) * norm(l2)))` for the halfedge vectors of
`he1 = c.halfedge()` and of `he1.next().next().twin()`. -/
noncomputable def angle (G : VertexPositionGeometry) (c : Nat) : ℝ :=
  let he1 := c
  if G.mesh.edgeIsBoundary (G.mesh.edge he1) then 0
  else
    let l1 := G.halfedgeVector he1
    let l2 := G.halfedgeVector (G.mesh.twin (G.mesh.next (G.mesh.next he1)))
    Real.arccos (dot l1 l2 / (l1.norm * l2.norm))

/-- The routine `VertexPositionGeometry::angleDefect`: `2 * PI - totalAngle`, where `totalAngle`
accumulates `angle(c)` over the corners adjacent to `v`. -/
noncomputable def angleDefect (G : VertexPositionGeometry) (v : Nat) : ℝ :=
  let totalAngle : ℝ :=
    (G.mesh.adjacentCorners v).foldl (fun totalAngle c => totalAngle + G.angle c) 0.0
  2 * Real.pi - totalAngle

/-- The routine `VertexPositionGeometry::totalAngleDefect`: the loop
`totalAngleDefect += angleDefect(v)` over all vertices. -/
noncomputable def totalAngleDefect (G : VertexPositionGeometry) : ℝ :=
  G.mesh.vertices.foldl (fun totalAngleDefect v => totalAngleDefect + G.angleDefect v) 0.0

/-- The routine `VertexPositionGeometry::centerOfMass`: the sum of all vertex positions divided by
`mesh.nVertices()`. -/
noncomputable def centerOfMass (G : VertexPositionGeometry) : Vector3 :=
  let center : Vector3 :=
    G.mesh.vertices.foldl (fun center v => center + G.inputVertexPositions v) ⟨0.0, 0.0, 0.0⟩
  center / (G.mesh.nVertices : ℝ)

/-- The first loop of `VertexPositionGeometry::normalize`:
`inputVertexPositions[v] -= center; radius = std::max(radius, inputVertexPositions[v].norm())`
over all vertices, starting from `radius = 0`. Returns the positions and `radius`. -/
noncomputable def translateToCenter (G : VertexPositionGeometry) : (Nat → Vector3) × ℝ :=
  let center := G.centerOfMass
  G.mesh.vertices.foldl
    (fun (st : (Nat → Vector3) × ℝ) v =>
      let positions := Function.update st.1 v (st.1 v - center)
      (positions, max st.2 (positions v).norm))
    (G.inputVertexPositions, 0)

/-- The routine `VertexPositionGeometry::normalize`: subtract the center of mass from every position
while tracking the largest norm in `radius`; if `rescale`, divide every position by
`radius`; finally add `origin` to every position. Division of a real by zero is zero
here, where the floating-point code yields NaN or infinity. -/
noncomputable def normalize (G : VertexPositionGeometry) (origin : Vector3) (rescale : Bool) :
    VertexPositionGeometry :=
  let translated := G.translateToCenter
  let radius := translated.2
  let rescaled : Nat → Vector3 :=
    if rescale then
      G.mesh.vertices.foldl
        (fun positions v => Function.update positions v (positions v / radius)) translated.1
    else translated.1
  let moved : Nat → Vector3 :=
    G.mesh.vertices.foldl
      (fun positions v => Function.update positions v (positions v + origin)) rescaled
  { mesh := G.mesh, inputVertexPositions := moved }

/-- A floating-point division whose divisor may vanish: `none` stands for the NaN or
infinity that a division by zero yields. -/
noncomputable def divChecked (a b : ℝ) : Option ℝ := if b = 0 then none else some (a / b)

/-- The library function `atan2(y, x)`: the angle in `(-π, π]` of the point `(x, y)`,
and `0` at the origin. -/
noncomputable def atan2 (y x : ℝ) : ℝ := Complex.arg ⟨x, y⟩

/-- The routine `VertexPositionGeometry::cotan` with every division checked: `none` as
soon as `mode` or `sin` is zero, otherwise the value of `cotan`. -/
noncomputable def cotanChecked (G : VertexPositionGeometry) (he : Nat) : Option ℝ :=
  let he1 := G.mesh.next he
  let he2 := G.mesh.twin (G.mesh.next he1)
  let l1 := G.edgeLength (G.mesh.edge he1)
  let l2 := G.edgeLength (G.mesh.edge he2)
  let v1 := G.halfedgeVector he1
  let v2 := G.halfedgeVector he2
  let mode := |l1 * l2|
  (divChecked (dot v1 v2) mode).bind (fun cos =>
    (divChecked (cross v1 v2).norm mode).bind (fun sin =>
      divChecked cos sin))

/-- Modelled from the spec: `faceNormal(f)`, the normalized cross product of the two
edge vectors that `faceArea` uses, in the winding order of the face (spec 4.1). -/
noncomputable def faceNormal (G : VertexPositionGeometry) (f : Nat) : Vector3 :=
  let he := G.mesh.faceHalfedge f
  let pA := G.inputVertexPositions (G.mesh.tailVertex he)
  let pB := G.inputVertexPositions (G.mesh.tipVertex he)
  let pC := G.inputVertexPositions (G.mesh.tipVertex (G.mesh.next he))
  (cross (pB - pA) (pC - pA)).normalize

/-- The routine `VertexPositionGeometry::dihedralAngle`:
`atan2(dot(e, cross(n1, n2)), dot(n1, n2))` with `n1 = faceNormal(he.face())`,
`n2 = faceNormal(he.twin().face())` and `e = halfedgeVector(he).normalize()`. The code
reads both faces without a test; `none` stands for the read of a face that does not
exist. -/
noncomputable def dihedralAngle (G : VertexPositionGeometry) (he : Nat) : Option ℝ :=
  match G.mesh.face he, G.mesh.face (G.mesh.twin he) with
  | some f1, some f2 =>
    let n1 := G.faceNormal f1
    let n2 := G.faceNormal f2
    let e := (G.halfedgeVector he).normalize
    some (atan2 (dot e (cross n1 n2)) (dot n1 n2))
  | _, _ => none

/-- The routine `VertexPositionGeometry::vertexNormalEquallyWeighted`: the sum of the
normals of the adjacent faces; the statement `vertexNormal.normalize();` computes the
unit vector and drops it, and `vertexNormal` itself is returned. -/
noncomputable def vertexNormalEquallyWeighted (G : VertexPositionGeometry) (v : Nat) : Vector3 :=
  let vertexNormal : Vector3 :=
    (G.mesh.adjacentFaces v).foldl (fun vertexNormal f => vertexNormal + G.faceNormal f)
      ⟨0, 0, 0⟩
  let _dropped := vertexNormal.normalize
  vertexNormal

/-- The routine `VertexPositionGeometry::vertexNormalAngleWeighted`: the sum of
`faceNormal(c.face()) * angle(c)` over the adjacent corners, normalized. `none` stands
for the read of a face that does not exist. -/
noncomputable def vertexNormalAngleWeighted (G : VertexPositionGeometry) (v : Nat) :
    Option Vector3 :=
  let vertexNormal : Option Vector3 :=
    (G.mesh.adjacentCorners v).foldl
      (fun vertexNormal c =>
        match vertexNormal, G.mesh.face c with
        | some n, some f => some (n + G.faceNormal f * G.angle c)
        | _, _ => none)
      (some ⟨0, 0, 0⟩)
  vertexNormal.map Vector3.normalize

/-- The routine `VertexPositionGeometry::vertexNormalSphereInscribed`: the sum of
`cross(vec1, vec2) / (norm2(vec1) * norm2(vec2))` over the adjacent corners, for the
halfedge vectors of `c.halfedge()` and `c.halfedge().next().next().twin()`, normalized. -/
noncomputable def vertexNormalSphereInscribed (G : VertexPositionGeometry) (v : Nat) : Vector3 :=
  let vertexNormal : Vector3 :=
    (G.mesh.adjacentCorners v).foldl
      (fun vertexNormal c =>
        let he1 := c
        let he2 := G.mesh.twin (G.mesh.next (G.mesh.next c))
        let vec1 := G.halfedgeVector he1
        let vec2 := G.halfedgeVector he2
        vertexNormal + cross vec1 vec2 / (norm2 vec1 * norm2 vec2))
      ⟨0, 0, 0⟩
  vertexNormal.normalize

/-- The routine `VertexPositionGeometry::vertexNormalAreaWeighted`: the sum of
`faceArea(f) * faceNormal(f)` over the adjacent faces, normalized. -/
noncomputable def vertexNormalAreaWeighted (G : VertexPositionGeometry) (v : Nat) : Vector3 :=
  let vertexNormal : Vector3 :=
    (G.mesh.adjacentFaces v).foldl
      (fun vertexNormal f => vertexNormal + G.faceArea f * G.faceNormal f) ⟨0, 0, 0⟩
  vertexNormal.normalize

/-- The routine `VertexPositionGeometry::vertexNormalGaussianCurvature`: the sum of
`dihedralAngle(he) * halfedgeVector(he).normalize()` over the outgoing halfedges,
normalized. -/
noncomputable def vertexNormalGaussianCurvature (G : VertexPositionGeometry) (v : Nat) :
    Option Vector3 :=
  let gaussianCurvatureNorm : Option Vector3 :=
    (G.mesh.outgoingHalfedges v).foldl
      (fun gaussianCurvatureNorm he =>
        match gaussianCurvatureNorm, G.dihedralAngle he with
        | some n, some angle => some (n + angle * (G.halfedgeVector he).normalize)
        | _, _ => none)
      (some ⟨0, 0, 0⟩)
  gaussianCurvatureNorm.map Vector3.normalize

/-- The routine `VertexPositionGeometry::vertexNormalMeanCurvature`: the sum of
`halfedgeVector(he) * (cotan(he) + cotan(he.twin()))` over the outgoing halfedges,
normalized. -/
noncomputable def vertexNormalMeanCurvature (G : VertexPositionGeometry) (v : Nat) : Vector3 :=
  let meanCurvatureNorm : Vector3 :=
    (G.mesh.outgoingHalfedges v).foldl
      (fun meanCurvatureNorm he =>
        meanCurvatureNorm + G.halfedgeVector he * (G.cotan he + G.cotan (G.mesh.twin he)))
      ⟨0, 0, 0⟩
  meanCurvatureNorm.normalize

/-- The routine `VertexPositionGeometry::scalarMeanCurvature`: the sum of
`edgeLength(he.edge()) * dihedralAngle(he)` over the outgoing halfedges, halved. -/
noncomputable def scalarMeanCurvature (G : VertexPositionGeometry) (v : Nat) : Option ℝ :=
  let scalarMeanCurvature : Option ℝ :=
    (G.mesh.outgoingHalfedges v).foldl
      (fun scalarMeanCurvature he =>
        match scalarMeanCurvature, G.dihedralAngle he with
        | some s, some angle => some (s + G.edgeLength (G.mesh.edge he) * angle)
        | _, _ => none)
      (some 0.0)
  scalarMeanCurvature.map (fun s => s / 2)

/-- The routine `VertexPositionGeometry::circumcentricDualArea`: the sum of
`eLength * eLength * cot` over the outgoing halfedges, with
`eLength = edgeLength(he.edge())` and `cot = cotan(he) + cotan(he.twin())`, divided
by 8. -/
noncomputable def circumcentricDualArea (G : VertexPositionGeometry) (v : Nat) : ℝ :=
  let area : ℝ :=
    (G.mesh.outgoingHalfedges v).foldl
      (fun area he =>
        let eLength := G.edgeLength (G.mesh.edge he)
        let cot := G.cotan he + G.cotan (G.mesh.twin he)
        area + eLength * eLength * cot)
      0.0
  area / 8

/-- No face is degenerate: every face has positive area. -/
def NonDegenerate (G : VertexPositionGeometry) : Prop :=
  ∀ f, f < G.mesh.nFaces → 0 < G.faceArea f

end VertexPositionGeometry

/-! ## Example meshes -/

/-- Look up entry `i` of a table of indices. -/
def lookup (table : List Nat) (i : Nat) : Nat := table.getD i 0

/-- The tetrahedron with faces (0,2,1), (0,1,3), (1,2,3), (0,3,2). Halfedges `2e` and
`2e+1` are the two halfedges of edge `e`; `2e` is the canonical one. -/
def tetrahedron : SurfaceMesh where
  nVertices := 4
  nEdges := 6
  nFaces := 4
  nHalfedges := 12
  next := lookup [8, 2, 5, 6, 10, 1, 11, 0, 7, 4, 9, 3]
  twin := lookup [1, 0, 3, 2, 5, 4, 7, 6, 9, 8, 11, 10]
  edge := fun h => h / 2
  face := fun h => ([1, 0, 0, 3, 2, 0, 3, 1, 1, 2, 2, 3].map some).getD h none
  tailVertex := lookup [0, 1, 0, 2, 1, 2, 0, 3, 1, 3, 2, 3]
  tipVertex := lookup [1, 0, 2, 0, 2, 1, 3, 0, 3, 1, 3, 2]
  orientation := fun h => h % 2 == 0
  edgeHalfedge := fun e => 2 * e
  faceHalfedge := lookup [2, 0, 4, 6]
  adjacentHalfedges := fun f => [[2, 5, 1], [0, 8, 7], [4, 10, 9], [6, 11, 3]].getD f []
  outgoingHalfedges := fun v => [[0, 2, 6], [1, 8, 4], [3, 5, 10], [7, 11, 9]].getD v []

/-- A single triangle (0, 1, 2) with boundary. Halfedges 0, 2, 4 run around the face;
their twins 1, 3, 5 run around the boundary and have no face. -/
def singleTriangle : SurfaceMesh where
  nVertices := 3
  nEdges := 3
  nFaces := 1
  nHalfedges := 6
  next := lookup [2, 5, 4, 1, 0, 3]
  twin := lookup [1, 0, 3, 2, 5, 4]
  edge := fun h => h / 2
  face := fun h => [some 0, none, some 0, none, some 0, none].getD h none
  tailVertex := lookup [0, 1, 1, 2, 2, 0]
  tipVertex := lookup [1, 0, 2, 1, 0, 2]
  orientation := fun h => h % 2 == 0
  edgeHalfedge := fun e => 2 * e
  faceHalfedge := lookup [0]
  adjacentHalfedges := fun f => [[0, 2, 4]].getD f []
  outgoingHalfedges := fun v => [[0, 5], [2, 1], [4, 3]].getD v []

/-- The tetrahedron with vertex 0 at the origin and vertices 1, 2, 3 at the unit points
of the three coordinate axes. -/
def cornerTetrahedron : VertexPositionGeometry where
  mesh := tetrahedron
  inputVertexPositions := fun v =>
    match v with
    | 1 => ⟨1, 0, 0⟩
    | 2 => ⟨0, 1, 0⟩
    | 3 => ⟨0, 0, 1⟩
    | _ => ⟨0, 0, 0⟩

/-- The single triangle with vertices (0,0,0), (1,0,0), (-1,1,0): the angle at vertex 0 is
obtuse. -/
def obtuseTriangle : VertexPositionGeometry where
  mesh := singleTriangle
  inputVertexPositions := fun v =>
    match v with
    | 1 => ⟨1, 0, 0⟩
    | 2 => ⟨-1, 1, 0⟩
    | _ => ⟨0, 0, 0⟩

/-- The tetrahedron mesh with all four vertices at the point (1, 2, 3). -/
def coincidentTetrahedron : VertexPositionGeometry where
  mesh := tetrahedron
  inputVertexPositions := fun _ => ⟨1, 2, 3⟩

/-- The single triangle with its three vertices on a line: (0,0,0), (1,0,0), (2,0,0). -/
def collinearTriangle : VertexPositionGeometry where
  mesh := singleTriangle
  inputVertexPositions := fun v =>
    match v with
    | 1 => ⟨1, 0, 0⟩
    | 2 => ⟨2, 0, 0⟩
    | _ => ⟨0, 0, 0⟩

/-- The tetrahedron with vertices (0,1,0), (2,0,0), (-2,0,0), (0,0,1): the two angles
opposite to the edge between vertices 1 and 2 are obtuse. -/
def obtuseTetrahedron : VertexPositionGeometry where
  mesh := tetrahedron
  inputVertexPositions := fun v =>
    match v with
    | 1 => ⟨2, 0, 0⟩
    | 2 => ⟨-2, 0, 0⟩
    | 3 => ⟨0, 0, 1⟩
    | _ => ⟨0, 1, 0⟩

theorem tetrahedron_closedManifold : tetrahedron.ClosedManifoldTriangleMesh := by
  decide

namespace SurfaceMesh

variable {M : SurfaceMesh}

theorem WellFormed.twin_lt (hW : M.WellFormed) {h : Nat} (hh : h < M.nHalfedges) :
    M.twin h < M.nHalfedges := (hW.1 h hh).2.1

theorem WellFormed.next_lt (hW : M.WellFormed) {h : Nat} (hh : h < M.nHalfedges) :
    M.next h < M.nHalfedges := (hW.1 h hh).1

theorem WellFormed.edge_lt (hW : M.WellFormed) {h : Nat} (hh : h < M.nHalfedges) :
    M.edge h < M.nEdges := (hW.1 h hh).2.2.1

theorem WellFormed.tail_lt (hW : M.WellFormed) {h : Nat} (hh : h < M.nHalfedges) :
    M.tailVertex h < M.nVertices := (hW.1 h hh).2.2.2.1

theorem WellFormed.tip_lt (hW : M.WellFormed) {h : Nat} (hh : h < M.nHalfedges) :
    M.tipVertex h < M.nVertices := (hW.1 h hh).2.2.2.2.1

theorem WellFormed.twin_twin (hW : M.WellFormed) {h : Nat} (hh : h < M.nHalfedges) :
    M.twin (M.twin h) = h := (hW.1 h hh).2.2.2.2.2.1

theorem WellFormed.twin_ne (hW : M.WellFormed) {h : Nat} (hh : h < M.nHalfedges) :
    M.twin h ≠ h := (hW.1 h hh).2.2.2.2.2.2.1

theorem WellFormed.edge_twin (hW : M.WellFormed) {h : Nat} (hh : h < M.nHalfedges) :
    M.edge (M.twin h) = M.edge h := (hW.1 h hh).2.2.2.2.2.2.2.1

theorem WellFormed.tail_twin (hW : M.WellFormed) {h : Nat} (hh : h < M.nHalfedges) :
    M.tailVertex (M.twin h) = M.tipVertex h := (hW.1 h hh).2.2.2.2.2.2.2.2.1

theorem WellFormed.tip_eq (hW : M.WellFormed) {h : Nat} (hh : h < M.nHalfedges) :
    M.tipVertex h = M.tailVertex (M.next h) := (hW.1 h hh).2.2.2.2.2.2.2.2.2.1

theorem WellFormed.edgeHalfedge_edge (hW : M.WellFormed) {h : Nat} (hh : h < M.nHalfedges) :
    M.edgeHalfedge (M.edge h) = h ∨ M.edgeHalfedge (M.edge h) = M.twin h :=
  (hW.1 h hh).2.2.2.2.2.2.2.2.2.2.1

theorem WellFormed.orientation_eq (hW : M.WellFormed) {h : Nat} (hh : h < M.nHalfedges) :
    M.orientation h = decide (M.edgeHalfedge (M.edge h) = h) :=
  (hW.1 h hh).2.2.2.2.2.2.2.2.2.2.2.1

theorem WellFormed.mem_outgoing (hW : M.WellFormed) {h : Nat} (hh : h < M.nHalfedges) :
    h ∈ M.outgoingHalfedges (M.tailVertex h) :=
  (hW.1 h hh).2.2.2.2.2.2.2.2.2.2.2.2.1

theorem WellFormed.face_spec (hW : M.WellFormed) {h f : Nat} (hh : h < M.nHalfedges)
    (hf : M.face h = some f) : f < M.nFaces ∧ h ∈ M.adjacentHalfedges f :=
  (hW.1 h hh).2.2.2.2.2.2.2.2.2.2.2.2.2 f hf

theorem WellFormed.tip_twin (hW : M.WellFormed) {h : Nat} (hh : h < M.nHalfedges) :
    M.tipVertex (M.twin h) = M.tailVertex h := by
  have h1 := hW.tail_twin (hW.twin_lt hh)
  rw [hW.twin_twin hh] at h1
  exact h1.symm

theorem WellFormed.edgeHalfedge_lt (hW : M.WellFormed) {e : Nat} (he : e < M.nEdges) :
    M.edgeHalfedge e < M.nHalfedges := (hW.2.1 e he).1

theorem WellFormed.edge_edgeHalfedge (hW : M.WellFormed) {e : Nat} (he : e < M.nEdges) :
    M.edge (M.edgeHalfedge e) = e := (hW.2.1 e he).2

theorem WellFormed.adjacent_nodup (hW : M.WellFormed) {f : Nat} (hf : f < M.nFaces) :
    (M.adjacentHalfedges f).Nodup := (hW.2.2.1 f hf).1

theorem WellFormed.adjacent_spec (hW : M.WellFormed) {f h : Nat} (hf : f < M.nFaces)
    (hh : h ∈ M.adjacentHalfedges f) : h < M.nHalfedges ∧ M.face h = some f :=
  (hW.2.2.1 f hf).2 h hh

theorem WellFormed.outgoing_nodup (hW : M.WellFormed) {v : Nat} (hv : v < M.nVertices) :
    (M.outgoingHalfedges v).Nodup := (hW.2.2.2 v hv).1

theorem WellFormed.outgoing_spec (hW : M.WellFormed) {v h : Nat} (hv : v < M.nVertices)
    (hh : h ∈ M.outgoingHalfedges v) : h < M.nHalfedges ∧ M.tailVertex h = v :=
  (hW.2.2.2 v hv).2 h hh

end SurfaceMesh

/-! ## Coordinate-list lemmas -/

namespace SparseMatrix

variable {K : Type} [AddCommMonoid K]

theorem sumAt_nil (i j : Nat) : sumAt ([] : List (Triplet K)) i j = 0 := rfl

theorem sumAt_cons (t : Triplet K) (l : List (Triplet K)) (i j : Nat) :
    sumAt (t :: l) i j = (if t.row = i ∧ t.col = j then t.value else 0) + sumAt l i j := by
  unfold sumAt
  by_cases h : t.row = i ∧ t.col = j
  · simp [List.filter_cons, h]
  · simp [List.filter_cons, h]

theorem sumAt_append (l₁ l₂ : List (Triplet K)) (i j : Nat) :
    sumAt (l₁ ++ l₂) i j = sumAt l₁ i j + sumAt l₂ i j := by
  unfold sumAt
  simp [List.filter_append]

theorem sumAt_map {α : Type} (g : α → Triplet K) (l : List α) (i j : Nat) :
    sumAt (l.map g) i j
      = (l.map (fun a => if (g a).row = i ∧ (g a).col = j then (g a).value else 0)).sum := by
  induction l with
  | nil => rfl
  | cons a l ih => simp [sumAt_cons, ih]

theorem sumAt_flatMap {α : Type} (g : α → List (Triplet K)) (l : List α) (i j : Nat) :
    sumAt (l.flatMap g) i j = (l.map (fun a => sumAt (g a) i j)).sum := by
  induction l with
  | nil => rfl
  | cons a l ih => simp [List.flatMap_cons, sumAt_append, ih]

theorem sumAt_perm {l₁ l₂ : List (Triplet K)} (h : l₁.Perm l₂) (i j : Nat) :
    sumAt l₁ i j = sumAt l₂ i j := by
  unfold sumAt
  exact ((h.filter _).map _).sum_eq

theorem sumAt_eq_zero_of_row {l : List (Triplet K)} {i : Nat} (j : Nat)
    (h : ∀ t ∈ l, t.row ≠ i) : sumAt l i j = 0 := by
  induction l with
  | nil => rfl
  | cons t l ih =>
    have ht : t.row ≠ i := h t (List.mem_cons_self _ _)
    rw [sumAt_cons, ih (fun s hs => h s (List.mem_cons_of_mem _ hs))]
    simp [ht]

/-- A loop over `0, …, n-1` sums what the finite sum over `Finset.range n` sums. -/
theorem sum_map_range (n : Nat) (f : Nat → K) :
    ((List.range n).map f).sum = ∑ k ∈ Finset.range n, f k := by
  induction n with
  | zero => rfl
  | succ n ih => rw [List.sum_range_succ, Finset.sum_range_succ, ih]

/-- A running sum started at zero is the sum of the list of its terms. -/
theorem foldl_add_eq_sum {α : Type} (l : List α) (g : α → K) (init : K) :
    l.foldl (fun acc a => acc + g a) init = init + (l.map g).sum := by
  induction l generalizing init with
  | nil => simp
  | cons a l ih => simp [ih, add_assoc]

/-- A sum over `0, …, n-1` in which only the term at `i` can be non-zero. -/
theorem sum_range_single (n i : Nat) (f : Nat → K) (hi : i < n)
    (h : ∀ k, k < n → k ≠ i → f k = 0) : ((List.range n).map f).sum = f i := by
  rw [sum_map_range]
  exact Finset.sum_eq_single_of_mem i (Finset.mem_range.mpr hi)
    (fun k hk hne => h k (Finset.mem_range.mp hk) hne)

/-- Summing, over all columns `e`, the entries of a row that was assembled from the
elements of `l` (element `a` contributing `s a` in column `key a`) against `g e`
is summing `s a * g (key a)` over `l`. -/
theorem sum_range_mul_keyed {K : Type} [LinearOrderedField K] (n : Nat) (l : List Nat)
    (key : Nat → Nat) (s g : Nat → K)
    (hl : ∀ a ∈ l, key a < n) :
    ((List.range n).map
        (fun e => (l.map (fun a => if key a = e then s a else 0)).sum * g e)).sum
      = (l.map (fun a => s a * g (key a))).sum := by
  induction l with
  | nil => simp
  | cons a l ih =>
    have ha : key a < n := hl a (List.mem_cons_self _ _)
    have hl2 : ∀ b ∈ l, key b < n := fun b hb => hl b (List.mem_cons_of_mem _ hb)
    have h1 : ((List.range n).map (fun e => (if key a = e then s a else 0) * g e)).sum
        = s a * g (key a) := by
      rw [sum_range_single n (key a) _ ha]
      · simp
      · intro k _ hk
        simp [Ne.symm hk]
    simp only [List.map_cons, List.sum_cons, add_mul]
    rw [← ih hl2, ← h1, sum_map_range, sum_map_range, sum_map_range, Finset.sum_add_distrib]

/-- The keyed row assembled from `l` sums, over all columns, to the sum of `s` over `l`. -/
theorem sum_range_keyed {K : Type} [LinearOrderedField K] (n : Nat) (l : List Nat)
    (key : Nat → Nat) (s : Nat → K) (hl : ∀ a ∈ l, key a < n) :
    ((List.range n).map (fun e => (l.map (fun a => if key a = e then s a else 0)).sum)).sum
      = (l.map s).sum := by
  have h := sum_range_mul_keyed n l key s (fun _ => (1 : K)) hl
  simpa using h

theorem sum_map_neg {K : Type} [LinearOrderedField K] {α : Type} (l : List α) (g : α → K) :
    (l.map (fun a => -g a)).sum = -(l.map g).sum := by
  induction l with
  | nil => simp
  | cons a l ih => simp [ih]; ring

theorem sum_map_add {K : Type} [LinearOrderedField K] {α : Type} (l : List α) (g k : α → K) :
    (l.map (fun a => g a + k a)).sum = (l.map g).sum + (l.map k).sum := by
  induction l with
  | nil => simp
  | cons a l ih => simp [ih]; ring

end SparseMatrix

/-! ## Exterior derivative lemmas -/

section ExteriorDerivativeLemmas

variable {K : Type} [LinearOrderedField K] {M : SurfaceMesh}

open SparseMatrix

/-- Row `e` of `d0` holds `-1` at the first vertex and `1` at the second. -/
theorem d0_coeff (M : SurfaceMesh) {e : Nat} (he : e < M.nEdges) (v : Nat) :
    (buildExteriorDerivative0Form M : SparseMatrix K).coeff e v
      = (if M.firstVertex e = v then -1 else 0) + (if M.secondVertex e = v then 1 else 0) := by
  unfold buildExteriorDerivative0Form SparseMatrix.coeff SparseMatrix.setFromTriplets
  simp only [SurfaceMesh.edges]
  rw [sumAt_flatMap, sum_range_single M.nEdges e _ he]
  · simp [sumAt_cons, sumAt_nil]
  · intro k _ hk
    simp [sumAt_cons, sumAt_nil, hk]

/-- Row `f` of `d1` is assembled from the halfedges of face `f` alone. -/
theorem d1_coeff (M : SurfaceMesh) {f : Nat} (hf : f < M.nFaces) (e : Nat) :
    (buildExteriorDerivative1Form M : SparseMatrix K).coeff f e
      = ((M.adjacentHalfedges f).map
          (fun he => if M.edge he = e then (if M.orientation he then (1 : K) else -1) else 0)).sum := by
  unfold buildExteriorDerivative1Form SparseMatrix.coeff SparseMatrix.setFromTriplets
  simp only [SurfaceMesh.faces]
  rw [sumAt_flatMap, sum_range_single M.nFaces f _ hf]
  · rw [sumAt_map]
    congr 1
    apply List.map_congr_left
    intro he _
    norm_num
  · intro k _ hk
    apply sumAt_eq_zero_of_row
    intro t ht
    simp only [List.mem_map] at ht
    obtain ⟨a, _, rfl⟩ := ht
    exact hk

/-- One halfedge `h` of a face contributes `[tip h = v] - [tail h = v]` to the entry of
`d1 * d0` in column `v`, whichever way `h` is oriented relative to its edge. -/
theorem d1_d0_halfedge (hW : M.WellFormed) {h : Nat} (hh : h < M.nHalfedges) (v : Nat) :
    (if M.orientation h then (1 : K) else -1)
        * (buildExteriorDerivative0Form M : SparseMatrix K).coeff (M.edge h) v
      = (if M.tipVertex h = v then 1 else 0) - (if M.tailVertex h = v then 1 else 0) := by
  rw [d0_coeff M (hW.edge_lt hh), hW.orientation_eq hh]
  unfold SurfaceMesh.firstVertex SurfaceMesh.secondVertex
  rcases hW.edgeHalfedge_edge hh with hc | hc
  · rw [hc]
    simp only [decide_True, if_true]
    split_ifs <;> ring
  · have hne : ¬ M.edgeHalfedge (M.edge h) = h := by
      rw [hc]; exact hW.twin_ne hh
    rw [decide_eq_false hne]
    rw [hc, hW.tail_twin hh, hW.tip_twin hh]
    simp only [Bool.false_eq_true, if_false]
    split_ifs <;> ring

/-- When the keys of a list are pairwise distinct, the keyed row holds in the column of
an element's key exactly that element's value. -/
theorem sum_keyed_nodup (l : List Nat) (key : Nat → Nat) (s : Nat → K)
    (hl : (l.map key).Nodup) {a : Nat} (ha : a ∈ l) :
    (l.map (fun h => if key h = key a then s h else 0)).sum = s a := by
  induction l with
  | nil => simp at ha
  | cons b l ih =>
    rw [List.map_cons, List.nodup_cons] at hl
    rw [List.map_cons, List.sum_cons]
    rcases List.mem_cons.mp ha with rfl | hmem
    · have hz : (l.map (fun h => if key h = key a then s h else 0)).sum = 0 := by
        apply List.sum_eq_zero
        intro x hx
        simp only [List.mem_map] at hx
        obtain ⟨c, hc, rfl⟩ := hx
        have hne : key c ≠ key a := fun heq => hl.1 (heq ▸ List.mem_map_of_mem key hc)
        simp [hne]
      simp [hz]
    · have hne : key b ≠ key a := fun heq => hl.1 (heq ▸ List.mem_map_of_mem key hmem)
      simp [hne, ih hl.2 hmem]

/-- The entry of `d0 * x` at edge `e`. -/
theorem d0_mulVec_eq (M : SurfaceMesh) {e : Nat} (he : e < M.nEdges)
    (h1 : M.firstVertex e < M.nVertices) (h2 : M.secondVertex e < M.nVertices)
    (x : Nat → K) :
    (buildExteriorDerivative0Form M : SparseMatrix K).mulVec x e
      = x (M.secondVertex e) - x (M.firstVertex e) := by
  have hcols : (buildExteriorDerivative0Form M : SparseMatrix K).cols = M.nVertices := rfl
  unfold SparseMatrix.mulVec
  rw [hcols]
  simp only [d0_coeff M he, add_mul]
  rw [sum_map_add,
    sum_range_single M.nVertices (M.firstVertex e)
      (fun v => (if M.firstVertex e = v then (-1 : K) else 0) * x v) h1
      (fun k _ hk => by simp [Ne.symm hk]),
    sum_range_single M.nVertices (M.secondVertex e)
      (fun v => (if M.secondVertex e = v then (1 : K) else 0) * x v) h2
      (fun k _ hk => by simp [Ne.symm hk])]
  simp only [if_true]
  ring

end ExteriorDerivativeLemmas

/-! ## Laplace matrix lemmas -/

section LaplaceLemmas

variable {K : Type} [LinearOrderedField K] {M : SurfaceMesh}

open SparseMatrix

/-- The accumulator `sumCot` of `laplaceMatrix` holds the sum of the weights. -/
theorem sumCot_eq (M : SurfaceMesh) (w : Nat → K) (v : Nat) :
    (M.outgoingHalfedges v).foldl (fun sum he => sum + w (M.edge he)) 0.0
      = ((M.outgoingHalfedges v).map (fun he => w (M.edge he))).sum := by
  rw [foldl_add_eq_sum]
  norm_num

/-- Row `v` of the Laplace matrix is assembled in the loop iteration of `v` alone: each
outgoing halfedge puts `-w` into the column of its tip and the diagonal triplet puts
`sumCot + 1e-8` into column `v`. -/
theorem laplace_coeff (M : SurfaceMesh) (w : Nat → K)
    (hout : ∀ a, a < M.nVertices → ∀ h ∈ M.outgoingHalfedges a, M.tailVertex h = a)
    {v : Nat} (hv : v < M.nVertices) (u : Nat) :
    (laplaceMatrix M w).coeff v u
      = ((M.outgoingHalfedges v).map
            (fun he => if M.tipVertex he = u then -w (M.edge he) else 0)).sum
        + (if v = u then ((M.outgoingHalfedges v).map (fun he => w (M.edge he))).sum + 1e-8
            else 0) := by
  unfold laplaceMatrix SparseMatrix.coeff SparseMatrix.setFromTriplets
  simp only [SurfaceMesh.vertices]
  rw [sumAt_flatMap, sum_range_single M.nVertices v _ hv]
  · rw [sumAt_append, sumAt_map, sumAt_cons, sumAt_nil, sumCot_eq]
    congr 1
    · congr 1
      apply List.map_congr_left
      intro he hhe
      simp [hout v hv he hhe]
    · simp
  · intro k hk hkv
    apply sumAt_eq_zero_of_row
    intro t ht
    rw [List.mem_append] at ht
    rcases ht with ht | ht
    · simp only [List.mem_map] at ht
      obtain ⟨a, ha, rfl⟩ := ht
      simpa [hout k hk a ha] using hkv
    · simp only [List.mem_singleton] at ht
      subst ht
      exact hkv

/-- Every row of the Laplace matrix sums to the shift `1e-8`. -/
theorem laplace_row_sum (M : SurfaceMesh) (w : Nat → K)
    (hout : ∀ a, a < M.nVertices → ∀ h ∈ M.outgoingHalfedges a,
      M.tailVertex h = a ∧ M.tipVertex h < M.nVertices)
    {v : Nat} (hv : v < M.nVertices) :
    ((List.range M.nVertices).map (fun u => (laplaceMatrix M w).coeff v u)).sum = 1e-8 := by
  have hc := fun u => laplace_coeff M w (fun a ha h hh => (hout a ha h hh).1) hv u
  simp only [hc]
  rw [sum_map_add, sum_range_keyed M.nVertices (M.outgoingHalfedges v) M.tipVertex
    (fun he => -w (M.edge he)) (fun a ha => (hout v hv a ha).2)]
  rw [sum_range_single M.nVertices v _ hv (fun k _ hk => by simp [Ne.symm hk])]
  rw [sum_map_neg]
  simp

/-- A loop over the outgoing halfedges of `v` sums over the halfedges with tail `v`. -/
theorem sum_outgoing (hW : M.WellFormed) {v : Nat} (hv : v < M.nVertices) (g : Nat → K) :
    ((M.outgoingHalfedges v).map g).sum
      = ∑ h ∈ (Finset.range M.nHalfedges).filter (fun h => M.tailVertex h = v), g h := by
  rw [← List.sum_toFinset g (hW.outgoing_nodup hv)]
  apply Finset.sum_congr _ (fun _ _ => rfl)
  ext h
  simp only [List.mem_toFinset, Finset.mem_filter, Finset.mem_range]
  constructor
  · intro hh
    exact hW.outgoing_spec hv hh
  · rintro ⟨hh, rfl⟩
    exact hW.mem_outgoing hh

/-- The weights written into `(v, u)` by the halfedges from `v` to `u` are those written
into `(u, v)` by their twins. -/
theorem sum_outgoing_tip_symm (hW : M.WellFormed) (w : Nat → K) {u v : Nat}
    (hu : u < M.nVertices) (hv : v < M.nVertices) :
    ((M.outgoingHalfedges v).map
        (fun he => if M.tipVertex he = u then -w (M.edge he) else 0)).sum
      = ((M.outgoingHalfedges u).map
        (fun he => if M.tipVertex he = v then -w (M.edge he) else 0)).sum := by
  rw [sum_outgoing hW hv, sum_outgoing hW hu, ← Finset.sum_filter, ← Finset.sum_filter]
  apply Finset.sum_nbij' M.twin M.twin
  · intro h hh
    simp only [Finset.mem_filter, Finset.mem_range] at hh ⊢
    obtain ⟨⟨hlt, htail⟩, htip⟩ := hh
    exact ⟨⟨hW.twin_lt hlt, by rw [hW.tail_twin hlt, htip]⟩, by rw [hW.tip_twin hlt, htail]⟩
  · intro h hh
    simp only [Finset.mem_filter, Finset.mem_range] at hh ⊢
    obtain ⟨⟨hlt, htail⟩, htip⟩ := hh
    exact ⟨⟨hW.twin_lt hlt, by rw [hW.tail_twin hlt, htip]⟩, by rw [hW.tip_twin hlt, htail]⟩
  · intro h hh
    simp only [Finset.mem_filter, Finset.mem_range] at hh
    exact hW.twin_twin hh.1.1
  · intro h hh
    simp only [Finset.mem_filter, Finset.mem_range] at hh
    exact hW.twin_twin hh.1.1
  · intro h hh
    simp only [Finset.mem_filter, Finset.mem_range] at hh
    rw [hW.edge_twin hh.1.1]

theorem SurfaceMesh.WellFormed.outgoing_tail (hW : M.WellFormed) :
    ∀ a, a < M.nVertices → ∀ h ∈ M.outgoingHalfedges a, M.tailVertex h = a :=
  fun _ ha _ hh => (hW.outgoing_spec ha hh).2

theorem SurfaceMesh.WellFormed.outgoing_tail_tip (hW : M.WellFormed) :
    ∀ a, a < M.nVertices → ∀ h ∈ M.outgoingHalfedges a,
      M.tailVertex h = a ∧ M.tipVertex h < M.nVertices :=
  fun _ ha _ hh => ⟨(hW.outgoing_spec ha hh).2, hW.tip_lt (hW.outgoing_spec ha hh).1⟩

end LaplaceLemmas

/-! ## Dual area lemmas -/

section AreaLemmas

variable {K : Type} [LinearOrderedField K] {M : SurfaceMesh}

open SparseMatrix

theorem sum_filterMap {α : Type} (l : List α) (φ : α → Option Nat) (g : Nat → K) :
    ((l.filterMap φ).map g).sum = (l.map (fun a => (φ a).elim 0 g)).sum := by
  induction l with
  | nil => rfl
  | cons a l ih =>
    cases hφ : φ a with
    | none => simp [List.filterMap_cons, hφ, ih]
    | some f => simp [List.filterMap_cons, hφ, ih]

/-- The barycentric dual area of `v` sums a third of the face area over the interior
outgoing halfedges of `v`. -/
theorem barycentricDualArea_eq (M : SurfaceMesh) (faceArea : Nat → K) (v : Nat) :
    barycentricDualArea M faceArea v
      = ((M.outgoingHalfedges v).map
          (fun h => (M.face h).elim 0 (fun f => faceArea f / 3))).sum := by
  unfold barycentricDualArea SurfaceMesh.adjacentFaces
  rw [foldl_add_eq_sum, sum_filterMap]
  norm_num

theorem totalArea_eq (M : SurfaceMesh) (faceArea : Nat → K) :
    totalArea M faceArea = ∑ f ∈ Finset.range M.nFaces, faceArea f := by
  unfold totalArea SurfaceMesh.faces
  rw [foldl_add_eq_sum, sum_map_range]
  norm_num

/-- The diagonal of the matrix with one triplet `(v, v, a v)` per vertex sums to the sum
of `a`. -/
theorem diagSum_diagonal (n : Nat) (a : Nat → K) :
    (SparseMatrix.setFromTriplets n n
        ((List.range n).map (fun v => (⟨v, v, a v⟩ : Triplet K)))).diagSum
      = ∑ v ∈ Finset.range n, a v := by
  unfold SparseMatrix.diagSum SparseMatrix.coeff SparseMatrix.setFromTriplets
  rw [sum_map_range]
  apply Finset.sum_congr rfl
  intro v hv
  rw [sumAt_map, sum_range_single n v _ (Finset.mem_range.mp hv)]
  · simp
  · intro k _ hk
    simp [hk]

/-- A loop over the halfedges of face `f` sums over the halfedges whose face is `f`. -/
theorem sum_adjacent (hW : M.WellFormed) {f : Nat} (hf : f < M.nFaces) (g : Nat → K) :
    ((M.adjacentHalfedges f).map g).sum
      = ∑ h ∈ (Finset.range M.nHalfedges).filter (fun h => M.face h = some f), g h := by
  rw [← List.sum_toFinset g (hW.adjacent_nodup hf)]
  apply Finset.sum_congr _ (fun _ _ => rfl)
  ext h
  simp only [List.mem_toFinset, Finset.mem_filter, Finset.mem_range]
  constructor
  · intro hh
    exact hW.adjacent_spec hf hh
  · rintro ⟨hh, hface⟩
    exact (hW.face_spec hh hface).2

/-- Summing over all vertices a loop over outgoing halfedges visits every halfedge once. -/
theorem sum_vertices_outgoing (hW : M.WellFormed) (g : Nat → K) :
    ∑ v ∈ Finset.range M.nVertices, ((M.outgoingHalfedges v).map g).sum
      = ∑ h ∈ Finset.range M.nHalfedges, g h := by
  rw [← Finset.sum_fiberwise_of_maps_to
    (fun h hh => Finset.mem_range.mpr (hW.tail_lt (Finset.mem_range.mp hh))) g]
  apply Finset.sum_congr rfl
  intro v hv
  exact sum_outgoing hW (Finset.mem_range.mp hv) g

/-- Summing over all faces a loop over the face's halfedges visits every interior
halfedge once. -/
theorem sum_faces_adjacent (hW : M.WellFormed) (g : Nat → Nat → K) :
    ∑ f ∈ Finset.range M.nFaces, ((M.adjacentHalfedges f).map (g f)).sum
      = ∑ h ∈ Finset.range M.nHalfedges, (M.face h).elim 0 (fun f => g f h) := by
  have h1 : ∀ f ∈ Finset.range M.nFaces, ((M.adjacentHalfedges f).map (g f)).sum
      = ∑ h ∈ Finset.range M.nHalfedges, if M.face h = some f then g f h else 0 := by
    intro f hf
    rw [sum_adjacent hW (Finset.mem_range.mp hf), Finset.sum_filter]
  rw [Finset.sum_congr rfl h1, Finset.sum_comm]
  apply Finset.sum_congr rfl
  intro h hh
  cases hface : M.face h with
  | none => simp
  | some f0 =>
    have hf0 := (hW.face_spec (Finset.mem_range.mp hh) hface).1
    rw [Finset.sum_eq_single_of_mem f0 (Finset.mem_range.mpr hf0)]
    · simp
    · intro b _ hb
      simp [Ne.symm hb]

/-- On a triangle mesh the barycentric dual areas of all vertices add up to the total
area. -/
theorem sum_barycentricDualArea (hW : M.WellFormed) (hT : M.Triangulated)
    (faceArea : Nat → K) :
    ∑ v ∈ Finset.range M.nVertices, barycentricDualArea M faceArea v
      = totalArea M faceArea := by
  simp only [barycentricDualArea_eq]
  rw [sum_vertices_outgoing hW, totalArea_eq,
    ← sum_faces_adjacent hW (fun f _ => faceArea f / 3)]
  apply Finset.sum_congr rfl
  intro f hf
  rw [(hT f (Finset.mem_range.mp hf)).1]
  simp only [List.map_cons, List.map_nil, List.sum_cons, List.sum_nil]
  ring

end AreaLemmas

/-! ## Lemmas on `normalize` -/

section NormalizeLemmas

open Vector3 VertexPositionGeometry

theorem Vector3.add_x (a b : Vector3) : (a + b).x = a.x + b.x := rfl

theorem Vector3.add_y (a b : Vector3) : (a + b).y = a.y + b.y := rfl

theorem Vector3.add_z (a b : Vector3) : (a + b).z = a.z + b.z := rfl

theorem Vector3.sub_x (a b : Vector3) : (a - b).x = a.x - b.x := rfl

theorem Vector3.sub_y (a b : Vector3) : (a - b).y = a.y - b.y := rfl

theorem Vector3.sub_z (a b : Vector3) : (a - b).z = a.z - b.z := rfl

theorem Vector3.div_x (a : Vector3) (s : ℝ) : (a / s).x = a.x / s := rfl

theorem Vector3.div_y (a : Vector3) (s : ℝ) : (a / s).y = a.y / s := rfl

theorem Vector3.div_z (a : Vector3) (s : ℝ) : (a / s).z = a.z / s := rfl

theorem Vector3.zero_x : (0 : Vector3).x = 0 := rfl

theorem Vector3.zero_y : (0 : Vector3).y = 0 := rfl

theorem Vector3.zero_z : (0 : Vector3).z = 0 := rfl

theorem Vector3.norm_nonneg (a : Vector3) : 0 ≤ a.norm := Real.sqrt_nonneg _

/-- Dividing a vector by a positive scalar divides its length. -/
theorem Vector3.norm_div (a : Vector3) {s : ℝ} (hs : 0 < s) : (a / s).norm = a.norm / s := by
  unfold Vector3.norm Vector3.norm2
  rw [Vector3.div_x, Vector3.div_y, Vector3.div_z]
  have h : a.x / s * (a.x / s) + a.y / s * (a.y / s) + a.z / s * (a.z / s)
      = (a.x * a.x + a.y * a.y + a.z * a.z) / (s * s) := by
    field_simp
  rw [h, Real.sqrt_div' _ (le_of_lt (mul_pos hs hs)), Real.sqrt_mul_self (le_of_lt hs)]

/-- A loop that rewrites the position of each listed vertex in turn rewrites exactly the
listed positions, each from its original value. -/
theorem foldl_update (F : Vector3 → Vector3) (l : List Nat) (hl : l.Nodup)
    (p : Nat → Vector3) :
    l.foldl (fun positions v => Function.update positions v (F (positions v))) p
      = fun v => if v ∈ l then F (p v) else p v := by
  induction l generalizing p with
  | nil => simp
  | cons a l ih =>
    rw [List.nodup_cons] at hl
    rw [List.foldl_cons, ih hl.2]
    funext v
    by_cases hva : v = a
    · subst hva
      simp [hl.1]
    · by_cases hvl : v ∈ l
      · simp [hvl, hva, Function.update_noteq hva]
      · simp [hvl, hva, Function.update_noteq hva]

theorem foldl_max_congr (l : List Nat) (g k : Nat → ℝ) (h : ∀ v ∈ l, g v = k v) (r : ℝ) :
    l.foldl (fun r v => max r (g v)) r = l.foldl (fun r v => max r (k v)) r := by
  induction l generalizing r with
  | nil => rfl
  | cons a l ih =>
    rw [List.foldl_cons, List.foldl_cons, h a (List.mem_cons_self _ _)]
    exact ih (fun v hv => h v (List.mem_cons_of_mem _ hv)) _

theorem le_foldl_max (l : List Nat) (g : Nat → ℝ) (r : ℝ) :
    r ≤ l.foldl (fun r v => max r (g v)) r := by
  induction l generalizing r with
  | nil => exact le_refl _
  | cons a l ih => exact le_trans (le_max_left _ _) (ih _)

theorem foldl_max_ge (l : List Nat) (g : Nat → ℝ) (r : ℝ) {v : Nat} (hv : v ∈ l) :
    g v ≤ l.foldl (fun r v => max r (g v)) r := by
  induction l generalizing r with
  | nil => simp at hv
  | cons a l ih =>
    rw [List.foldl_cons]
    rcases List.mem_cons.mp hv with rfl | hmem
    · exact le_trans (le_max_right _ _) (le_foldl_max l g _)
    · exact ih _ hmem

theorem foldl_max_attained (l : List Nat) (g : Nat → ℝ) (r : ℝ) :
    l.foldl (fun r v => max r (g v)) r = r ∨
      ∃ v ∈ l, l.foldl (fun r v => max r (g v)) r = g v := by
  induction l generalizing r with
  | nil => exact Or.inl rfl
  | cons a l ih =>
    rw [List.foldl_cons]
    rcases ih (max r (g a)) with h | ⟨v, hv, h⟩
    · rcases max_choice r (g a) with hm | hm
      · left; rw [h, hm]
      · right; exact ⟨a, List.mem_cons_self _ _, by rw [h, hm]⟩
    · right; exact ⟨v, List.mem_cons_of_mem _ hv, h⟩

/-- The first loop of `normalize` over a duplicate-free list of vertices. -/
theorem translate_foldl (c : Vector3) (l : List Nat) (hl : l.Nodup) (p : Nat → Vector3)
    (r : ℝ) :
    l.foldl
        (fun (st : (Nat → Vector3) × ℝ) v =>
          let positions := Function.update st.1 v (st.1 v - c)
          (positions, max st.2 (positions v).norm))
        (p, r)
      = (fun v => if v ∈ l then p v - c else p v,
          l.foldl (fun r v => max r (p v - c).norm) r) := by
  induction l generalizing p r with
  | nil => simp
  | cons a l ih =>
    rw [List.nodup_cons] at hl
    rw [List.foldl_cons, List.foldl_cons]
    have h := ih hl.2 (Function.update p a (p a - c)) (max r (p a - c).norm)
    simp only [Function.update_same] at h ⊢
    rw [h]
    refine Prod.ext ?_ ?_
    · funext v
      by_cases hva : v = a
      · subst hva
        simp [hl.1]
      · by_cases hvl : v ∈ l
        · simp [hvl, hva, Function.update_noteq hva]
        · simp [hvl, hva, Function.update_noteq hva]
    · apply foldl_max_congr
      intro v hv
      have hva : v ≠ a := fun h => hl.1 (h ▸ hv)
      rw [Function.update_noteq hva]

/-- The radius found by the first loop of `normalize`. -/
theorem translateToCenter_snd (G : VertexPositionGeometry) :
    G.translateToCenter.2
      = (List.range G.mesh.nVertices).foldl
          (fun r v => max r (G.inputVertexPositions v - G.centerOfMass).norm) 0 := by
  unfold translateToCenter SurfaceMesh.vertices
  simp only []
  rw [translate_foldl _ _ (List.nodup_range _)]

theorem translateToCenter_fst (G : VertexPositionGeometry) :
    G.translateToCenter.1
      = fun v => if v ∈ List.range G.mesh.nVertices
          then G.inputVertexPositions v - G.centerOfMass else G.inputVertexPositions v := by
  unfold translateToCenter SurfaceMesh.vertices
  simp only []
  rw [translate_foldl _ _ (List.nodup_range _)]

/-- The position of a vertex after `normalize(origin, true)`. -/
theorem normalize_position (G : VertexPositionGeometry) (origin : Vector3) {v : Nat}
    (hv : v < G.mesh.nVertices) :
    (G.normalize origin true).inputVertexPositions v
      = (G.inputVertexPositions v - G.centerOfMass) / G.translateToCenter.2 + origin := by
  unfold VertexPositionGeometry.normalize SurfaceMesh.vertices
  simp only [if_true]
  rw [foldl_update (fun q => q + origin) _ (List.nodup_range _),
    foldl_update (fun q => q / G.translateToCenter.2) _ (List.nodup_range _),
    translateToCenter_fst]
  simp [hv]

theorem Vector3.eq_zero_of_norm_eq_zero {a : Vector3} (h : a.norm = 0) : a = 0 := by
  unfold Vector3.norm Vector3.norm2 at h
  have hs : 0 ≤ a.x * a.x + a.y * a.y + a.z * a.z := by
    nlinarith [mul_self_nonneg a.x, mul_self_nonneg a.y, mul_self_nonneg a.z]
  have h0 := (Real.sqrt_eq_zero hs).mp h
  have hx : a.x = 0 := by nlinarith [mul_self_nonneg a.x, mul_self_nonneg a.y, mul_self_nonneg a.z]
  have hy : a.y = 0 := by nlinarith [mul_self_nonneg a.x, mul_self_nonneg a.y, mul_self_nonneg a.z]
  have hz : a.z = 0 := by nlinarith [mul_self_nonneg a.x, mul_self_nonneg a.y, mul_self_nonneg a.z]
  exact Vector3.ext hx hy hz

theorem Vector3.eq_of_sub_eq_zero {a b : Vector3} (h : a - b = 0) : a = b := by
  have hx : (a - b).x = 0 := by rw [h]; rfl
  have hy : (a - b).y = 0 := by rw [h]; rfl
  have hz : (a - b).z = 0 := by rw [h]; rfl
  rw [Vector3.sub_x] at hx
  rw [Vector3.sub_y] at hy
  rw [Vector3.sub_z] at hz
  exact Vector3.ext (by linarith) (by linarith) (by linarith)

theorem foldl_add_x (p : Nat → Vector3) (l : List Nat) (init : Vector3) :
    (l.foldl (fun center v => center + p v) init).x = init.x + (l.map (fun v => (p v).x)).sum := by
  induction l generalizing init with
  | nil => simp
  | cons a l ih => rw [List.foldl_cons, ih, Vector3.add_x, List.map_cons, List.sum_cons]; ring

theorem foldl_add_y (p : Nat → Vector3) (l : List Nat) (init : Vector3) :
    (l.foldl (fun center v => center + p v) init).y = init.y + (l.map (fun v => (p v).y)).sum := by
  induction l generalizing init with
  | nil => simp
  | cons a l ih => rw [List.foldl_cons, ih, Vector3.add_y, List.map_cons, List.sum_cons]; ring

theorem foldl_add_z (p : Nat → Vector3) (l : List Nat) (init : Vector3) :
    (l.foldl (fun center v => center + p v) init).z = init.z + (l.map (fun v => (p v).z)).sum := by
  induction l generalizing init with
  | nil => simp
  | cons a l ih => rw [List.foldl_cons, ih, Vector3.add_z, List.map_cons, List.sum_cons]; ring

/-- The coordinates of the center of mass are the means of the coordinates. -/
theorem centerOfMass_coords (G : VertexPositionGeometry) :
    G.centerOfMass.x
        = (∑ v ∈ Finset.range G.mesh.nVertices, (G.inputVertexPositions v).x) / G.mesh.nVertices ∧
    G.centerOfMass.y
        = (∑ v ∈ Finset.range G.mesh.nVertices, (G.inputVertexPositions v).y) / G.mesh.nVertices ∧
    G.centerOfMass.z
        = (∑ v ∈ Finset.range G.mesh.nVertices, (G.inputVertexPositions v).z) / G.mesh.nVertices := by
  unfold centerOfMass SurfaceMesh.vertices
  simp only [Vector3.div_x, Vector3.div_y, Vector3.div_z, foldl_add_x, foldl_add_y, foldl_add_z,
    SparseMatrix.sum_map_range]
  norm_num

/-- A coordinate sum of centered and rescaled values vanishes. -/
theorem sum_centered (n : Nat) (a : Nat → ℝ) (R : ℝ) :
    ∑ v ∈ Finset.range n, ((a v - (∑ u ∈ Finset.range n, a u) / n) / R + 0) = 0 := by
  rcases Nat.eq_zero_or_pos n with hn | hn
  · subst hn
    simp
  · have hn0 : (n : ℝ) ≠ 0 := by exact_mod_cast hn.ne'
    simp only [add_zero]
    rw [← Finset.sum_div, Finset.sum_sub_distrib, Finset.sum_const, Finset.card_range,
      nsmul_eq_mul, mul_div_cancel₀ _ hn0, sub_self, zero_div]

/-- The center of mass after `normalize((0,0,0), true)`. -/
theorem centerOfMass_normalize (G : VertexPositionGeometry) :
    (G.normalize 0 true).centerOfMass = 0 := by
  have hmesh : (G.normalize 0 true).mesh = G.mesh := rfl
  obtain ⟨hx, hy, hz⟩ := centerOfMass_coords (G.normalize 0 true)
  obtain ⟨cx, cy, cz⟩ := centerOfMass_coords G
  rw [hmesh] at hx hy hz
  have hpos : ∀ v ∈ Finset.range G.mesh.nVertices,
      (G.normalize 0 true).inputVertexPositions v
        = (G.inputVertexPositions v - G.centerOfMass) / G.translateToCenter.2 + 0 :=
    fun v hv => normalize_position G 0 (Finset.mem_range.mp hv)
  apply Vector3.ext
  · rw [hx, Finset.sum_congr rfl (fun v hv => by rw [hpos v hv])]
    simp only [Vector3.add_x, Vector3.div_x, Vector3.sub_x, Vector3.zero_x, cx]
    rw [sum_centered, zero_div]
  · rw [hy, Finset.sum_congr rfl (fun v hv => by rw [hpos v hv])]
    simp only [Vector3.add_y, Vector3.div_y, Vector3.sub_y, Vector3.zero_y, cy]
    rw [sum_centered, zero_div]
  · rw [hz, Finset.sum_congr rfl (fun v hv => by rw [hpos v hv])]
    simp only [Vector3.add_z, Vector3.div_z, Vector3.sub_z, Vector3.zero_z, cz]
    rw [sum_centered, zero_div]

theorem Vector3.add_zero_eq (a : Vector3) : a + 0 = a := by
  apply Vector3.ext
  · rw [Vector3.add_x, Vector3.zero_x, add_zero]
  · rw [Vector3.add_y, Vector3.zero_y, add_zero]
  · rw [Vector3.add_z, Vector3.zero_z, add_zero]

/-- When two vertices differ in position, the radius found by `normalize` is positive. -/
theorem radius_pos (G : VertexPositionGeometry)
    (hne : ∃ u v, u < G.mesh.nVertices ∧ v < G.mesh.nVertices ∧
      G.inputVertexPositions u ≠ G.inputVertexPositions v) :
    0 < G.translateToCenter.2 := by
  obtain ⟨u, v, hu, hv, huv⟩ := hne
  have hex : ∃ w, w < G.mesh.nVertices ∧ G.inputVertexPositions w ≠ G.centerOfMass := by
    by_cases h : G.inputVertexPositions u = G.centerOfMass
    · exact ⟨v, hv, fun h2 => huv (h.trans h2.symm)⟩
    · exact ⟨u, hu, h⟩
  obtain ⟨w, hw, hwc⟩ := hex
  have hpos : 0 < (G.inputVertexPositions w - G.centerOfMass).norm := by
    rcases lt_or_eq_of_le (Vector3.norm_nonneg (G.inputVertexPositions w - G.centerOfMass))
      with h | h
    · exact h
    · exact absurd (Vector3.eq_of_sub_eq_zero (Vector3.eq_zero_of_norm_eq_zero h.symm)) hwc
  rw [translateToCenter_snd]
  exact lt_of_lt_of_le hpos
    (foldl_max_ge _ (fun v => (G.inputVertexPositions v - G.centerOfMass).norm) 0
      (List.mem_range.mpr hw))

theorem Vector3.norm_zero : (0 : Vector3).norm = 0 := by
  unfold Vector3.norm Vector3.norm2
  simp [Vector3.zero_x, Vector3.zero_y, Vector3.zero_z]

theorem coincidentTetrahedron_sub_center (v : Nat) :
    coincidentTetrahedron.inputVertexPositions v - coincidentTetrahedron.centerOfMass = 0 := by
  obtain ⟨cx, cy, cz⟩ := centerOfMass_coords coincidentTetrahedron
  apply Vector3.ext
  · rw [Vector3.sub_x, cx]
    simp [coincidentTetrahedron, tetrahedron, Vector3.zero_x]
  · rw [Vector3.sub_y, cy]
    simp [coincidentTetrahedron, tetrahedron, Vector3.zero_y]
  · rw [Vector3.sub_z, cz]
    simp [coincidentTetrahedron, tetrahedron, Vector3.zero_z]

theorem coincidentTetrahedron_radius : coincidentTetrahedron.translateToCenter.2 = 0 := by
  rw [translateToCenter_snd]
  rcases foldl_max_attained (List.range coincidentTetrahedron.mesh.nVertices)
    (fun v => (coincidentTetrahedron.inputVertexPositions v
      - coincidentTetrahedron.centerOfMass).norm) 0 with h | ⟨v, _, h⟩
  · exact h
  · rw [h, coincidentTetrahedron_sub_center, Vector3.norm_zero]

end NormalizeLemmas

/-! ## The quadratic form of the Laplace matrix -/

section QuadFormLemmas

variable {K : Type} [LinearOrderedField K] {M : SurfaceMesh}

open SparseMatrix

/-- Row `v` of the Laplace matrix applied to a vector `x`. -/
theorem laplace_mulVec (M : SurfaceMesh) (w : Nat → K)
    (hout : ∀ a, a < M.nVertices → ∀ h ∈ M.outgoingHalfedges a,
      M.tailVertex h = a ∧ M.tipVertex h < M.nVertices)
    {v : Nat} (hv : v < M.nVertices) (x : Nat → K) :
    (laplaceMatrix M w).mulVec x v
      = ((M.outgoingHalfedges v).map (fun he => -w (M.edge he) * x (M.tipVertex he))).sum
        + (((M.outgoingHalfedges v).map (fun he => w (M.edge he))).sum + 1e-8) * x v := by
  have hcols : (laplaceMatrix M w).cols = M.nVertices := rfl
  have hc := fun u => laplace_coeff M w (fun a ha h hh => (hout a ha h hh).1) hv u
  unfold SparseMatrix.mulVec
  rw [hcols]
  simp only [hc, add_mul]
  rw [sum_map_add, sum_range_mul_keyed M.nVertices (M.outgoingHalfedges v) M.tipVertex
    (fun he => -w (M.edge he)) x (fun a ha => (hout v hv a ha).2)]
  rw [sum_range_single M.nVertices v
    (fun u => (if v = u then ((M.outgoingHalfedges v).map (fun he => w (M.edge he))).sum + 1e-8
      else 0) * x u) hv (fun k _ hk => by simp [Ne.symm hk])]
  simp only [if_true]
  ring

theorem row_quad (l : List Nat) (w : Nat → K) (tip : Nat → Nat) (x : Nat → K) (xv ε : K) :
    xv * ((l.map (fun h => -w h * x (tip h))).sum + ((l.map w).sum + ε) * xv)
      = (l.map (fun h => w h * (xv * (xv - x (tip h))))).sum + ε * (xv * xv) := by
  induction l with
  | nil => simp; ring
  | cons a l ih =>
    simp only [List.map_cons, List.sum_cons]
    linear_combination ih

/-- The quadratic form of the Laplace matrix as a sum over halfedges plus the shift. -/
theorem laplace_quadForm (hW : M.WellFormed) (w : Nat → K) (x : Nat → K) :
    (laplaceMatrix M w).quadForm x
      = ∑ h ∈ Finset.range M.nHalfedges,
          w (M.edge h) * (x (M.tailVertex h) * (x (M.tailVertex h) - x (M.tipVertex h)))
        + 1e-8 * ∑ v ∈ Finset.range M.nVertices, x v * x v := by
  have hrows : (laplaceMatrix M w).rows = M.nVertices := rfl
  unfold SparseMatrix.quadForm
  rw [hrows, sum_map_range, ← sum_vertices_outgoing hW, Finset.mul_sum, ← Finset.sum_add_distrib]
  apply Finset.sum_congr rfl
  intro v hv
  have hv2 := Finset.mem_range.mp hv
  rw [laplace_mulVec M w hW.outgoing_tail_tip hv2 x]
  have h := row_quad (M.outgoingHalfedges v) (fun h => w (M.edge h)) M.tipVertex x (x v) 1e-8
  rw [h]
  congr 1
  congr 1
  apply List.map_congr_left
  intro h hh
  rw [(hW.outgoing_spec hv2 hh).2]

/-- Reindexing a sum over all halfedges by `twin`. -/
theorem sum_halfedges_twin (hW : M.WellFormed) (g : Nat → K) :
    ∑ h ∈ Finset.range M.nHalfedges, g (M.twin h) = ∑ h ∈ Finset.range M.nHalfedges, g h := by
  apply Finset.sum_nbij' M.twin M.twin
  · intro h hh
    exact Finset.mem_range.mpr (hW.twin_lt (Finset.mem_range.mp hh))
  · intro h hh
    exact Finset.mem_range.mpr (hW.twin_lt (Finset.mem_range.mp hh))
  · intro h hh
    exact hW.twin_twin (Finset.mem_range.mp hh)
  · intro h hh
    exact hW.twin_twin (Finset.mem_range.mp hh)
  · intro h _
    rfl

/-- With a weight per edge that is half the sum of a value per halfedge over the two
halfedges of the edge, the halfedge sum of the quadratic form becomes a sum of squared
differences along halfedges. -/
theorem sum_halfedges_sq (hW : M.WellFormed) (w c : Nat → K) (x : Nat → K)
    (hw : ∀ h, h < M.nHalfedges → w (M.edge h) = 0.5 * (c h + c (M.twin h))) :
    ∑ h ∈ Finset.range M.nHalfedges,
        w (M.edge h) * (x (M.tailVertex h) * (x (M.tailVertex h) - x (M.tipVertex h)))
      = ∑ h ∈ Finset.range M.nHalfedges,
          0.5 * c h * ((x (M.tailVertex h) - x (M.tipVertex h))
            * (x (M.tailVertex h) - x (M.tipVertex h))) := by
  have h1 : ∑ h ∈ Finset.range M.nHalfedges,
        w (M.edge h) * (x (M.tailVertex h) * (x (M.tailVertex h) - x (M.tipVertex h)))
      = ∑ h ∈ Finset.range M.nHalfedges,
          0.5 * c h * (x (M.tailVertex h) * (x (M.tailVertex h) - x (M.tipVertex h)))
        + ∑ h ∈ Finset.range M.nHalfedges,
          0.5 * c (M.twin h)
            * (x (M.tipVertex (M.twin h))
              * (x (M.tipVertex (M.twin h)) - x (M.tailVertex (M.twin h)))) := by
    rw [← Finset.sum_add_distrib]
    apply Finset.sum_congr rfl
    intro h hh
    have hh2 := Finset.mem_range.mp hh
    rw [hw h hh2, hW.tip_twin hh2, hW.tail_twin hh2]
    ring
  rw [h1, sum_halfedges_twin hW
    (fun h => 0.5 * c h * (x (M.tipVertex h) * (x (M.tipVertex h) - x (M.tailVertex h)))),
    ← Finset.sum_add_distrib]
  apply Finset.sum_congr rfl
  intro h _
  ring

end QuadFormLemmas

/-! ## Counting and angle lemmas -/

section AngleLemmas

open Vector3 VertexPositionGeometry SparseMatrix

variable {M : SurfaceMesh}

/-- A sum over all halfedges pairs up, per edge, the canonical halfedge and its twin. -/
theorem sum_halfedges_by_edge {K : Type} [AddCommMonoid K] (hW : M.WellFormed)
    (g : Nat → K) :
    ∑ h ∈ Finset.range M.nHalfedges, g h
      = ∑ e ∈ Finset.range M.nEdges,
          (g (M.edgeHalfedge e) + g (M.twin (M.edgeHalfedge e))) := by
  rw [← Finset.sum_fiberwise_of_maps_to
    (fun h hh => Finset.mem_range.mpr (hW.edge_lt (Finset.mem_range.mp hh))) g]
  apply Finset.sum_congr rfl
  intro e he
  have he2 := Finset.mem_range.mp he
  have hc := hW.edgeHalfedge_lt he2
  have hfib : (Finset.range M.nHalfedges).filter (fun h => M.edge h = e)
      = {M.edgeHalfedge e, M.twin (M.edgeHalfedge e)} := by
    ext h
    simp only [Finset.mem_filter, Finset.mem_range, Finset.mem_insert, Finset.mem_singleton]
    constructor
    · rintro ⟨hh, rfl⟩
      rcases hW.edgeHalfedge_edge hh with h1 | h1
      · left; exact h1.symm
      · right; rw [h1, hW.twin_twin hh]
    · rintro (rfl | rfl)
      · exact ⟨hc, hW.edge_edgeHalfedge he2⟩
      · exact ⟨hW.twin_lt hc, by rw [hW.edge_twin hc, hW.edge_edgeHalfedge he2]⟩
  rw [hfib, Finset.sum_pair (fun h => hW.twin_ne hc h.symm)]

/-- A manifold mesh has two halfedges per edge. -/
theorem nHalfedges_eq_two_nEdges (hW : M.WellFormed) :
    (M.nHalfedges : ℝ) = 2 * M.nEdges := by
  have h := sum_halfedges_by_edge hW (fun _ => (1 : ℝ))
  simp only [Finset.sum_const, Finset.card_range, nsmul_eq_mul] at h
  linarith

/-- A closed triangle mesh has three halfedges per face. -/
theorem nHalfedges_eq_three_nFaces (hM : M.ClosedManifoldTriangleMesh) :
    (M.nHalfedges : ℝ) = 3 * M.nFaces := by
  obtain ⟨hW, hT, hC⟩ := hM
  have h := sum_faces_adjacent hW (fun _ _ => (1 : ℝ))
  have hl : ∀ f ∈ Finset.range M.nFaces,
      ((M.adjacentHalfedges f).map (fun _ => (1 : ℝ))).sum = 3 := by
    intro f hf
    rw [(hT f (Finset.mem_range.mp hf)).1]
    norm_num
  have hr : ∀ h ∈ Finset.range M.nHalfedges,
      (M.face h).elim (0 : ℝ) (fun _ => (1 : ℝ)) = 1 := by
    intro h hh
    have hint := hC h (Finset.mem_range.mp hh)
    unfold SurfaceMesh.isInterior at hint
    obtain ⟨f, hf⟩ := Option.isSome_iff_exists.mp hint
    rw [hf]
    rfl
  rw [Finset.sum_congr rfl hl, Finset.sum_congr rfl hr] at h
  simp only [Finset.sum_const, Finset.card_range, nsmul_eq_mul] at h
  linarith

/-- In a triangle mesh, `next` applied three times to an interior halfedge returns to it,
and the successor stays in the same face. -/
theorem next_cycle (hW : M.WellFormed) (hT : M.Triangulated) {h f : Nat}
    (hh : h < M.nHalfedges) (hf : M.face h = some f) :
    M.next (M.next (M.next h)) = h ∧ M.face (M.next h) = some f := by
  obtain ⟨hflt, hmem⟩ := hW.face_spec hh hf
  obtain ⟨hadj, hcyc⟩ := hT f hflt
  have hspec : ∀ x ∈ M.adjacentHalfedges f, M.face x = some f :=
    fun x hx => (hW.adjacent_spec hflt hx).2
  rw [hadj] at hmem hspec
  simp only [List.mem_cons, List.mem_singleton, List.mem_nil_iff, or_false] at hmem
  rcases hmem with rfl | rfl | rfl
  · exact ⟨hcyc, hspec _ (by simp)⟩
  · exact ⟨by rw [hcyc], hspec _ (by simp)⟩
  · refine ⟨by rw [hcyc], ?_⟩
    rw [hcyc]
    exact hspec _ (by simp)

theorem toEuclidean_sub (a b : Vector3) :
    (a - b).toEuclidean = a.toEuclidean - b.toEuclidean := by
  unfold Vector3.toEuclidean
  ext i
  fin_cases i <;> simp [Vector3.sub_x, Vector3.sub_y, Vector3.sub_z]

theorem inner_toEuclidean (a b : Vector3) :
    inner a.toEuclidean b.toEuclidean = Vector3.dot a b := by
  unfold Vector3.toEuclidean Vector3.dot
  simp [PiLp.inner_apply, Fin.sum_univ_three]

theorem norm_toEuclidean (a : Vector3) : ‖a.toEuclidean‖ = a.norm := by
  unfold Vector3.toEuclidean Vector3.norm Vector3.norm2
  rw [EuclideanSpace.norm_eq]
  simp [Fin.sum_univ_three, sq]

theorem toEuclidean_injective {a b : Vector3} (h : a.toEuclidean = b.toEuclidean) : a = b := by
  have hn : (a - b).norm = 0 := by
    rw [← norm_toEuclidean, toEuclidean_sub, h, sub_self]
    exact norm_eq_zero.mpr rfl
  exact Vector3.eq_of_sub_eq_zero (Vector3.eq_zero_of_norm_eq_zero hn)

/-- The arc cosine computed by `angle` is the angle at `a` between `b` and `c`. -/
theorem arccos_eq_angle (a b c : Vector3) :
    Real.arccos (Vector3.dot (b - a) (c - a) / ((b - a).norm * (c - a).norm))
      = EuclideanGeometry.angle b.toEuclidean a.toEuclidean c.toEuclidean := by
  unfold EuclideanGeometry.angle InnerProductGeometry.angle
  rw [vsub_eq_sub, vsub_eq_sub, ← toEuclidean_sub, ← toEuclidean_sub, inner_toEuclidean,
    norm_toEuclidean, norm_toEuclidean]

/-- The three arc cosines at the corners of a triangle with `b ≠ a` and `c ≠ a` add up
to `π`. -/
theorem corner_angles_sum (a b c : Vector3) (hb : b ≠ a) (hc : c ≠ a) :
    Real.arccos (Vector3.dot (b - a) (c - a) / ((b - a).norm * (c - a).norm))
      + Real.arccos (Vector3.dot (c - b) (a - b) / ((c - b).norm * (a - b).norm))
      + Real.arccos (Vector3.dot (a - c) (b - c) / ((a - c).norm * (b - c).norm)) = Real.pi := by
  rw [arccos_eq_angle, arccos_eq_angle, arccos_eq_angle]
  have hb2 : b.toEuclidean ≠ a.toEuclidean := fun h => hb (toEuclidean_injective h)
  have hc2 : c.toEuclidean ≠ a.toEuclidean := fun h => hc (toEuclidean_injective h)
  have h := EuclideanGeometry.angle_add_angle_add_angle_eq_pi hb2 hc2
  rw [EuclideanGeometry.angle_comm b.toEuclidean a.toEuclidean c.toEuclidean,
    EuclideanGeometry.angle_comm c.toEuclidean b.toEuclidean a.toEuclidean,
    EuclideanGeometry.angle_comm a.toEuclidean c.toEuclidean b.toEuclidean]
  linarith

theorem Vector3.cross_self_sub (a c : Vector3) : (Vector3.cross (a - a) (c - a)).norm = 0 := by
  unfold Vector3.norm Vector3.norm2 Vector3.cross
  simp [Vector3.sub_x, Vector3.sub_y, Vector3.sub_z]

theorem Vector3.cross_sub_self (a b : Vector3) : (Vector3.cross (b - a) (a - a)).norm = 0 := by
  unfold Vector3.norm Vector3.norm2 Vector3.cross
  simp [Vector3.sub_x, Vector3.sub_y, Vector3.sub_z]

/-- The face area in terms of the positions of the three vertices of the face. -/
theorem faceArea_eq (G : VertexPositionGeometry) (hW : G.mesh.WellFormed)
    (hT : G.mesh.Triangulated) {f : Nat} (hf : f < G.mesh.nFaces) :
    G.faceArea f = 0.5 * (Vector3.cross
      (G.inputVertexPositions (G.mesh.tailVertex (G.mesh.next (G.mesh.faceHalfedge f)))
        - G.inputVertexPositions (G.mesh.tailVertex (G.mesh.faceHalfedge f)))
      (G.inputVertexPositions
          (G.mesh.tailVertex (G.mesh.next (G.mesh.next (G.mesh.faceHalfedge f))))
        - G.inputVertexPositions (G.mesh.tailVertex (G.mesh.faceHalfedge f)))).norm := by
  have h0 : G.mesh.faceHalfedge f < G.mesh.nHalfedges :=
    (hW.adjacent_spec hf (by rw [(hT f hf).1]; exact List.mem_cons_self _ _)).1
  unfold VertexPositionGeometry.faceArea
  simp only []
  rw [hW.tip_eq h0, hW.tip_eq (hW.next_lt h0)]

/-- In a non-degenerate face the second and third vertex differ in position from the
first. -/
theorem nondegenerate_ne (G : VertexPositionGeometry) (hW : G.mesh.WellFormed)
    (hT : G.mesh.Triangulated) (hG : G.NonDegenerate) {f : Nat} (hf : f < G.mesh.nFaces) :
    G.inputVertexPositions (G.mesh.tailVertex (G.mesh.next (G.mesh.faceHalfedge f)))
        ≠ G.inputVertexPositions (G.mesh.tailVertex (G.mesh.faceHalfedge f)) ∧
    G.inputVertexPositions (G.mesh.tailVertex (G.mesh.next (G.mesh.next (G.mesh.faceHalfedge f))))
        ≠ G.inputVertexPositions (G.mesh.tailVertex (G.mesh.faceHalfedge f)) := by
  have hpos := hG f hf
  rw [faceArea_eq G hW hT hf] at hpos
  constructor
  · intro h
    rw [h, Vector3.cross_self_sub] at hpos
    norm_num at hpos
  · intro h
    rw [h, Vector3.cross_sub_self] at hpos
    norm_num at hpos

/-- On a closed triangle mesh `angle` at the corner of halfedge `h` is the arc cosine for
the two edge vectors leaving the tail of `h` towards the two other vertices of the face. -/
theorem angle_eq (G : VertexPositionGeometry) (hM : G.mesh.ClosedManifoldTriangleMesh)
    {h : Nat} (hh : h < G.mesh.nHalfedges) :
    G.angle h = Real.arccos (Vector3.dot
        (G.inputVertexPositions (G.mesh.tailVertex (G.mesh.next h))
          - G.inputVertexPositions (G.mesh.tailVertex h))
        (G.inputVertexPositions (G.mesh.tailVertex (G.mesh.next (G.mesh.next h)))
          - G.inputVertexPositions (G.mesh.tailVertex h))
      / ((G.inputVertexPositions (G.mesh.tailVertex (G.mesh.next h))
          - G.inputVertexPositions (G.mesh.tailVertex h)).norm
        * (G.inputVertexPositions (G.mesh.tailVertex (G.mesh.next (G.mesh.next h)))
          - G.inputVertexPositions (G.mesh.tailVertex h)).norm)) := by
  obtain ⟨hW, hT, hC⟩ := hM
  have hc := hW.edgeHalfedge_lt (hW.edge_lt hh)
  have hb : G.mesh.edgeIsBoundary (G.mesh.edge h) = false := by
    unfold SurfaceMesh.edgeIsBoundary
    rw [hC _ hc, hC _ (hW.twin_lt hc)]
    rfl
  have h1 := hW.next_lt hh
  have h2 := hW.next_lt h1
  obtain ⟨f, hf⟩ := Option.isSome_iff_exists.mp (hC h hh)
  have hcyc := (next_cycle hW hT hh hf).1
  unfold VertexPositionGeometry.angle VertexPositionGeometry.halfedgeVector
  simp only [hb, Bool.false_eq_true, if_false]
  rw [hW.tip_eq hh, hW.tip_twin h2, hW.tail_twin h2, hW.tip_eq h2, hcyc]

/-- The three corner angles of a non-degenerate face of a closed triangle mesh add up to
`π`. -/
theorem face_angle_sum (G : VertexPositionGeometry) (hM : G.mesh.ClosedManifoldTriangleMesh)
    (hG : G.NonDegenerate) {f : Nat} (hf : f < G.mesh.nFaces) :
    ((G.mesh.adjacentHalfedges f).map G.angle).sum = Real.pi := by
  have hM2 := hM
  obtain ⟨hW, hT, hC⟩ := hM
  obtain ⟨hadj, hcyc⟩ := hT f hf
  have h0 : G.mesh.faceHalfedge f < G.mesh.nHalfedges :=
    (hW.adjacent_spec hf (by rw [hadj]; exact List.mem_cons_self _ _)).1
  have h1 := hW.next_lt h0
  have h2 := hW.next_lt h1
  obtain ⟨hb, hc⟩ := nondegenerate_ne G hW hT hG hf
  rw [hadj]
  simp only [List.map_cons, List.map_nil, List.sum_cons, List.sum_nil, add_zero]
  rw [angle_eq G hM2 h0, angle_eq G hM2 h1, angle_eq G hM2 h2, hcyc, ← add_assoc]
  exact corner_angles_sum _ _ _ hb hc

/-- The total angle defect of a closed triangle mesh with non-degenerate faces. -/
theorem totalAngleDefect_eq (G : VertexPositionGeometry)
    (hM : G.mesh.ClosedManifoldTriangleMesh) (hG : G.NonDegenerate) :
    G.totalAngleDefect = 2 * Real.pi * G.mesh.nVertices - Real.pi * G.mesh.nFaces := by
  have hM2 := hM
  obtain ⟨hW, hT, hC⟩ := hM
  have hcorners : ∀ v ∈ Finset.range G.mesh.nVertices,
      G.angleDefect v = 2 * Real.pi - ((G.mesh.outgoingHalfedges v).map G.angle).sum := by
    intro v hv
    unfold VertexPositionGeometry.angleDefect SurfaceMesh.adjacentCorners
    have hfilter : (G.mesh.outgoingHalfedges v).filter G.mesh.isInterior
        = G.mesh.outgoingHalfedges v := by
      rw [List.filter_eq_self]
      intro h hh
      exact hC h (hW.outgoing_spec (Finset.mem_range.mp hv) hh).1
    simp only [hfilter]
    rw [foldl_add_eq_sum]
    norm_num
  have hface : ∀ h ∈ Finset.range G.mesh.nHalfedges,
      (G.mesh.face h).elim 0 (fun _ => G.angle h) = G.angle h := by
    intro h hh
    obtain ⟨f, hf⟩ := Option.isSome_iff_exists.mp (hC h (Finset.mem_range.mp hh))
    rw [hf]
    rfl
  unfold VertexPositionGeometry.totalAngleDefect SurfaceMesh.vertices
  rw [foldl_add_eq_sum, sum_map_range, Finset.sum_congr rfl hcorners, Finset.sum_sub_distrib,
    sum_vertices_outgoing hW, ← Finset.sum_congr rfl hface,
    ← sum_faces_adjacent hW (fun _ h => G.angle h),
    Finset.sum_congr rfl (fun f hf => face_angle_sum G hM2 hG (Finset.mem_range.mp hf))]
  simp only [Finset.sum_const, Finset.card_range, nsmul_eq_mul]
  norm_num
  ring

theorem Vector3.norm_sub_comm (a b : Vector3) : (a - b).norm = (b - a).norm := by
  unfold Vector3.norm Vector3.norm2
  simp only [Vector3.sub_x, Vector3.sub_y, Vector3.sub_z]
  congr 1
  ring

/-- The cross products at the three corners of a triangle have the same length. -/
theorem Vector3.norm_cross_corner (a b c : Vector3) :
    (Vector3.cross (c - b) (c - a)).norm = (Vector3.cross (b - a) (c - a)).norm ∧
    (Vector3.cross (a - c) (a - b)).norm = (Vector3.cross (b - a) (c - a)).norm ∧
    (Vector3.cross (b - a) (b - c)).norm = (Vector3.cross (b - a) (c - a)).norm := by
  unfold Vector3.norm Vector3.norm2 Vector3.cross
  simp only [Vector3.sub_x, Vector3.sub_y, Vector3.sub_z]
  refine ⟨?_, ?_, ?_⟩ <;> · congr 1; ring

/-- A non-zero cross product has non-zero factors. -/
theorem Vector3.norm_pos_of_cross (a b : Vector3) (h : 0 < (Vector3.cross a b).norm) :
    0 < a.norm ∧ 0 < b.norm := by
  constructor
  · rcases lt_or_eq_of_le (Vector3.norm_nonneg a) with h1 | h1
    · exact h1
    · have ha := Vector3.eq_zero_of_norm_eq_zero h1.symm
      rw [ha] at h
      unfold Vector3.norm Vector3.norm2 Vector3.cross at h
      simp [Vector3.zero_x, Vector3.zero_y, Vector3.zero_z] at h
  · rcases lt_or_eq_of_le (Vector3.norm_nonneg b) with h1 | h1
    · exact h1
    · have hb := Vector3.eq_zero_of_norm_eq_zero h1.symm
      rw [hb] at h
      unfold Vector3.norm Vector3.norm2 Vector3.cross at h
      simp [Vector3.zero_x, Vector3.zero_y, Vector3.zero_z] at h

/-- The length of the edge of a halfedge is the length of the halfedge vector. -/
theorem edgeLength_edge (G : VertexPositionGeometry) (hW : G.mesh.WellFormed) {h : Nat}
    (hh : h < G.mesh.nHalfedges) :
    G.edgeLength (G.mesh.edge h) = (G.halfedgeVector h).norm := by
  unfold VertexPositionGeometry.edgeLength VertexPositionGeometry.halfedgeVector
    SurfaceMesh.firstVertex SurfaceMesh.secondVertex
  rcases hW.edgeHalfedge_edge hh with hc | hc
  · rw [hc]
  · rw [hc, hW.tail_twin hh, hW.tip_twin hh]
    exact Vector3.norm_sub_comm _ _

/-- The value of `cotan` at a halfedge `h` of a triangle whose corner opposite to `h` is
not degenerate: the dot product over the length of the cross product of the two edge
vectors that end at the opposite vertex. -/
theorem cotan_eq (G : VertexPositionGeometry) (hW : G.mesh.WellFormed) {h : Nat}
    (hh : h < G.mesh.nHalfedges)
    (hcyc : G.mesh.next (G.mesh.next (G.mesh.next h)) = h)
    (hpos : 0 < (Vector3.cross
      (G.inputVertexPositions (G.mesh.tailVertex (G.mesh.next (G.mesh.next h)))
        - G.inputVertexPositions (G.mesh.tailVertex (G.mesh.next h)))
      (G.inputVertexPositions (G.mesh.tailVertex (G.mesh.next (G.mesh.next h)))
        - G.inputVertexPositions (G.mesh.tailVertex h))).norm) :
    G.cotan h
      = Vector3.dot
          (G.inputVertexPositions (G.mesh.tailVertex (G.mesh.next (G.mesh.next h)))
            - G.inputVertexPositions (G.mesh.tailVertex (G.mesh.next h)))
          (G.inputVertexPositions (G.mesh.tailVertex (G.mesh.next (G.mesh.next h)))
            - G.inputVertexPositions (G.mesh.tailVertex h))
        / (Vector3.cross
          (G.inputVertexPositions (G.mesh.tailVertex (G.mesh.next (G.mesh.next h)))
            - G.inputVertexPositions (G.mesh.tailVertex (G.mesh.next h)))
          (G.inputVertexPositions (G.mesh.tailVertex (G.mesh.next (G.mesh.next h)))
            - G.inputVertexPositions (G.mesh.tailVertex h))).norm := by
  have h1 := hW.next_lt hh
  have h2 := hW.next_lt h1
  have hv1 : G.halfedgeVector (G.mesh.next h)
      = G.inputVertexPositions (G.mesh.tailVertex (G.mesh.next (G.mesh.next h)))
        - G.inputVertexPositions (G.mesh.tailVertex (G.mesh.next h)) := by
    unfold VertexPositionGeometry.halfedgeVector
    rw [hW.tip_eq h1]
  have hv2 : G.halfedgeVector (G.mesh.twin (G.mesh.next (G.mesh.next h)))
      = G.inputVertexPositions (G.mesh.tailVertex (G.mesh.next (G.mesh.next h)))
        - G.inputVertexPositions (G.mesh.tailVertex h) := by
    unfold VertexPositionGeometry.halfedgeVector
    rw [hW.tip_twin h2, hW.tail_twin h2, hW.tip_eq h2, hcyc]
  obtain ⟨hn1, hn2⟩ := Vector3.norm_pos_of_cross _ _ hpos
  unfold VertexPositionGeometry.cotan
  simp only []
  rw [edgeLength_edge G hW h1, edgeLength_edge G hW (hW.twin_lt h2), hv1, hv2]
  have hmode : |(G.inputVertexPositions (G.mesh.tailVertex (G.mesh.next (G.mesh.next h)))
        - G.inputVertexPositions (G.mesh.tailVertex (G.mesh.next h))).norm
      * (G.inputVertexPositions (G.mesh.tailVertex (G.mesh.next (G.mesh.next h)))
        - G.inputVertexPositions (G.mesh.tailVertex h)).norm| ≠ 0 :=
    abs_ne_zero.mpr (mul_pos hn1 hn2).ne'
  exact div_div_div_cancel_right₀ hmode _ _

/-- The weight of the edge of a halfedge is half the sum of the cotans of the halfedge and
its twin, each counted only if it has a face. -/
theorem edgeCotanWeight_edge (G : VertexPositionGeometry) (hW : G.mesh.WellFormed) {h : Nat}
    (hh : h < G.mesh.nHalfedges) :
    G.edgeCotanWeight (G.mesh.edge h)
      = 0.5 * ((if G.mesh.isInterior h then G.cotan h else 0)
        + (if G.mesh.isInterior (G.mesh.twin h) then G.cotan (G.mesh.twin h) else 0)) := by
  unfold VertexPositionGeometry.edgeCotanWeight
  simp only []
  rcases hW.edgeHalfedge_edge hh with hc | hc
  · rw [hc]
  · rw [hc, hW.twin_twin hh, add_comm]

/-- The per-face part of the quadratic form is a sum of squares over a positive
denominator. -/
theorem face_energy_identity (a b c : Vector3) (xa xb xc : ℝ) :
    Vector3.dot (c - b) (c - a) * ((xa - xb) * (xa - xb))
      + Vector3.dot (a - c) (a - b) * ((xb - xc) * (xb - xc))
      + Vector3.dot (b - a) (b - c) * ((xc - xa) * (xc - xa))
    = ((xb - xa) * (c.x - a.x) - (xc - xa) * (b.x - a.x)) ^ 2
      + ((xb - xa) * (c.y - a.y) - (xc - xa) * (b.y - a.y)) ^ 2
      + ((xb - xa) * (c.z - a.z) - (xc - xa) * (b.z - a.z)) ^ 2 := by
  unfold Vector3.dot
  simp only [Vector3.sub_x, Vector3.sub_y, Vector3.sub_z]
  ring

/-- The contribution of a non-degenerate triangle to the quadratic form of the Laplace
matrix is not negative. -/
theorem face_energy_nonneg (G : VertexPositionGeometry) (hW : G.mesh.WellFormed)
    (hT : G.mesh.Triangulated) (hG : G.NonDegenerate) {f : Nat} (hf : f < G.mesh.nFaces)
    (x : Nat → ℝ) :
    0 ≤ ((G.mesh.adjacentHalfedges f).map
      (fun h => 0.5 * G.cotan h
        * ((x (G.mesh.tailVertex h) - x (G.mesh.tipVertex h))
          * (x (G.mesh.tailVertex h) - x (G.mesh.tipVertex h))))).sum := by
  obtain ⟨hadj, hcyc⟩ := hT f hf
  have h0 : G.mesh.faceHalfedge f < G.mesh.nHalfedges :=
    (hW.adjacent_spec hf (by rw [hadj]; exact List.mem_cons_self _ _)).1
  have h1 := hW.next_lt h0
  have h2 := hW.next_lt h1
  have hD := hG f hf
  rw [faceArea_eq G hW hT hf] at hD
  have hD2 : 0 < (Vector3.cross
      (G.inputVertexPositions (G.mesh.tailVertex (G.mesh.next (G.mesh.faceHalfedge f)))
        - G.inputVertexPositions (G.mesh.tailVertex (G.mesh.faceHalfedge f)))
      (G.inputVertexPositions
          (G.mesh.tailVertex (G.mesh.next (G.mesh.next (G.mesh.faceHalfedge f))))
        - G.inputVertexPositions (G.mesh.tailVertex (G.mesh.faceHalfedge f)))).norm := by
    norm_num at hD
    exact hD
  obtain ⟨e1, e2, e3⟩ := Vector3.norm_cross_corner
    (G.inputVertexPositions (G.mesh.tailVertex (G.mesh.faceHalfedge f)))
    (G.inputVertexPositions (G.mesh.tailVertex (G.mesh.next (G.mesh.faceHalfedge f))))
    (G.inputVertexPositions
      (G.mesh.tailVertex (G.mesh.next (G.mesh.next (G.mesh.faceHalfedge f)))))
  have c0 := cotan_eq G hW h0 hcyc (by rw [e1]; exact hD2)
  have c1 := cotan_eq G hW h1 (by rw [hcyc]) (by rw [hcyc, e2]; exact hD2)
  have c2 := cotan_eq G hW h2 (by rw [hcyc]) (by rw [hcyc, e3]; exact hD2)
  rw [hcyc] at c1 c2
  rw [e1] at c0
  rw [e2] at c1
  rw [e3] at c2
  rw [hadj]
  simp only [List.map_cons, List.map_nil, List.sum_cons, List.sum_nil, add_zero]
  rw [c0, c1, c2, hW.tip_eq h0, hW.tip_eq h1, hW.tip_eq h2, hcyc]
  have hid := face_energy_identity
    (G.inputVertexPositions (G.mesh.tailVertex (G.mesh.faceHalfedge f)))
    (G.inputVertexPositions (G.mesh.tailVertex (G.mesh.next (G.mesh.faceHalfedge f))))
    (G.inputVertexPositions
      (G.mesh.tailVertex (G.mesh.next (G.mesh.next (G.mesh.faceHalfedge f)))))
    (x (G.mesh.tailVertex (G.mesh.faceHalfedge f)))
    (x (G.mesh.tailVertex (G.mesh.next (G.mesh.faceHalfedge f))))
    (x (G.mesh.tailVertex (G.mesh.next (G.mesh.next (G.mesh.faceHalfedge f)))))
  have hsq : 0 ≤ Vector3.dot
        (G.inputVertexPositions
            (G.mesh.tailVertex (G.mesh.next (G.mesh.next (G.mesh.faceHalfedge f))))
          - G.inputVertexPositions (G.mesh.tailVertex (G.mesh.next (G.mesh.faceHalfedge f))))
        (G.inputVertexPositions
            (G.mesh.tailVertex (G.mesh.next (G.mesh.next (G.mesh.faceHalfedge f))))
          - G.inputVertexPositions (G.mesh.tailVertex (G.mesh.faceHalfedge f)))
        * ((x (G.mesh.tailVertex (G.mesh.faceHalfedge f))
            - x (G.mesh.tailVertex (G.mesh.next (G.mesh.faceHalfedge f))))
          * (x (G.mesh.tailVertex (G.mesh.faceHalfedge f))
            - x (G.mesh.tailVertex (G.mesh.next (G.mesh.faceHalfedge f)))))
      + Vector3.dot
        (G.inputVertexPositions (G.mesh.tailVertex (G.mesh.faceHalfedge f))
          - G.inputVertexPositions
            (G.mesh.tailVertex (G.mesh.next (G.mesh.next (G.mesh.faceHalfedge f)))))
        (G.inputVertexPositions (G.mesh.tailVertex (G.mesh.faceHalfedge f))
          - G.inputVertexPositions (G.mesh.tailVertex (G.mesh.next (G.mesh.faceHalfedge f))))
        * ((x (G.mesh.tailVertex (G.mesh.next (G.mesh.faceHalfedge f)))
            - x (G.mesh.tailVertex (G.mesh.next (G.mesh.next (G.mesh.faceHalfedge f)))))
          * (x (G.mesh.tailVertex (G.mesh.next (G.mesh.faceHalfedge f)))
            - x (G.mesh.tailVertex (G.mesh.next (G.mesh.next (G.mesh.faceHalfedge f))))))
      + Vector3.dot
        (G.inputVertexPositions (G.mesh.tailVertex (G.mesh.next (G.mesh.faceHalfedge f)))
          - G.inputVertexPositions (G.mesh.tailVertex (G.mesh.faceHalfedge f)))
        (G.inputVertexPositions (G.mesh.tailVertex (G.mesh.next (G.mesh.faceHalfedge f)))
          - G.inputVertexPositions
            (G.mesh.tailVertex (G.mesh.next (G.mesh.next (G.mesh.faceHalfedge f)))))
        * ((x (G.mesh.tailVertex (G.mesh.next (G.mesh.next (G.mesh.faceHalfedge f))))
            - x (G.mesh.tailVertex (G.mesh.faceHalfedge f)))
          * (x (G.mesh.tailVertex (G.mesh.next (G.mesh.next (G.mesh.faceHalfedge f))))
            - x (G.mesh.tailVertex (G.mesh.faceHalfedge f)))) := by
    rw [hid]
    positivity
  have hfinal := div_nonneg hsq (le_of_lt hD2)
  refine le_trans (mul_nonneg (by norm_num : (0 : ℝ) ≤ 0.5) hfinal) (le_of_eq ?_)
  field_simp
  ring

/-- The quadratic form of the Laplace matrix of a geometry: the contributions of the
faces plus the shift times the squared length of `x`. -/
theorem laplace_quadForm_faces (G : VertexPositionGeometry) (hW : G.mesh.WellFormed)
    (x : Nat → ℝ) :
    (laplaceMatrix G.mesh G.edgeCotanWeight).quadForm x
      = ∑ f ∈ Finset.range G.mesh.nFaces,
          ((G.mesh.adjacentHalfedges f).map
            (fun h => 0.5 * G.cotan h
              * ((x (G.mesh.tailVertex h) - x (G.mesh.tipVertex h))
                * (x (G.mesh.tailVertex h) - x (G.mesh.tipVertex h))))).sum
        + 1e-8 * ∑ v ∈ Finset.range G.mesh.nVertices, x v * x v := by
  rw [laplace_quadForm hW, sum_halfedges_sq hW G.edgeCotanWeight
    (fun h => if G.mesh.isInterior h then G.cotan h else 0) x
    (fun h hh => edgeCotanWeight_edge G hW hh),
    sum_faces_adjacent hW (fun _ h => 0.5 * G.cotan h
      * ((x (G.mesh.tailVertex h) - x (G.mesh.tipVertex h))
        * (x (G.mesh.tailVertex h) - x (G.mesh.tipVertex h))))]
  congr 1
  apply Finset.sum_congr rfl
  intro h _
  unfold SurfaceMesh.isInterior
  cases G.mesh.face h with
  | none => simp
  | some f => simp

/-- A coordinate list whose triplets all sit on the diagonal has zero off-diagonal sums. -/
theorem sumAt_offdiag {A : Type} [AddCommMonoid A] {l : List (Triplet A)} {i j : Nat}
    (hij : i ≠ j) (h : ∀ t ∈ l, t.row = t.col) : SparseMatrix.sumAt l i j = 0 := by
  induction l with
  | nil => rfl
  | cons t l ih =>
    have ht : t.row = t.col := h t (List.mem_cons_self _ _)
    rw [sumAt_cons, ih (fun s hs => h s (List.mem_cons_of_mem _ hs))]
    have hne : ¬ (t.row = i ∧ t.col = j) := fun hc => hij (by rw [← hc.1, ← hc.2, ht])
    simp [hne]

/-- Every triplet of `complexLaplaceMatrix` sits on the diagonal, so its off-diagonal
entries are zero. -/
theorem complexLaplace_offdiag {K : Type} [LinearOrderedField K] (M : SurfaceMesh)
    (w : Nat → K) {u v : Nat} (huv : u ≠ v) :
    (complexLaplaceMatrix M w).coeff u v = 0 := by
  unfold complexLaplaceMatrix SparseMatrix.coeff SparseMatrix.setFromTriplets
  apply sumAt_offdiag huv
  intro t ht
  simp only [List.mem_flatMap, List.mem_append, List.mem_map, List.mem_singleton] at ht
  obtain ⟨a, _, ht | ht⟩ := ht
  · obtain ⟨b, _, rfl⟩ := ht
    rfl
  · subst ht
    rfl

theorem cornerTetrahedron_cotan0 : cornerTetrahedron.cotan 0 = 1 := by
  have hW : cornerTetrahedron.mesh.WellFormed := by decide
  have hh : (0 : Nat) < cornerTetrahedron.mesh.nHalfedges := by decide
  have h := cotan_eq cornerTetrahedron hW hh (by decide)
  norm_num [cornerTetrahedron, tetrahedron, lookup, Vector3.cross, Vector3.norm, Vector3.norm2,
    Vector3.dot, Vector3.sub_x, Vector3.sub_y, Vector3.sub_z] at h
  exact h

theorem cornerTetrahedron_cotan1 : cornerTetrahedron.cotan 1 = 1 := by
  have hW : cornerTetrahedron.mesh.WellFormed := by decide
  have hh : (1 : Nat) < cornerTetrahedron.mesh.nHalfedges := by decide
  have h := cotan_eq cornerTetrahedron hW hh (by decide)
  norm_num [cornerTetrahedron, tetrahedron, lookup, Vector3.cross, Vector3.norm, Vector3.norm2,
    Vector3.dot, Vector3.sub_x, Vector3.sub_y, Vector3.sub_z] at h
  exact h

theorem cornerTetrahedron_weight0 : cornerTetrahedron.edgeCotanWeight 0 = 1 := by
  have hW : cornerTetrahedron.mesh.WellFormed := by decide
  have hh : (0 : Nat) < cornerTetrahedron.mesh.nHalfedges := by decide
  have h := edgeCotanWeight_edge cornerTetrahedron hW hh
  have he : cornerTetrahedron.mesh.edge 0 = 0 := by decide
  have ht : cornerTetrahedron.mesh.twin 0 = 1 := by decide
  have hi0 : cornerTetrahedron.mesh.isInterior 0 = true := by decide
  have hi1 : cornerTetrahedron.mesh.isInterior 1 = true := by decide
  rw [he, ht, hi0, hi1, cornerTetrahedron_cotan0, cornerTetrahedron_cotan1] at h
  rw [h]
  norm_num

theorem obtuseTriangle_nonDegenerate : obtuseTriangle.NonDegenerate := by
  intro f hf
  have hf1 : f < 1 := hf
  unfold VertexPositionGeometry.faceArea Vector3.norm
  apply mul_pos (by norm_num)
  apply Real.sqrt_pos.mpr
  interval_cases f
  norm_num [obtuseTriangle, singleTriangle, lookup, Vector3.cross, Vector3.norm2,
    Vector3.sub_x, Vector3.sub_y, Vector3.sub_z]

/-- The edge opposite to the obtuse angle has a negative cotan weight. -/
theorem obtuseTriangle_weight1 : obtuseTriangle.edgeCotanWeight 1 = -0.5 := by
  have hW : obtuseTriangle.mesh.WellFormed := by decide
  have hh : (2 : Nat) < obtuseTriangle.mesh.nHalfedges := by decide
  have hc := cotan_eq obtuseTriangle hW hh (by decide)
  norm_num [obtuseTriangle, singleTriangle, lookup, Vector3.cross, Vector3.norm, Vector3.norm2,
    Vector3.dot, Vector3.sub_x, Vector3.sub_y, Vector3.sub_z] at hc
  have h := edgeCotanWeight_edge obtuseTriangle hW hh
  have he : obtuseTriangle.mesh.edge 2 = 1 := by decide
  have hi0 : obtuseTriangle.mesh.isInterior 2 = true := by decide
  have hi1 : obtuseTriangle.mesh.isInterior (obtuseTriangle.mesh.twin 2) = false := by decide
  rw [he, hi0, hi1] at h
  rw [h]
  simp only [if_true, Bool.false_eq_true, if_false]
  have hc2 : obtuseTriangle.cotan 2 = -1 := hc
  rw [hc2]
  norm_num

theorem cornerTetrahedron_nonDegenerate : cornerTetrahedron.NonDegenerate := by
  intro f hf
  have hf4 : f < 4 := hf
  unfold VertexPositionGeometry.faceArea Vector3.norm
  apply mul_pos (by norm_num)
  apply Real.sqrt_pos.mpr
  interval_cases f <;>
    norm_num [cornerTetrahedron, tetrahedron, lookup, Vector3.cross, Vector3.norm2,
      Vector3.sub_x, Vector3.sub_y, Vector3.sub_z]

end AngleLemmas

/-! ## Corner lemmas -/

section CornerLemmas

open Vector3 VertexPositionGeometry SparseMatrix

/-- In a triangle `next` of `h` runs from the tip of `h` to the opposite vertex. -/
theorem halfedgeVector_next (G : VertexPositionGeometry) (hW : G.mesh.WellFormed) {h : Nat}
    (hh : h < G.mesh.nHalfedges) :
    G.halfedgeVector (G.mesh.next h)
      = G.inputVertexPositions (G.mesh.tipVertex (G.mesh.next h))
        - G.inputVertexPositions (G.mesh.tipVertex h) := by
  unfold VertexPositionGeometry.halfedgeVector
  rw [← hW.tip_eq hh]

/-- In a triangle the twin of `next (next h)` runs from the tail of `h` to the opposite
vertex. -/
theorem halfedgeVector_twin_next_next (G : VertexPositionGeometry) (hW : G.mesh.WellFormed)
    {h : Nat} (hh : h < G.mesh.nHalfedges)
    (hcyc : G.mesh.next (G.mesh.next (G.mesh.next h)) = h) :
    G.halfedgeVector (G.mesh.twin (G.mesh.next (G.mesh.next h)))
      = G.inputVertexPositions (G.mesh.tipVertex (G.mesh.next h))
        - G.inputVertexPositions (G.mesh.tailVertex h) := by
  have h1 := hW.next_lt hh
  have h2 := hW.next_lt h1
  unfold VertexPositionGeometry.halfedgeVector
  rw [hW.tip_twin h2, hW.tail_twin h2, hW.tip_eq h2, hcyc, hW.tip_eq h1]

/-- At every halfedge `h` of a triangle `f` the cross product of the two edge vectors
that end at the opposite vertex has length twice the area of `f`. -/
theorem corner_cross_norm (G : VertexPositionGeometry) (hW : G.mesh.WellFormed)
    (hT : G.mesh.Triangulated) {h f : Nat} (hh : h < G.mesh.nHalfedges)
    (hf : G.mesh.face h = some f) :
    (Vector3.cross (G.halfedgeVector (G.mesh.next h))
        (G.halfedgeVector (G.mesh.twin (G.mesh.next (G.mesh.next h))))).norm
      = 2 * G.faceArea f := by
  obtain ⟨hflt, hmem⟩ := hW.face_spec hh hf
  obtain ⟨hadj, hcyc0⟩ := hT f hflt
  have hcyc := (next_cycle hW hT hh hf).1
  have h0 : G.mesh.faceHalfedge f < G.mesh.nHalfedges :=
    (hW.adjacent_spec hflt (by rw [hadj]; exact List.mem_cons_self _ _)).1
  have h1 := hW.next_lt h0
  have h2 := hW.next_lt h1
  rw [halfedgeVector_next G hW hh, halfedgeVector_twin_next_next G hW hh hcyc,
    faceArea_eq G hW hT hflt]
  obtain ⟨e1, e2, e3⟩ := Vector3.norm_cross_corner
    (G.inputVertexPositions (G.mesh.tailVertex (G.mesh.faceHalfedge f)))
    (G.inputVertexPositions (G.mesh.tailVertex (G.mesh.next (G.mesh.faceHalfedge f))))
    (G.inputVertexPositions
      (G.mesh.tailVertex (G.mesh.next (G.mesh.next (G.mesh.faceHalfedge f)))))
  have hhalf : ∀ x : ℝ, 2 * (0.5 * x) = x := fun x => by
    rw [show (0.5 : ℝ) = 1 / 2 by norm_num]; ring
  rw [hhalf]
  rw [hadj] at hmem
  simp only [List.mem_cons, List.mem_singleton, List.mem_nil_iff, or_false] at hmem
  rcases hmem with rfl | rfl | rfl
  · rw [hW.tip_eq h0, hW.tip_eq h1]
    exact e1
  · rw [hW.tip_eq h1, hW.tip_eq h2, hcyc0]
    exact e2
  · rw [hcyc0, hW.tip_eq h0, hW.tip_eq h2, hcyc0]
    exact e3

/-- The value of `cotan` at a halfedge of a triangle of positive area, from the two
halfedge vectors the code uses. -/
theorem cotan_interior (G : VertexPositionGeometry) (hW : G.mesh.WellFormed)
    (hT : G.mesh.Triangulated) {h f : Nat} (hh : h < G.mesh.nHalfedges)
    (hf : G.mesh.face h = some f) (hA : 0 < G.faceArea f) :
    G.cotan h
      = Vector3.dot (G.halfedgeVector (G.mesh.next h))
          (G.halfedgeVector (G.mesh.twin (G.mesh.next (G.mesh.next h))))
        / (2 * G.faceArea f) := by
  have hcyc := (next_cycle hW hT hh hf).1
  have hn := corner_cross_norm G hW hT hh hf
  have h1 := hW.next_lt hh
  have hv1 : G.halfedgeVector (G.mesh.next h)
      = G.inputVertexPositions (G.mesh.tailVertex (G.mesh.next (G.mesh.next h)))
        - G.inputVertexPositions (G.mesh.tailVertex (G.mesh.next h)) := by
    rw [halfedgeVector_next G hW hh, hW.tip_eq h1, hW.tip_eq hh]
  have hv2 : G.halfedgeVector (G.mesh.twin (G.mesh.next (G.mesh.next h)))
      = G.inputVertexPositions (G.mesh.tailVertex (G.mesh.next (G.mesh.next h)))
        - G.inputVertexPositions (G.mesh.tailVertex h) := by
    rw [halfedgeVector_twin_next_next G hW hh hcyc, hW.tip_eq h1]
  rw [hv1, hv2] at hn ⊢
  have hpos : 0 < (Vector3.cross
      (G.inputVertexPositions (G.mesh.tailVertex (G.mesh.next (G.mesh.next h)))
        - G.inputVertexPositions (G.mesh.tailVertex (G.mesh.next h)))
      (G.inputVertexPositions (G.mesh.tailVertex (G.mesh.next (G.mesh.next h)))
        - G.inputVertexPositions (G.mesh.tailVertex h))).norm := by
    rw [hn]; linarith
  rw [cotan_eq G hW hh hcyc hpos, hn]

end CornerLemmas

theorem Vector3.dot_neg_sub (a b c : Vector3) :
    Vector3.dot (a - c) (b - c) = Vector3.dot (c - b) (c - a) := by
  simp only [Vector3.dot, Vector3.sub_x, Vector3.sub_y, Vector3.sub_z]
  ring

theorem Vector3.norm_cross_neg_sub (a b c : Vector3) :
    (Vector3.cross (a - c) (b - c)).norm = (Vector3.cross (c - b) (c - a)).norm := by
  unfold Vector3.norm
  congr 1
  simp only [Vector3.norm2, Vector3.cross, Vector3.sub_x, Vector3.sub_y, Vector3.sub_z]
  ring

/-- In a face of positive area `cotan` is the dot product over the norm of the cross
product of the two vectors from the opposite vertex to the ends of the halfedge. -/
theorem cotan_corner (G : VertexPositionGeometry) (hW : G.mesh.WellFormed)
    (hT : G.mesh.Triangulated) {h f : Nat} (hh : h < G.mesh.nHalfedges)
    (hf : G.mesh.face h = some f) (hA : 0 < G.faceArea f) :
    G.cotan h
      = Vector3.dot
          (G.inputVertexPositions (G.mesh.tailVertex h)
            - G.inputVertexPositions (G.mesh.tipVertex (G.mesh.next h)))
          (G.inputVertexPositions (G.mesh.tipVertex h)
            - G.inputVertexPositions (G.mesh.tipVertex (G.mesh.next h)))
        / (Vector3.cross
          (G.inputVertexPositions (G.mesh.tailVertex h)
            - G.inputVertexPositions (G.mesh.tipVertex (G.mesh.next h)))
          (G.inputVertexPositions (G.mesh.tipVertex h)
            - G.inputVertexPositions (G.mesh.tipVertex (G.mesh.next h)))).norm := by
  have hcyc := (next_cycle hW hT hh hf).1
  rw [cotan_interior G hW hT hh hf hA, ← corner_cross_norm G hW hT hh hf,
    halfedgeVector_next G hW hh, halfedgeVector_twin_next_next G hW hh hcyc,
    Vector3.dot_neg_sub, Vector3.norm_cross_neg_sub]

/-- The checked `cotan` at a corner whose two vectors have a non-zero cross product:
no divisor is zero and the value is that of `cotan`. -/
theorem cotanChecked_of_pos (G : VertexPositionGeometry) (hW : G.mesh.WellFormed) {h : Nat}
    (hh : h < G.mesh.nHalfedges)
    (hpos : 0 < (Vector3.cross (G.halfedgeVector (G.mesh.next h))
      (G.halfedgeVector (G.mesh.twin (G.mesh.next (G.mesh.next h))))).norm) :
    G.cotanChecked h = some (G.cotan h) ∧
    G.cotan h = Vector3.dot (G.halfedgeVector (G.mesh.next h))
        (G.halfedgeVector (G.mesh.twin (G.mesh.next (G.mesh.next h))))
      / (Vector3.cross (G.halfedgeVector (G.mesh.next h))
        (G.halfedgeVector (G.mesh.twin (G.mesh.next (G.mesh.next h))))).norm := by
  have h1 := hW.next_lt hh
  have h2 := hW.next_lt h1
  obtain ⟨hn1, hn2⟩ := Vector3.norm_pos_of_cross _ _ hpos
  have hmode : |(G.halfedgeVector (G.mesh.next h)).norm
      * (G.halfedgeVector (G.mesh.twin (G.mesh.next (G.mesh.next h)))).norm| ≠ 0 :=
    abs_ne_zero.mpr (mul_pos hn1 hn2).ne'
  have hsin : (Vector3.cross (G.halfedgeVector (G.mesh.next h))
      (G.halfedgeVector (G.mesh.twin (G.mesh.next (G.mesh.next h))))).norm
      / |(G.halfedgeVector (G.mesh.next h)).norm
      * (G.halfedgeVector (G.mesh.twin (G.mesh.next (G.mesh.next h)))).norm| ≠ 0 :=
    div_ne_zero hpos.ne' hmode
  unfold VertexPositionGeometry.cotanChecked VertexPositionGeometry.cotan
    VertexPositionGeometry.divChecked
  simp only []
  rw [edgeLength_edge G hW h1, edgeLength_edge G hW (hW.twin_lt h2)]
  refine ⟨?_, div_div_div_cancel_right₀ hmode _ _⟩
  rw [if_neg hmode, Option.some_bind, if_neg hmode, Option.some_bind, if_neg hsin]

/-- The checked `cotan` at a corner whose two vectors have zero cross product: one
of the three divisions has divisor zero. -/
theorem cotanChecked_of_zero (G : VertexPositionGeometry) {h : Nat}
    (hzero : (Vector3.cross (G.halfedgeVector (G.mesh.next h))
      (G.halfedgeVector (G.mesh.twin (G.mesh.next (G.mesh.next h))))).norm = 0) :
    G.cotanChecked h = none := by
  unfold VertexPositionGeometry.cotanChecked VertexPositionGeometry.divChecked
  simp only []
  rw [hzero]
  split_ifs with hm <;> simp

/-! ## Hodge star lemmas -/

section HodgeStarLemmas

variable {K : Type} [LinearOrderedField K]

open SparseMatrix

/-- The entries of the matrix with one triplet `(i, i, a i)` per index `i < n`. -/
theorem coeff_diagonal (n : Nat) (a : Nat → K) {i : Nat} (hi : i < n) :
    (SparseMatrix.setFromTriplets n n
        ((List.range n).map (fun v => (⟨v, v, a v⟩ : Triplet K)))).coeff i i = a i := by
  unfold SparseMatrix.coeff SparseMatrix.setFromTriplets
  rw [sumAt_map, sum_range_single n i _ hi]
  · simp
  · intro k _ hk
    simp [hk]

theorem coeff_diagonal_offdiag (n : Nat) (a : Nat → K) {i j : Nat} (hij : i ≠ j) :
    (SparseMatrix.setFromTriplets n n
        ((List.range n).map (fun v => (⟨v, v, a v⟩ : Triplet K)))).coeff i j = 0 := by
  unfold SparseMatrix.coeff SparseMatrix.setFromTriplets
  apply sumAt_offdiag hij
  intro t ht
  simp only [List.mem_map] at ht
  obtain ⟨b, _, rfl⟩ := ht
  rfl

/-- The diagonal entry of `buildHodgeStar1Form` at edge `e`: half the sum of `cotan` at
the canonical halfedge of `e` and at its twin. -/
theorem hodgeStar1_coeff_diag (M : SurfaceMesh) (cotan : Nat → K) {e : Nat}
    (he : e < M.nEdges) :
    (buildHodgeStar1Form M cotan).coeff e e
      = 0.5 * (cotan (M.edgeHalfedge e) + cotan (M.twin (M.edgeHalfedge e))) := by
  have h := coeff_diagonal M.nEdges
    (fun e => 0.5 * (0.0 + cotan (M.edgeHalfedge e) + cotan (M.twin (M.edgeHalfedge e)))) he
  unfold buildHodgeStar1Form SurfaceMesh.edges
  simp only []
  rw [h]
  norm_num

theorem hodgeStar1_coeff_offdiag (M : SurfaceMesh) (cotan : Nat → K) {i j : Nat}
    (hij : i ≠ j) : (buildHodgeStar1Form M cotan).coeff i j = 0 :=
  coeff_diagonal_offdiag M.nEdges
    (fun e => 0.5 * (0.0 + cotan (M.edgeHalfedge e) + cotan (M.twin (M.edgeHalfedge e)))) hij

/-- The loop of `buildHodgeStar2Form` stores one entry `(f, f, a f)` per face. -/
theorem foldl_insert_triplets {R : Type} (l : List Nat) (a : Nat → R) (A : SparseMatrix R) :
    l.foldl (fun HodgeStar f => HodgeStar.insert f f (a f)) A
      = ⟨A.rows, A.cols, A.triplets ++ l.map (fun f => (⟨f, f, a f⟩ : Triplet R))⟩ := by
  induction l generalizing A with
  | nil => simp
  | cons b l ih =>
    rw [List.foldl_cons, ih]
    simp [SparseMatrix.insert]

theorem hodgeStar2_eq (M : SurfaceMesh) (faceArea : Nat → K) :
    buildHodgeStar2Form M faceArea
      = SparseMatrix.setFromTriplets M.nFaces M.nFaces
          ((List.range M.nFaces).map (fun f => (⟨f, f, 1 / faceArea f⟩ : Triplet K))) := by
  unfold buildHodgeStar2Form SurfaceMesh.faces SparseMatrix.setFromTriplets
  simp only []
  rw [foldl_insert_triplets]
  simp

theorem hodgeStar0_eq (M : SurfaceMesh) (faceArea : Nat → K) :
    buildHodgeStar0Form M faceArea
      = SparseMatrix.setFromTriplets M.nVertices M.nVertices
          ((List.range M.nVertices).map
            (fun v => (⟨v, v, barycentricDualArea M faceArea v⟩ : Triplet K))) := rfl

theorem massMatrix_eq (M : SurfaceMesh) (faceArea : Nat → K) :
    massMatrix M faceArea
      = SparseMatrix.setFromTriplets M.nVertices M.nVertices
          ((List.range M.nVertices).map
            (fun v => (⟨v, v, barycentricDualArea M faceArea v⟩ : Triplet K))) := rfl

/-- A sum of terms that are not negative, one of which is positive, is positive. -/
theorem sum_pos_of_mem {α : Type} (l : List α) (g : α → K) (hnn : ∀ a ∈ l, 0 ≤ g a)
    {b : α} (hb : b ∈ l) (hpos : 0 < g b) : 0 < (l.map g).sum := by
  induction l with
  | nil => simp at hb
  | cons a l ih =>
    rw [List.map_cons, List.sum_cons]
    have ha := hnn a (List.mem_cons_self _ _)
    have hl : ∀ c ∈ l, 0 ≤ g c := fun c hc => hnn c (List.mem_cons_of_mem _ hc)
    have hsum : 0 ≤ (l.map g).sum :=
      List.sum_nonneg (fun x hx => by
        simp only [List.mem_map] at hx
        obtain ⟨c, hc, rfl⟩ := hx
        exact hl c hc)
    rcases List.mem_cons.mp hb with rfl | hmem
    · linarith
    · have := ih hl hmem
      linarith

/-- The barycentric dual area of a vertex that lies on a face is positive when all face
areas are. -/
theorem barycentricDualArea_pos {M : SurfaceMesh} (hW : M.WellFormed) (faceArea : Nat → K)
    (hA : ∀ f, f < M.nFaces → 0 < faceArea f) {v : Nat} (hv : v < M.nVertices)
    (hface : ∃ h ∈ M.outgoingHalfedges v, M.isInterior h = true) :
    0 < barycentricDualArea M faceArea v := by
  rw [barycentricDualArea_eq]
  obtain ⟨h, hh, hint⟩ := hface
  have hterm : ∀ a ∈ M.outgoingHalfedges v,
      0 ≤ (M.face a).elim 0 (fun f => faceArea f / 3)
        ∧ (M.isInterior a = true → 0 < (M.face a).elim 0 (fun f => faceArea f / 3)) := by
    intro a ha
    have hlt := (hW.outgoing_spec hv ha).1
    unfold SurfaceMesh.isInterior
    cases hfa : M.face a with
    | none => simp
    | some f =>
      have hf := (hW.face_spec hlt hfa).1
      have hpos := hA f hf
      simp only [Option.elim, Option.isSome_some, forall_true_left]
      constructor
      · positivity
      · positivity
  exact sum_pos_of_mem _ _ (fun a ha => (hterm a ha).1) hh ((hterm h hh).2 hint)

end HodgeStarLemmas

section HodgeStarGeometry

open Vector3 VertexPositionGeometry SparseMatrix

theorem sqrt_nine : Real.sqrt 9 = 3 := by
  rw [show (9 : ℝ) = 3 * 3 by norm_num]
  exact Real.sqrt_mul_self (by norm_num)

theorem sqrt_sixteen : Real.sqrt 16 = 4 := by
  rw [show (16 : ℝ) = 4 * 4 by norm_num]
  exact Real.sqrt_mul_self (by norm_num)

theorem obtuseTetrahedron_nonDegenerate : obtuseTetrahedron.NonDegenerate := by
  intro f hf
  have hf4 : f < 4 := hf
  unfold VertexPositionGeometry.faceArea Vector3.norm
  apply mul_pos (by norm_num)
  apply Real.sqrt_pos.mpr
  interval_cases f <;>
    norm_num [obtuseTetrahedron, tetrahedron, lookup, Vector3.cross, Vector3.norm2,
      Vector3.sub_x, Vector3.sub_y, Vector3.sub_z]

/-- Both angles opposite to edge 2 of `obtuseTetrahedron` have cotan `-3/4`. -/
theorem obtuseTetrahedron_cotan :
    obtuseTetrahedron.cotan 4 = -(3 / 4) ∧ obtuseTetrahedron.cotan 5 = -(3 / 4) := by
  have hW : obtuseTetrahedron.mesh.WellFormed := by decide
  have c4 := cotan_eq obtuseTetrahedron hW
    (by decide : (4 : Nat) < obtuseTetrahedron.mesh.nHalfedges) (by decide)
  have c5 := cotan_eq obtuseTetrahedron hW
    (by decide : (5 : Nat) < obtuseTetrahedron.mesh.nHalfedges) (by decide)
  norm_num [obtuseTetrahedron, tetrahedron, lookup, Vector3.cross, Vector3.norm, Vector3.norm2,
    Vector3.dot, Vector3.sub_x, Vector3.sub_y, Vector3.sub_z, sqrt_sixteen] at c4 c5
  exact ⟨c4, c5⟩

/-- The diagonal entry of the Hodge star on 1-forms at an interior edge whose two
opposite angles are acute is positive. -/
theorem hodgeStar1_pos (G : VertexPositionGeometry) (hW : G.mesh.WellFormed)
    (hT : G.mesh.Triangulated) (hG : G.NonDegenerate) {e : Nat} (he : e < G.mesh.nEdges)
    (hi1 : G.mesh.isInterior (G.mesh.edgeHalfedge e) = true)
    (hi2 : G.mesh.isInterior (G.mesh.twin (G.mesh.edgeHalfedge e)) = true)
    (hd1 : 0 < Vector3.dot (G.halfedgeVector (G.mesh.next (G.mesh.edgeHalfedge e)))
      (G.halfedgeVector (G.mesh.twin (G.mesh.next (G.mesh.next (G.mesh.edgeHalfedge e))))))
    (hd2 : 0 < Vector3.dot
      (G.halfedgeVector (G.mesh.next (G.mesh.twin (G.mesh.edgeHalfedge e))))
      (G.halfedgeVector (G.mesh.twin
        (G.mesh.next (G.mesh.next (G.mesh.twin (G.mesh.edgeHalfedge e))))))) :
    0 < (buildHodgeStar1Form G.mesh G.cotan).coeff e e := by
  have hc := hW.edgeHalfedge_lt he
  have ht := hW.twin_lt hc
  unfold SurfaceMesh.isInterior at hi1 hi2
  obtain ⟨f1, hf1⟩ := Option.isSome_iff_exists.mp hi1
  obtain ⟨f2, hf2⟩ := Option.isSome_iff_exists.mp hi2
  have hA1 := hG f1 (hW.face_spec hc hf1).1
  have hA2 := hG f2 (hW.face_spec ht hf2).1
  rw [hodgeStar1_coeff_diag G.mesh G.cotan he, cotan_interior G hW hT hc hf1 hA1,
    cotan_interior G hW hT ht hf2 hA2]
  have p1 : 0 < Vector3.dot (G.halfedgeVector (G.mesh.next (G.mesh.edgeHalfedge e)))
      (G.halfedgeVector (G.mesh.twin (G.mesh.next (G.mesh.next (G.mesh.edgeHalfedge e)))))
        / (2 * G.faceArea f1) := div_pos hd1 (by linarith)
  have p2 : 0 < Vector3.dot
      (G.halfedgeVector (G.mesh.next (G.mesh.twin (G.mesh.edgeHalfedge e))))
      (G.halfedgeVector (G.mesh.twin
        (G.mesh.next (G.mesh.next (G.mesh.twin (G.mesh.edgeHalfedge e))))))
        / (2 * G.faceArea f2) := div_pos hd2 (by linarith)
  have hhalf : (0 : ℝ) < 0.5 := by norm_num
  exact mul_pos hhalf (add_pos p1 p2)

end HodgeStarGeometry

/-! ## Vertex normal lemmas -/

section NormalLemmas

open Vector3 VertexPositionGeometry

theorem Vector3.smul_x (s : ℝ) (a : Vector3) : (s * a).x = s * a.x := rfl

theorem Vector3.smul_y (s : ℝ) (a : Vector3) : (s * a).y = s * a.y := rfl

theorem Vector3.smul_z (s : ℝ) (a : Vector3) : (s * a).z = s * a.z := rfl

theorem Vector3.mul_x (a : Vector3) (s : ℝ) : (a * s).x = a.x * s := rfl

theorem Vector3.mul_y (a : Vector3) (s : ℝ) : (a * s).y = a.y * s := rfl

theorem Vector3.mul_z (a : Vector3) (s : ℝ) : (a * s).z = a.z * s := rfl

/-- Normalizing a vector that is not zero gives a vector of length 1. -/
theorem Vector3.norm_normalize {a : Vector3} (ha : a ≠ 0) : a.normalize.norm = 1 := by
  have hpos : 0 < a.norm := by
    rcases lt_or_eq_of_le (Vector3.norm_nonneg a) with h | h
    · exact h
    · exact absurd (Vector3.eq_zero_of_norm_eq_zero h.symm) ha
  unfold Vector3.normalize
  rw [Vector3.norm_div a hpos]
  exact div_self hpos.ne'

theorem cornerTetrahedron_faceNormal0 : cornerTetrahedron.faceNormal 0 = ⟨0, 0, -1⟩ := by
  unfold VertexPositionGeometry.faceNormal Vector3.normalize Vector3.norm
  apply Vector3.ext <;>
    norm_num [cornerTetrahedron, tetrahedron, lookup, Vector3.cross, Vector3.norm2,
      Vector3.sub_x, Vector3.sub_y, Vector3.sub_z, Vector3.div_x, Vector3.div_y, Vector3.div_z]

theorem cornerTetrahedron_faceNormal1 : cornerTetrahedron.faceNormal 1 = ⟨0, -1, 0⟩ := by
  unfold VertexPositionGeometry.faceNormal Vector3.normalize Vector3.norm
  apply Vector3.ext <;>
    norm_num [cornerTetrahedron, tetrahedron, lookup, Vector3.cross, Vector3.norm2,
      Vector3.sub_x, Vector3.sub_y, Vector3.sub_z, Vector3.div_x, Vector3.div_y, Vector3.div_z]

theorem cornerTetrahedron_faceNormal3 : cornerTetrahedron.faceNormal 3 = ⟨-1, 0, 0⟩ := by
  unfold VertexPositionGeometry.faceNormal Vector3.normalize Vector3.norm
  apply Vector3.ext <;>
    norm_num [cornerTetrahedron, tetrahedron, lookup, Vector3.cross, Vector3.norm2,
      Vector3.sub_x, Vector3.sub_y, Vector3.sub_z, Vector3.div_x, Vector3.div_y, Vector3.div_z]

end NormalLemmas

/-! ## Circumcentric dual area lemmas -/

section CircumcentricLemmas

open Vector3 VertexPositionGeometry SparseMatrix

theorem Vector3.norm_mul_self (a : Vector3) : a.norm * a.norm = a.norm2 := by
  unfold Vector3.norm
  apply Real.mul_self_sqrt
  unfold Vector3.norm2
  nlinarith [mul_self_nonneg a.x, mul_self_nonneg a.y, mul_self_nonneg a.z]

/-- The squared lengths of the three edges of a triangle, each times the dot product at
the opposite corner, add up to twice the squared norm of the cross product. -/
theorem Vector3.triangle_cotan_identity (a b c : Vector3) :
    (b - a).norm2 * Vector3.dot (c - b) (c - a)
      + (c - b).norm2 * Vector3.dot (a - c) (a - b)
      + (a - c).norm2 * Vector3.dot (b - a) (b - c)
    = 2 * (Vector3.cross (b - a) (c - a)).norm2 := by
  simp only [Vector3.norm2, Vector3.dot, Vector3.cross, Vector3.sub_x, Vector3.sub_y,
    Vector3.sub_z]
  ring

theorem halfedgeVector_tail (G : VertexPositionGeometry) (hW : G.mesh.WellFormed) {h : Nat}
    (hh : h < G.mesh.nHalfedges) :
    G.halfedgeVector h
      = G.inputVertexPositions (G.mesh.tailVertex (G.mesh.next h))
        - G.inputVertexPositions (G.mesh.tailVertex h) := by
  unfold VertexPositionGeometry.halfedgeVector
  rw [hW.tip_eq hh]

theorem halfedgeVector_twin_tail (G : VertexPositionGeometry) (hW : G.mesh.WellFormed)
    {h : Nat} (hh : h < G.mesh.nHalfedges) :
    G.halfedgeVector (G.mesh.twin h)
      = G.inputVertexPositions (G.mesh.tailVertex h)
        - G.inputVertexPositions (G.mesh.tailVertex (G.mesh.next h)) := by
  unfold VertexPositionGeometry.halfedgeVector
  rw [hW.tip_twin hh, hW.tail_twin hh, hW.tip_eq hh]

theorem circumcentricDualArea_eq (G : VertexPositionGeometry) (v : Nat) :
    G.circumcentricDualArea v
      = ((G.mesh.outgoingHalfedges v).map (fun he =>
          G.edgeLength (G.mesh.edge he) * G.edgeLength (G.mesh.edge he)
            * (G.cotan he + G.cotan (G.mesh.twin he)))).sum / 8 := by
  unfold VertexPositionGeometry.circumcentricDualArea
  simp only []
  rw [foldl_add_eq_sum]
  norm_num

/-- In a triangular face of positive area the squared edge lengths times the cotans of
the opposite angles add up to four times the area. -/
theorem face_cotan_sum (G : VertexPositionGeometry) (hW : G.mesh.WellFormed)
    (hT : G.mesh.Triangulated) (hG : G.NonDegenerate) {f : Nat} (hf : f < G.mesh.nFaces) :
    ((G.mesh.adjacentHalfedges f).map (fun he =>
        G.edgeLength (G.mesh.edge he) * G.edgeLength (G.mesh.edge he) * G.cotan he)).sum
      = 4 * G.faceArea f := by
  obtain ⟨hadj, hcyc⟩ := hT f hf
  have hs := hW.adjacent_spec hf
    (by rw [hadj]; exact List.mem_cons_self _ _ : G.mesh.faceHalfedge f ∈ _)
  have h0 := hs.1
  have f0 := hs.2
  have h1 := hW.next_lt h0
  have h2 := hW.next_lt h1
  have f1 := (next_cycle hW hT h0 f0).2
  have f2 := (next_cycle hW hT h1 f1).2
  have hA := hG f hf
  have c0 := cotan_interior G hW hT h0 f0 hA
  have c1 := cotan_interior G hW hT h1 f1 hA
  have c2 := cotan_interior G hW hT h2 f2 hA
  rw [hcyc] at c1 c2
  have hN : (Vector3.cross
      (G.inputVertexPositions (G.mesh.tailVertex (G.mesh.next (G.mesh.faceHalfedge f)))
        - G.inputVertexPositions (G.mesh.tailVertex (G.mesh.faceHalfedge f)))
      (G.inputVertexPositions
          (G.mesh.tailVertex (G.mesh.next (G.mesh.next (G.mesh.faceHalfedge f))))
        - G.inputVertexPositions (G.mesh.tailVertex (G.mesh.faceHalfedge f)))).norm
      = 2 * G.faceArea f := by
    rw [faceArea_eq G hW hT hf, show (0.5 : ℝ) = 1 / 2 by norm_num]
    ring
  rw [hadj]
  simp only [List.map_cons, List.map_nil, List.sum_cons, List.sum_nil, add_zero]
  rw [c0, c1, c2, edgeLength_edge G hW h0, edgeLength_edge G hW h1, edgeLength_edge G hW h2,
    halfedgeVector_twin_tail G hW h0, halfedgeVector_twin_tail G hW h1,
    halfedgeVector_twin_tail G hW h2, halfedgeVector_tail G hW h0,
    halfedgeVector_tail G hW h1, halfedgeVector_tail G hW h2, hcyc,
    Vector3.norm_mul_self, Vector3.norm_mul_self, Vector3.norm_mul_self,
    ← mul_div_assoc, ← mul_div_assoc, ← mul_div_assoc, ← add_assoc, ← add_div, ← add_div,
    Vector3.triangle_cotan_identity, ← Vector3.norm_mul_self, hN]
  field_simp
  ring

/-- On a closed triangle mesh without degenerate faces the circumcentric dual areas of
all vertices add up to the total area. -/
theorem sum_circumcentricDualArea (G : VertexPositionGeometry)
    (hM : G.mesh.ClosedManifoldTriangleMesh) (hG : G.NonDegenerate) :
    ∑ v ∈ Finset.range G.mesh.nVertices, G.circumcentricDualArea v
      = totalArea G.mesh G.faceArea := by
  obtain ⟨hW, hT, hC⟩ := hM
  have hstep1 : ∑ v ∈ Finset.range G.mesh.nVertices, G.circumcentricDualArea v
      = (∑ h ∈ Finset.range G.mesh.nHalfedges,
          G.edgeLength (G.mesh.edge h) * G.edgeLength (G.mesh.edge h)
            * (G.cotan h + G.cotan (G.mesh.twin h))) / 8 := by
    rw [← sum_vertices_outgoing hW, Finset.sum_div]
    exact Finset.sum_congr rfl (fun v _ => circumcentricDualArea_eq G v)
  have htw : ∑ h ∈ Finset.range G.mesh.nHalfedges,
        G.edgeLength (G.mesh.edge h) * G.edgeLength (G.mesh.edge h) * G.cotan (G.mesh.twin h)
      = ∑ h ∈ Finset.range G.mesh.nHalfedges,
        G.edgeLength (G.mesh.edge h) * G.edgeLength (G.mesh.edge h) * G.cotan h := by
    rw [← sum_halfedges_twin hW (fun h =>
      G.edgeLength (G.mesh.edge h) * G.edgeLength (G.mesh.edge h) * G.cotan h)]
    apply Finset.sum_congr rfl
    intro h hh
    rw [hW.edge_twin (Finset.mem_range.mp hh)]
  have hfaces : ∑ h ∈ Finset.range G.mesh.nHalfedges,
        G.edgeLength (G.mesh.edge h) * G.edgeLength (G.mesh.edge h) * G.cotan h
      = ∑ f ∈ Finset.range G.mesh.nFaces, 4 * G.faceArea f := by
    have h := sum_faces_adjacent hW (fun (_ : Nat) he =>
      G.edgeLength (G.mesh.edge he) * G.edgeLength (G.mesh.edge he) * G.cotan he)
    rw [Finset.sum_congr rfl
      (fun f hf => face_cotan_sum G hW hT hG (Finset.mem_range.mp hf))] at h
    rw [h]
    apply Finset.sum_congr rfl
    intro h hh
    have hint := hC h (Finset.mem_range.mp hh)
    unfold SurfaceMesh.isInterior at hint
    obtain ⟨f, hf⟩ := Option.isSome_iff_exists.mp hint
    rw [hf]
    rfl
  rw [hstep1, totalArea_eq]
  simp only [mul_add]
  rw [Finset.sum_add_distrib, htw, hfaces, ← Finset.mul_sum]
  ring

end CircumcentricLemmas

/-! ## Curvature lemmas -/

section CurvatureLemmas

open Vector3 VertexPositionGeometry

theorem dihedralAngle_interior (G : VertexPositionGeometry) {h f1 f2 : Nat}
    (h1 : G.mesh.face h = some f1) (h2 : G.mesh.face (G.mesh.twin h) = some f2) :
    G.dihedralAngle h
      = some (atan2
          (Vector3.dot (G.halfedgeVector h).normalize
            (Vector3.cross (G.faceNormal f1) (G.faceNormal f2)))
          (Vector3.dot (G.faceNormal f1) (G.faceNormal f2))) := by
  unfold VertexPositionGeometry.dihedralAngle
  rw [h1, h2]

/-- When every dihedral angle read by `scalarMeanCurvature` exists, the routine returns a
value. -/
theorem scalarMeanCurvature_of_dihedral (G : VertexPositionGeometry) (v : Nat)
    (hall : ∀ he ∈ G.mesh.outgoingHalfedges v, ∃ a, G.dihedralAngle he = some a) :
    ∃ m, G.scalarMeanCurvature v = some m := by
  have hfold : ∀ (l : List Nat), (∀ he ∈ l, ∃ a, G.dihedralAngle he = some a) →
      ∀ s : ℝ, ∃ r, l.foldl
        (fun scalarMeanCurvature he =>
          match scalarMeanCurvature, G.dihedralAngle he with
          | some s, some angle => some (s + G.edgeLength (G.mesh.edge he) * angle)
          | _, _ => none)
        (some s) = some r := by
    intro l
    induction l with
    | nil => intro _ s; exact ⟨s, rfl⟩
    | cons he l ih =>
      intro hl s
      obtain ⟨a, ha⟩ := hl he (List.mem_cons_self _ _)
      rw [List.foldl_cons, ha]
      exact ih (fun k hk => hl k (List.mem_cons_of_mem _ hk)) _
  obtain ⟨r, hr⟩ := hfold _ hall 0.0
  unfold VertexPositionGeometry.scalarMeanCurvature
  simp only []
  rw [hr]
  exact ⟨r / 2, rfl⟩

/-- On a closed mesh every dihedral angle read by `scalarMeanCurvature` exists, and the
routine returns a value. -/
theorem scalarMeanCurvature_closed (G : VertexPositionGeometry) (hW : G.mesh.WellFormed)
    (hC : G.mesh.Closed) {v : Nat} (hv : v < G.mesh.nVertices) :
    ∃ m, G.scalarMeanCurvature v = some m := by
  apply scalarMeanCurvature_of_dihedral
  intro he hmem
  have hh := (hW.outgoing_spec hv hmem).1
  have i1 := hC he hh
  have i2 := hC _ (hW.twin_lt hh)
  unfold SurfaceMesh.isInterior at i1 i2
  obtain ⟨f1, hf1⟩ := Option.isSome_iff_exists.mp i1
  obtain ⟨f2, hf2⟩ := Option.isSome_iff_exists.mp i2
  exact ⟨_, dihedralAngle_interior G hf1 hf2⟩

end CurvatureLemmas

/-! ## The Laplace matrix as a product -/

section ProductLemmas

open SparseMatrix

variable {K : Type} [LinearOrderedField K]

theorem coeff_transpose (A : SparseMatrix K) (i j : Nat) :
    A.transpose.coeff i j = A.coeff j i := by
  have h := sumAt_map (fun t : Triplet K => t) A.triplets j i
  rw [List.map_id'] at h
  unfold SparseMatrix.coeff SparseMatrix.transpose
  rw [sumAt_map, h]
  congr 1
  apply List.map_congr_left
  intro t _
  simp only [and_comm]

/-- The entry of `d0ᵀ * star1 * d0` as a sum over the edges. -/
theorem product_coeff (M : SurfaceMesh) (cotan : Nat → K) (u v : Nat) :
    (buildExteriorDerivative0Form M : SparseMatrix K).transpose.mulCoeff3
        (buildHodgeStar1Form M cotan) (buildExteriorDerivative0Form M) u v
      = ∑ e ∈ Finset.range M.nEdges,
          (buildExteriorDerivative0Form M : SparseMatrix K).coeff e u
            * (0.5 * (cotan (M.edgeHalfedge e) + cotan (M.twin (M.edgeHalfedge e))))
            * (buildExteriorDerivative0Form M : SparseMatrix K).coeff e v := by
  unfold SparseMatrix.mulCoeff3 SparseMatrix.mulCoeff
  have hc : (buildHodgeStar1Form M cotan).cols = M.nEdges := rfl
  have hr : (buildExteriorDerivative0Form M : SparseMatrix K).transpose.cols = M.nEdges := rfl
  rw [hc, hr, sum_map_range]
  apply Finset.sum_congr rfl
  intro e he
  have he2 := Finset.mem_range.mp he
  rw [sum_range_single M.nEdges e _ he2, hodgeStar1_coeff_diag M cotan he2, coeff_transpose]
  intro k _ hk
  rw [hodgeStar1_coeff_offdiag M cotan hk, mul_zero]

/-- The entry of the Laplace matrix without the shift as a sum over the edges. -/
theorem laplace_coeff_edges {M : SurfaceMesh} (hW : M.WellFormed) (w : Nat → K) {u : Nat}
    (hu : u < M.nVertices) (v : Nat) :
    (laplaceMatrix M w).coeff u v
      = ∑ e ∈ Finset.range M.nEdges,
          w e * (((if M.firstVertex e = u then 1 else 0) * (if M.firstVertex e = v then 1 else 0)
              - (if M.firstVertex e = u then 1 else 0) * (if M.secondVertex e = v then 1 else 0))
            + ((if M.secondVertex e = u then 1 else 0) * (if M.secondVertex e = v then 1 else 0)
              - (if M.secondVertex e = u then 1 else 0)
                * (if M.firstVertex e = v then 1 else 0)))
        + (if u = v then 1e-8 else 0) := by
  rw [laplace_coeff M w hW.outgoing_tail hu v, sum_outgoing hW hu, sum_outgoing hW hu]
  have hsplit : (∑ h ∈ (Finset.range M.nHalfedges).filter (fun h => M.tailVertex h = u),
        (if M.tipVertex h = v then -w (M.edge h) else 0))
      + (if u = v then (∑ h ∈ (Finset.range M.nHalfedges).filter
          (fun h => M.tailVertex h = u), w (M.edge h)) + 1e-8 else 0)
      = (∑ h ∈ Finset.range M.nHalfedges,
          (if M.tailVertex h = u then
            w (M.edge h) * ((if u = v then 1 else 0) - (if M.tipVertex h = v then 1 else 0))
            else 0))
        + (if u = v then 1e-8 else 0) := by
    rw [Finset.sum_filter, Finset.sum_filter]
    by_cases huv : u = v
    · subst huv
      simp only [eq_self_iff_true, if_true]
      rw [← add_assoc, ← Finset.sum_add_distrib]
      congr 1
      apply Finset.sum_congr rfl
      intro h _
      split_ifs <;> simp
    · simp only [huv, if_false, add_zero]
      apply Finset.sum_congr rfl
      intro h _
      split_ifs <;> simp
  rw [hsplit, sum_halfedges_by_edge hW]
  congr 1
  apply Finset.sum_congr rfl
  intro e he
  have he2 := Finset.mem_range.mp he
  have hc := hW.edgeHalfedge_lt he2
  rw [hW.tail_twin hc, hW.tip_twin hc, hW.edge_twin hc, hW.edge_edgeHalfedge he2]
  unfold SurfaceMesh.firstVertex SurfaceMesh.secondVertex
  generalize M.tailVertex (M.edgeHalfedge e) = a
  generalize M.tipVertex (M.edgeHalfedge e) = b
  generalize w e = x
  split_ifs <;> first | ring1 | (exfalso; omega)

end ProductLemmas

/-! ## The complex Laplace matrix as written -/

section ComplexLaplaceLemmas

open SparseMatrix

variable {K : Type} [LinearOrderedField K]

/-- The accumulator `value` of `complexLaplaceMatrix` adds the weights to its real part
and keeps its imaginary part. -/
theorem complexValue_foldl (l : List Nat) (g : Nat → K) (init : ComplexScalar K) :
    l.foldl (fun value he => (value.1 + g he, value.2)) init
      = (init.1 + (l.map g).sum, init.2) := by
  induction l generalizing init with
  | nil => simp
  | cons a l ih =>
    rw [List.foldl_cons, ih]
    simp [add_assoc]

/-- The triplets `(-cot, 0.0)` of one vertex add up to minus the sum of the weights. -/
theorem complexTriplets_sum (l : List Nat) (g : Nat → K) :
    (l.map (fun he => ((-g he, 0.0) : ComplexScalar K))).sum = (-(l.map g).sum, 0) := by
  induction l with
  | nil => simp
  | cons a l ih =>
    rw [List.map_cons, List.sum_cons, ih]
    apply Prod.ext
    · simp only [Prod.fst_add, List.map_cons, List.sum_cons]
      ring
    · simp only [Prod.snd_add]
      norm_num

/-- In the diagonal entry of `complexLaplaceMatrix` at a vertex the per-halfedge
triplets cancel against the accumulated sum, and the shift remains. -/
theorem complexLaplace_diag (M : SurfaceMesh) (w : Nat → K) {v : Nat}
    (hv : v < M.nVertices) :
    (complexLaplaceMatrix M w).coeff v v = (1e-8, 0) := by
  unfold complexLaplaceMatrix SparseMatrix.coeff SparseMatrix.setFromTriplets
  simp only [SurfaceMesh.vertices]
  rw [sumAt_flatMap, sum_range_single M.nVertices v _ hv]
  · rw [sumAt_append, sumAt_map, sumAt_cons, sumAt_nil, complexValue_foldl]
    simp only [and_self, if_true, add_zero]
    rw [complexTriplets_sum]
    apply Prod.ext
    · simp only [Prod.fst_add]
      norm_num
    · simp only [Prod.snd_add]
      norm_num
  · intro k _ hkv
    apply sumAt_eq_zero_of_row
    intro t ht
    rw [List.mem_append] at ht
    rcases ht with ht | ht
    · simp only [List.mem_map] at ht
      obtain ⟨a, _, rfl⟩ := ht
      exact hkv
    · simp only [List.mem_singleton] at ht
      subst ht
      exact hkv

end ComplexLaplaceLemmas

/-! ## Claims -/

section Claims

open SparseMatrix

/-- C1. On a closed manifold triangle mesh the product
`buildExteriorDerivative1Form() * buildExteriorDerivative0Form()` is a well-formed
faces-by-vertices product (the inner dimensions agree) and each of its entries is zero,
in exact arithmetic over any linearly ordered field. -/
theorem d1_mul_d0_eq_zero {K : Type} [LinearOrderedField K] (M : SurfaceMesh)
    (hM : M.ClosedManifoldTriangleMesh) :
    (buildExteriorDerivative1Form M : SparseMatrix K).rows = M.nFaces ∧
    (buildExteriorDerivative1Form M : SparseMatrix K).cols
      = (buildExteriorDerivative0Form M : SparseMatrix K).rows ∧
    (buildExteriorDerivative0Form M : SparseMatrix K).cols = M.nVertices ∧
    ∀ f v, f < M.nFaces → v < M.nVertices →
      (buildExteriorDerivative1Form M : SparseMatrix K).mulCoeff
        (buildExteriorDerivative0Form M) f v = 0 := by
  obtain ⟨hW, hT, _⟩ := hM
  refine ⟨rfl, rfl, rfl, ?_⟩
  intro f v hf _
  have hcols : (buildExteriorDerivative1Form M : SparseMatrix K).cols = M.nEdges := rfl
  unfold SparseMatrix.mulCoeff
  rw [hcols]
  have hrow : ∀ e, (buildExteriorDerivative1Form M : SparseMatrix K).coeff f e
      = ((M.adjacentHalfedges f).map
          (fun he => if M.edge he = e then (if M.orientation he then (1 : K) else -1) else 0)).sum :=
    fun e => d1_coeff M hf e
  simp only [hrow]
  rw [sum_range_mul_keyed M.nEdges (M.adjacentHalfedges f) M.edge
    (fun he => if M.orientation he then (1 : K) else -1)
    (fun e => (buildExteriorDerivative0Form M : SparseMatrix K).coeff e v)
    (fun a ha => hW.edge_lt (hW.adjacent_spec hf ha).1)]
  obtain ⟨hadj, hcyc⟩ := hT f hf
  have h0 : M.faceHalfedge f < M.nHalfedges :=
    (hW.adjacent_spec hf (by rw [hadj]; exact List.mem_cons_self _ _)).1
  have h1 := hW.next_lt h0
  have h2 := hW.next_lt h1
  rw [hadj]
  simp only [List.map_cons, List.map_nil, List.sum_cons, List.sum_nil]
  rw [d1_d0_halfedge hW h0, d1_d0_halfedge hW h1, d1_d0_halfedge hW h2,
    hW.tip_eq h0, hW.tip_eq h1, hW.tip_eq h2, hcyc]
  ring

/-- C1 at the tetrahedron, entry (0, 0), over the rationals. -/
theorem d1_mul_d0_eq_zero_witness :
    tetrahedron.ClosedManifoldTriangleMesh ∧
    (buildExteriorDerivative1Form tetrahedron : SparseMatrix ℚ).mulCoeff
      (buildExteriorDerivative0Form tetrahedron) 0 0 = 0 :=
  ⟨by decide,
    (d1_mul_d0_eq_zero tetrahedron (by decide)).2.2.2 0 0 (by decide) (by decide)⟩

/-- C2. On a closed manifold triangle mesh with non-degenerate faces, `totalAngleDefect()`
equals `2 * pi * eulerCharacteristic()` in exact real arithmetic, where
`eulerCharacteristic() = nVertices - nEdges + nFaces`. -/
theorem gauss_bonnet (G : VertexPositionGeometry) (hM : G.mesh.ClosedManifoldTriangleMesh)
    (hG : G.NonDegenerate) :
    G.totalAngleDefect = 2 * Real.pi * (eulerCharacteristic G.mesh : ℝ) := by
  have hE := nHalfedges_eq_two_nEdges hM.1
  have hF := nHalfedges_eq_three_nFaces hM
  rw [totalAngleDefect_eq G hM hG]
  unfold eulerCharacteristic
  push_cast
  have hEF : (G.mesh.nEdges : ℝ) = 3 / 2 * G.mesh.nFaces := by linarith
  rw [hEF]
  ring

/-- C2 at the tetrahedron with vertices at the origin and the three unit points. -/
theorem gauss_bonnet_witness :
    cornerTetrahedron.mesh.ClosedManifoldTriangleMesh ∧ cornerTetrahedron.NonDegenerate ∧
    cornerTetrahedron.totalAngleDefect
      = 2 * Real.pi * (eulerCharacteristic cornerTetrahedron.mesh : ℝ) :=
  ⟨by decide, cornerTetrahedron_nonDegenerate,
    gauss_bonnet cornerTetrahedron (by decide) cornerTetrahedron_nonDegenerate⟩

/-- C3. For a mesh whose outgoing halfedges leave the vertex they are listed under and
end at a vertex of the mesh, and for any edge weights, the off-diagonal entries of row
`v` of `laplaceMatrix()` sum to `-(L[v,v] - 1e-8)` and the whole row sums to `1e-8`
(exact arithmetic, duplicate triplets summed). -/
theorem laplaceMatrix_row_sum {K : Type} [LinearOrderedField K] (M : SurfaceMesh)
    (edgeCotanWeight : Nat → K)
    (hout : ∀ a, a < M.nVertices → ∀ h ∈ M.outgoingHalfedges a,
      M.tailVertex h = a ∧ M.tipVertex h < M.nVertices)
    (v : Nat) (hv : v < M.nVertices) :
    ((List.range M.nVertices).map
        (fun u => if u = v then 0 else (laplaceMatrix M edgeCotanWeight).coeff v u)).sum
      = -((laplaceMatrix M edgeCotanWeight).coeff v v - 1e-8) ∧
    ((List.range M.nVertices).map
        (fun u => (laplaceMatrix M edgeCotanWeight).coeff v u)).sum = 1e-8 := by
  have hrow := laplace_row_sum M edgeCotanWeight hout hv
  refine ⟨?_, hrow⟩
  have hsplit : ((List.range M.nVertices).map
        (fun u => (laplaceMatrix M edgeCotanWeight).coeff v u)).sum
      = ((List.range M.nVertices).map
          (fun u => if u = v then 0 else (laplaceMatrix M edgeCotanWeight).coeff v u)).sum
        + ((List.range M.nVertices).map
          (fun u => if u = v then (laplaceMatrix M edgeCotanWeight).coeff v u else 0)).sum := by
    rw [← sum_map_add]
    congr 1
    apply List.map_congr_left
    intro u _
    split_ifs <;> simp
  have hdiag : ((List.range M.nVertices).map
        (fun u => if u = v then (laplaceMatrix M edgeCotanWeight).coeff v u else 0)).sum
      = (laplaceMatrix M edgeCotanWeight).coeff v v := by
    rw [sum_range_single M.nVertices v
      (fun u => if u = v then (laplaceMatrix M edgeCotanWeight).coeff v u else 0) hv]
    · simp
    · intro k _ hk
      simp [hk]
  rw [hdiag, hrow] at hsplit
  linear_combination -hsplit

/-- C3 at the tetrahedron, row 0, with every edge weight equal to 1. -/
theorem laplaceMatrix_row_sum_witness :
    ((List.range tetrahedron.nVertices).map
        (fun u => if u = 0 then 0
          else (laplaceMatrix tetrahedron (fun _ => (1 : ℚ))).coeff 0 u)).sum
      = -((laplaceMatrix tetrahedron (fun _ => (1 : ℚ))).coeff 0 0 - 1e-8) ∧
    ((List.range tetrahedron.nVertices).map
        (fun u => (laplaceMatrix tetrahedron (fun _ => (1 : ℚ))).coeff 0 u)).sum = 1e-8 :=
  laplaceMatrix_row_sum tetrahedron (fun _ => (1 : ℚ)) (by decide) 0 (by decide)

/-- C4. On a manifold halfedge mesh, for any edge weights, `laplaceMatrix()` is an
`nVertices` by `nVertices` matrix with `L[u,v] = L[v,u]` for all vertices `u`, `v`. -/
theorem laplaceMatrix_symmetric {K : Type} [LinearOrderedField K] (M : SurfaceMesh)
    (edgeCotanWeight : Nat → K) (hW : M.WellFormed)
    (u v : Nat) (hu : u < M.nVertices) (hv : v < M.nVertices) :
    (laplaceMatrix M edgeCotanWeight).rows = M.nVertices ∧
    (laplaceMatrix M edgeCotanWeight).cols = M.nVertices ∧
    (laplaceMatrix M edgeCotanWeight).coeff u v
      = (laplaceMatrix M edgeCotanWeight).coeff v u := by
  refine ⟨rfl, rfl, ?_⟩
  rw [laplace_coeff M edgeCotanWeight hW.outgoing_tail hu v,
    laplace_coeff M edgeCotanWeight hW.outgoing_tail hv u,
    sum_outgoing_tip_symm hW edgeCotanWeight hu hv]
  by_cases huv : u = v
  · subst huv
    rfl
  · rw [if_neg huv, if_neg (Ne.symm huv)]

/-- C4 at the tetrahedron, entries (0, 1) and (1, 0), with every edge weight equal to 1. -/
theorem laplaceMatrix_symmetric_witness :
    tetrahedron.WellFormed ∧
    (laplaceMatrix tetrahedron (fun _ => (1 : ℚ))).coeff 0 1
      = (laplaceMatrix tetrahedron (fun _ => (1 : ℚ))).coeff 1 0 :=
  ⟨by decide,
    (laplaceMatrix_symmetric tetrahedron (fun _ => (1 : ℚ)) (by decide) 0 1
      (by decide) (by decide)).2.2⟩

/-- C5. On a manifold triangle mesh (with or without boundary) with non-degenerate faces,
`laplaceMatrix()` is positive definite: `xᵀ L x > 0` for every real vector `x` that is
non-zero at some vertex. The edge weights are `edgeCotanWeight`, built from `cotan`; single
weights may be negative. -/
theorem laplaceMatrix_positive_definite (G : VertexPositionGeometry)
    (hW : G.mesh.WellFormed) (hT : G.mesh.Triangulated) (hG : G.NonDegenerate)
    (x : Nat → ℝ) (hx : ∃ v, v < G.mesh.nVertices ∧ x v ≠ 0) :
    0 < (laplaceMatrix G.mesh G.edgeCotanWeight).quadForm x := by
  rw [laplace_quadForm_faces G hW x]
  have hfaces : 0 ≤ ∑ f ∈ Finset.range G.mesh.nFaces,
      ((G.mesh.adjacentHalfedges f).map
        (fun h => 0.5 * G.cotan h
          * ((x (G.mesh.tailVertex h) - x (G.mesh.tipVertex h))
            * (x (G.mesh.tailVertex h) - x (G.mesh.tipVertex h))))).sum :=
    Finset.sum_nonneg (fun f hf => face_energy_nonneg G hW hT hG (Finset.mem_range.mp hf) x)
  obtain ⟨v, hv, hxv⟩ := hx
  have hsq : 0 < ∑ v ∈ Finset.range G.mesh.nVertices, x v * x v :=
    Finset.sum_pos' (fun u _ => mul_self_nonneg (x u))
      ⟨v, Finset.mem_range.mpr hv, mul_self_pos.mpr hxv⟩
  have hshift : (0 : ℝ) < 1e-8 := by norm_num
  have hpos := mul_pos hshift hsq
  linarith

/-- C5 at the single triangle with vertices (0,0,0), (1,0,0), (-1,1,0), a mesh with
boundary whose edge opposite to the obtuse angle has the negative weight `-0.5`, for the
vector that is 1 at vertex 0 and 0 elsewhere. -/
theorem laplaceMatrix_positive_definite_witness :
    obtuseTriangle.mesh.WellFormed ∧ obtuseTriangle.mesh.Triangulated ∧
    obtuseTriangle.NonDegenerate ∧ obtuseTriangle.edgeCotanWeight 1 < 0 ∧
    0 < (laplaceMatrix obtuseTriangle.mesh obtuseTriangle.edgeCotanWeight).quadForm
      (fun v => if v = 0 then 1 else 0) :=
  ⟨by decide, by decide, obtuseTriangle_nonDegenerate,
    by rw [obtuseTriangle_weight1]; norm_num,
    laplaceMatrix_positive_definite obtuseTriangle (by decide) (by decide)
      obtuseTriangle_nonDegenerate (fun v => if v = 0 then 1 else 0)
      ⟨0, by decide, by norm_num⟩⟩

/-- C6 fails on the code. At the tetrahedron with vertices at the origin and the three
unit points, the entry `[0,1]` of `laplaceMatrix()` is `-1` (minus the weight of the edge
between vertices 0 and 1), while the entry `[0,1]` of `complexLaplaceMatrix()` is `0`:
its triplets are all written at `(v, v)`. -/
theorem complexLaplace_differs_at_cornerTetrahedron :
    (laplaceMatrix cornerTetrahedron.mesh cornerTetrahedron.edgeCotanWeight).coeff 0 1 = -1 ∧
    ((complexLaplaceMatrix cornerTetrahedron.mesh cornerTetrahedron.edgeCotanWeight).coeff
      0 1).1 = 0 := by
  constructor
  · have hW : cornerTetrahedron.mesh.WellFormed := by decide
    rw [laplace_coeff cornerTetrahedron.mesh cornerTetrahedron.edgeCotanWeight
      hW.outgoing_tail (by decide : (0 : Nat) < cornerTetrahedron.mesh.nVertices) 1]
    have hout : cornerTetrahedron.mesh.outgoingHalfedges 0 = [0, 2, 6] := by decide
    have ht0 : cornerTetrahedron.mesh.tipVertex 0 = 1 := by decide
    have ht2 : cornerTetrahedron.mesh.tipVertex 2 = 2 := by decide
    have ht6 : cornerTetrahedron.mesh.tipVertex 6 = 3 := by decide
    have he0 : cornerTetrahedron.mesh.edge 0 = 0 := by decide
    rw [hout]
    simp only [List.map_cons, List.map_nil, List.sum_cons, List.sum_nil, ht0, ht2, ht6, he0,
      cornerTetrahedron_weight0]
    norm_num
  · rw [complexLaplace_offdiag cornerTetrahedron.mesh cornerTetrahedron.edgeCotanWeight
      (by decide : (0 : Nat) ≠ 1)]
    rfl

/-- C7. On a manifold triangle mesh (with or without boundary), for any face areas, the
diagonal entries of `buildHodgeStar0Form()` sum to `totalArea()`, so do the diagonal
entries of `massMatrix()`, and the barycentric dual areas of all vertices add up to the
sum of the face areas. -/
theorem dualArea_sum_eq_totalArea {K : Type} [LinearOrderedField K] (M : SurfaceMesh)
    (faceArea : Nat → K) (hW : M.WellFormed) (hT : M.Triangulated) :
    (buildHodgeStar0Form M faceArea).diagSum = totalArea M faceArea ∧
    (massMatrix M faceArea).diagSum = totalArea M faceArea ∧
    (M.vertices.map (barycentricDualArea M faceArea)).sum
      = (M.faces.map faceArea).sum := by
  have hsum := sum_barycentricDualArea hW hT faceArea
  refine ⟨?_, ?_, ?_⟩
  · rw [← hsum]
    exact diagSum_diagonal M.nVertices (barycentricDualArea M faceArea)
  · rw [← hsum]
    exact diagSum_diagonal M.nVertices (barycentricDualArea M faceArea)
  · unfold SurfaceMesh.vertices SurfaceMesh.faces
    rw [sum_map_range, sum_map_range, hsum, totalArea_eq]

/-- C7 at the single triangle with boundary, with face area 5. -/
theorem dualArea_sum_eq_totalArea_witness :
    singleTriangle.WellFormed ∧ singleTriangle.Triangulated ∧
    (buildHodgeStar0Form singleTriangle (fun _ => (5 : ℚ))).diagSum
      = totalArea singleTriangle (fun _ => (5 : ℚ)) ∧
    (massMatrix singleTriangle (fun _ => (5 : ℚ))).diagSum
      = totalArea singleTriangle (fun _ => (5 : ℚ)) :=
  ⟨by decide, by decide,
    (dualArea_sum_eq_totalArea singleTriangle (fun _ => (5 : ℚ)) (by decide) (by decide)).1,
    (dualArea_sum_eq_totalArea singleTriangle (fun _ => (5 : ℚ)) (by decide) (by decide)).2.1⟩

/-- C8, amended. For a geometry in which two vertices have different positions, after
`normalize(origin = (0,0,0), rescale = true)` the center of mass is `(0,0,0)`, every
vertex lies at distance at most 1 from the origin and some vertex lies at distance
exactly 1 (exact arithmetic). -/
theorem normalize_unit_radius (G : VertexPositionGeometry)
    (hne : ∃ u v, u < G.mesh.nVertices ∧ v < G.mesh.nVertices ∧
      G.inputVertexPositions u ≠ G.inputVertexPositions v) :
    (G.normalize 0 true).centerOfMass = 0 ∧
    (∀ v, v < G.mesh.nVertices → ((G.normalize 0 true).inputVertexPositions v).norm ≤ 1) ∧
    (∃ v, v < G.mesh.nVertices ∧ ((G.normalize 0 true).inputVertexPositions v).norm = 1) := by
  have hR := radius_pos G hne
  have hnorm : ∀ v, v < G.mesh.nVertices →
      ((G.normalize 0 true).inputVertexPositions v).norm
        = (G.inputVertexPositions v - G.centerOfMass).norm / G.translateToCenter.2 := by
    intro v hv
    rw [normalize_position G 0 hv, Vector3.add_zero_eq, Vector3.norm_div _ hR]
  refine ⟨centerOfMass_normalize G, ?_, ?_⟩
  · intro v hv
    rw [hnorm v hv, div_le_one hR]
    conv_rhs => rw [translateToCenter_snd]
    exact foldl_max_ge _ (fun v => (G.inputVertexPositions v - G.centerOfMass).norm) 0
      (List.mem_range.mpr hv)
  · have hatt := foldl_max_attained (List.range G.mesh.nVertices)
      (fun v => (G.inputVertexPositions v - G.centerOfMass).norm) 0
    rw [← translateToCenter_snd] at hatt
    rcases hatt with h0 | ⟨v, hv, hval⟩
    · exact absurd h0 hR.ne'
    · refine ⟨v, List.mem_range.mp hv, ?_⟩
      rw [hnorm v (List.mem_range.mp hv), ← hval]
      exact div_self hR.ne'

/-- C8, amended, at the tetrahedron with vertices at the origin and the three unit
points. -/
theorem normalize_unit_radius_witness :
    (cornerTetrahedron.normalize 0 true).centerOfMass = 0 ∧
    (∀ v, v < cornerTetrahedron.mesh.nVertices →
      ((cornerTetrahedron.normalize 0 true).inputVertexPositions v).norm ≤ 1) ∧
    (∃ v, v < cornerTetrahedron.mesh.nVertices ∧
      ((cornerTetrahedron.normalize 0 true).inputVertexPositions v).norm = 1) :=
  normalize_unit_radius cornerTetrahedron
    ⟨0, 1, by decide, by decide, by
      intro h
      have hx := congrArg Vector3.x h
      simp [cornerTetrahedron] at hx⟩

/-- C8 as stated fails when all vertices coincide: for the tetrahedron mesh with every
vertex at (1, 2, 3) the radius by which `normalize` divides is zero, and no vertex ends
at distance 1 from the origin. -/
theorem normalize_coincident_counterexample :
    coincidentTetrahedron.translateToCenter.2 = 0 ∧
    ¬ ∃ v, v < coincidentTetrahedron.mesh.nVertices ∧
      ((coincidentTetrahedron.normalize 0 true).inputVertexPositions v).norm = 1 := by
  refine ⟨coincidentTetrahedron_radius, ?_⟩
  rintro ⟨v, hv, h⟩
  rw [normalize_position coincidentTetrahedron 0 hv, coincidentTetrahedron_sub_center,
    Vector3.add_zero_eq] at h
  have hz : ((0 : Vector3) / coincidentTetrahedron.translateToCenter.2) = 0 := by
    apply Vector3.ext
    · rw [Vector3.div_x, Vector3.zero_x, zero_div]
    · rw [Vector3.div_y, Vector3.zero_y, zero_div]
    · rw [Vector3.div_z, Vector3.zero_z, zero_div]
  rw [hz, Vector3.norm_zero] at h
  exact zero_ne_one h

/-- C9. For a mesh and an edge `e` whose two endpoints are vertices of the mesh,
`buildExteriorDerivative0Form()` is an `nEdges` by `nVertices` matrix with
`(d0 x)[e] = x[e.secondVertex] - x[e.firstVertex]` for every vector `x`, and `d0` maps
every constant vector to zero at `e`. -/
theorem d0_apply {K : Type} [LinearOrderedField K] (M : SurfaceMesh) (e : Nat)
    (he : e < M.nEdges) (h1 : M.firstVertex e < M.nVertices)
    (h2 : M.secondVertex e < M.nVertices) :
    (buildExteriorDerivative0Form M : SparseMatrix K).rows = M.nEdges ∧
    (buildExteriorDerivative0Form M : SparseMatrix K).cols = M.nVertices ∧
    (∀ x : Nat → K, (buildExteriorDerivative0Form M : SparseMatrix K).mulVec x e
      = x (M.secondVertex e) - x (M.firstVertex e)) ∧
    (∀ c : K, (buildExteriorDerivative0Form M : SparseMatrix K).mulVec (fun _ => c) e = 0) := by
  refine ⟨rfl, rfl, fun x => d0_mulVec_eq M he h1 h2 x, fun c => ?_⟩
  rw [d0_mulVec_eq M he h1 h2]
  ring

/-- C9 at the tetrahedron, edge 0 (from vertex 0 to vertex 1), for the vector
`x = (0, 1, 4, 9)`. -/
theorem d0_apply_witness :
    (buildExteriorDerivative0Form tetrahedron : SparseMatrix ℚ).mulVec
        (fun v => (v : ℚ) * v) 0
      = (fun v => (v : ℚ) * v) (tetrahedron.secondVertex 0)
        - (fun v => (v : ℚ) * v) (tetrahedron.firstVertex 0) :=
  (d0_apply tetrahedron 0 (by decide) (by decide) (by decide)).2.2.1 (fun v => (v : ℚ) * v)

/-- C10. For a face `f` whose halfedges lie on pairwise distinct edges,
`buildExteriorDerivative1Form()` is an `nFaces` by `nEdges` matrix whose entry `[f,e]` is
`1` if `f` has a halfedge on `e` with orientation flag true, `-1` if it has one with flag
false, and `0` if no halfedge of `f` lies on `e`; assembling the same triplets in any
other order gives the same entry. -/
theorem d1_entry {K : Type} [LinearOrderedField K] (M : SurfaceMesh) (f : Nat)
    (hf : f < M.nFaces) (hdist : ((M.adjacentHalfedges f).map M.edge).Nodup) (e : Nat) :
    (buildExteriorDerivative1Form M : SparseMatrix K).rows = M.nFaces ∧
    (buildExteriorDerivative1Form M : SparseMatrix K).cols = M.nEdges ∧
    ((∃ h ∈ M.adjacentHalfedges f, M.edge h = e ∧ M.orientation h = true) →
      (buildExteriorDerivative1Form M : SparseMatrix K).coeff f e = 1) ∧
    ((∃ h ∈ M.adjacentHalfedges f, M.edge h = e ∧ M.orientation h = false) →
      (buildExteriorDerivative1Form M : SparseMatrix K).coeff f e = -1) ∧
    ((∀ h ∈ M.adjacentHalfedges f, M.edge h ≠ e) →
      (buildExteriorDerivative1Form M : SparseMatrix K).coeff f e = 0) ∧
    (∀ tripList : List (Triplet K),
      tripList.Perm (buildExteriorDerivative1Form M : SparseMatrix K).triplets →
      (SparseMatrix.setFromTriplets M.nFaces M.nEdges tripList).coeff f e
        = (buildExteriorDerivative1Form M : SparseMatrix K).coeff f e) := by
  refine ⟨rfl, rfl, ?_, ?_, ?_, ?_⟩
  · rintro ⟨h, hmem, rfl, hor⟩
    rw [d1_coeff M hf, sum_keyed_nodup _ M.edge _ hdist hmem]
    simp [hor]
  · rintro ⟨h, hmem, rfl, hor⟩
    rw [d1_coeff M hf, sum_keyed_nodup _ M.edge _ hdist hmem]
    simp [hor]
  · intro hno
    rw [d1_coeff M hf]
    apply List.sum_eq_zero
    intro x hx
    simp only [List.mem_map] at hx
    obtain ⟨c, hc, rfl⟩ := hx
    simp [hno c hc]
  · intro tripList hperm
    exact sumAt_perm hperm f e

/-- C10 at the tetrahedron: face 0 has halfedge 1 on edge 0 with orientation flag false,
so the entry `[0,0]` is `-1`. -/
theorem d1_entry_witness :
    ((tetrahedron.adjacentHalfedges 0).map tetrahedron.edge).Nodup ∧
    (buildExteriorDerivative1Form tetrahedron : SparseMatrix ℚ).coeff 0 0 = -1 :=
  ⟨by decide,
    (d1_entry tetrahedron 0 (by decide) (by decide) 0).2.2.2.1 ⟨1, by decide, by decide, by decide⟩⟩

/-- C11 fails on the code at a boundary edge. At the single triangle with vertices
(0,0,0), (1,0,0), (-1,1,0), edge 1 lies on the boundary and `edgeCotanWeight` is `-0.5`,
half the cotan of the one angle opposite to it; the entry `[1,1]` of
`buildHodgeStar1Form()` is `-1`, since it also adds `cotan` of the twin halfedge, which
has no face. -/
theorem hodgeStar1_boundary_entry :
    obtuseTriangle.mesh.edgeIsBoundary 1 = true ∧
    obtuseTriangle.edgeCotanWeight 1 = -0.5 ∧
    (buildHodgeStar1Form obtuseTriangle.mesh obtuseTriangle.cotan).coeff 1 1 = -1 := by
  refine ⟨by decide, obtuseTriangle_weight1, ?_⟩
  have hW : obtuseTriangle.mesh.WellFormed := by decide
  have c2 := cotan_eq obtuseTriangle hW (by decide : (2 : Nat) < obtuseTriangle.mesh.nHalfedges)
    (by decide)
  have c3 := cotan_eq obtuseTriangle hW (by decide : (3 : Nat) < obtuseTriangle.mesh.nHalfedges)
    (by decide)
  norm_num [obtuseTriangle, singleTriangle, lookup, Vector3.cross, Vector3.norm, Vector3.norm2,
    Vector3.dot, Vector3.sub_x, Vector3.sub_y, Vector3.sub_z] at c2 c3
  have c2b : obtuseTriangle.cotan 2 = -1 := c2
  have c3b : obtuseTriangle.cotan 3 = -1 := c3
  have he : obtuseTriangle.mesh.edgeHalfedge 1 = 2 := by decide
  have ht : obtuseTriangle.mesh.twin 2 = 3 := by decide
  rw [hodgeStar1_coeff_diag obtuseTriangle.mesh obtuseTriangle.cotan
    (by decide : (1 : Nat) < obtuseTriangle.mesh.nEdges), he, ht, c2b, c3b]
  norm_num

/-- C12 as stated fails for the Hodge star on 1-forms. The tetrahedron with vertices
(0,1,0), (2,0,0), (-2,0,0), (0,0,1) is a closed manifold triangle mesh without
degenerate faces, and the diagonal entry of `buildHodgeStar1Form()` at edge 2, whose two
opposite angles are obtuse, is `-3/4`. -/
theorem hodgeStar1_negative_counterexample :
    obtuseTetrahedron.mesh.ClosedManifoldTriangleMesh ∧ obtuseTetrahedron.NonDegenerate ∧
    (buildHodgeStar1Form obtuseTetrahedron.mesh obtuseTetrahedron.cotan).coeff 2 2
      = -(3 / 4) := by
  refine ⟨by decide, obtuseTetrahedron_nonDegenerate, ?_⟩
  have he : obtuseTetrahedron.mesh.edgeHalfedge 2 = 4 := by decide
  have ht : obtuseTetrahedron.mesh.twin 4 = 5 := by decide
  rw [hodgeStar1_coeff_diag obtuseTetrahedron.mesh obtuseTetrahedron.cotan
    (by decide : (2 : Nat) < obtuseTetrahedron.mesh.nEdges), he, ht,
    obtuseTetrahedron_cotan.1, obtuseTetrahedron_cotan.2]
  norm_num

/-- C12, amended. On a manifold triangle mesh without degenerate faces in which every
vertex lies on a face, `buildHodgeStar0Form()`, `buildHodgeStar1Form()`,
`buildHodgeStar2Form()` and `massMatrix()` are diagonal; the diagonal entries of
`buildHodgeStar0Form()`, `massMatrix()` and `buildHodgeStar2Form()` are strictly positive;
the diagonal entry of `buildHodgeStar1Form()` at an interior edge is strictly positive
when the two angles opposite to the edge are acute. -/
theorem hodgeStars_diagonal_positive (G : VertexPositionGeometry) (hW : G.mesh.WellFormed)
    (hT : G.mesh.Triangulated) (hG : G.NonDegenerate)
    (hface : ∀ v, v < G.mesh.nVertices →
      ∃ h ∈ G.mesh.outgoingHalfedges v, G.mesh.isInterior h = true) :
    (∀ i j, i ≠ j →
      (buildHodgeStar0Form G.mesh G.faceArea).coeff i j = 0 ∧
      (buildHodgeStar1Form G.mesh G.cotan).coeff i j = 0 ∧
      (buildHodgeStar2Form G.mesh G.faceArea).coeff i j = 0 ∧
      (massMatrix G.mesh G.faceArea).coeff i j = 0) ∧
    (∀ v, v < G.mesh.nVertices →
      0 < (buildHodgeStar0Form G.mesh G.faceArea).coeff v v ∧
      0 < (massMatrix G.mesh G.faceArea).coeff v v) ∧
    (∀ f, f < G.mesh.nFaces → 0 < (buildHodgeStar2Form G.mesh G.faceArea).coeff f f) ∧
    (∀ e, e < G.mesh.nEdges →
      G.mesh.isInterior (G.mesh.edgeHalfedge e) = true →
      G.mesh.isInterior (G.mesh.twin (G.mesh.edgeHalfedge e)) = true →
      0 < Vector3.dot (G.halfedgeVector (G.mesh.next (G.mesh.edgeHalfedge e)))
        (G.halfedgeVector
          (G.mesh.twin (G.mesh.next (G.mesh.next (G.mesh.edgeHalfedge e))))) →
      0 < Vector3.dot
        (G.halfedgeVector (G.mesh.next (G.mesh.twin (G.mesh.edgeHalfedge e))))
        (G.halfedgeVector (G.mesh.twin
          (G.mesh.next (G.mesh.next (G.mesh.twin (G.mesh.edgeHalfedge e)))))) →
      0 < (buildHodgeStar1Form G.mesh G.cotan).coeff e e) := by
  refine ⟨?_, ?_, ?_, ?_⟩
  · intro i j hij
    refine ⟨?_, hodgeStar1_coeff_offdiag G.mesh G.cotan hij, ?_, ?_⟩
    · rw [hodgeStar0_eq]
      exact coeff_diagonal_offdiag _ _ hij
    · rw [hodgeStar2_eq]
      exact coeff_diagonal_offdiag _ _ hij
    · rw [massMatrix_eq]
      exact coeff_diagonal_offdiag _ _ hij
  · intro v hv
    have hpos := barycentricDualArea_pos hW G.faceArea hG hv (hface v hv)
    constructor
    · rw [hodgeStar0_eq, coeff_diagonal _ _ hv]
      exact hpos
    · rw [massMatrix_eq, coeff_diagonal _ _ hv]
      exact hpos
  · intro f hf
    rw [hodgeStar2_eq, coeff_diagonal _ _ hf]
    exact one_div_pos.mpr (hG f hf)
  · intro e he hi1 hi2 hd1 hd2
    exact hodgeStar1_pos G hW hT hG he hi1 hi2 hd1 hd2

/-- C12, amended, at the tetrahedron with vertices at the origin and the three unit
points: the diagonal entries at vertex 0 and at face 0 are positive, and so is the entry
of the Hodge star on 1-forms at edge 0, whose two opposite angles are 45 degrees. -/
theorem hodgeStars_diagonal_positive_witness :
    cornerTetrahedron.mesh.WellFormed ∧ cornerTetrahedron.mesh.Triangulated ∧
    cornerTetrahedron.NonDegenerate ∧
    0 < (buildHodgeStar0Form cornerTetrahedron.mesh cornerTetrahedron.faceArea).coeff 0 0 ∧
    0 < (buildHodgeStar2Form cornerTetrahedron.mesh cornerTetrahedron.faceArea).coeff 0 0 ∧
    0 < (buildHodgeStar1Form cornerTetrahedron.mesh cornerTetrahedron.cotan).coeff 0 0 :=
  ⟨by decide, by decide, cornerTetrahedron_nonDegenerate,
    ((hodgeStars_diagonal_positive cornerTetrahedron (by decide) (by decide)
      cornerTetrahedron_nonDegenerate (by decide)).2.1 0 (by decide)).1,
    (hodgeStars_diagonal_positive cornerTetrahedron (by decide) (by decide)
      cornerTetrahedron_nonDegenerate (by decide)).2.2.1 0 (by decide),
    (hodgeStars_diagonal_positive cornerTetrahedron (by decide) (by decide)
      cornerTetrahedron_nonDegenerate (by decide)).2.2.2 0 (by decide) (by decide) (by decide)
      (by norm_num [VertexPositionGeometry.halfedgeVector, cornerTetrahedron, tetrahedron,
        lookup, Vector3.dot, Vector3.sub_x, Vector3.sub_y, Vector3.sub_z])
      (by norm_num [VertexPositionGeometry.halfedgeVector, cornerTetrahedron, tetrahedron,
        lookup, Vector3.dot, Vector3.sub_x, Vector3.sub_y, Vector3.sub_z])⟩

/-- C13 fails on the code for the first estimator. At vertex 0 of the tetrahedron with
vertices at the origin and the three unit points, the sum of the three adjacent face
normals is `(-1, -1, -1)`, not the zero vector, and `vertexNormalEquallyWeighted`
returns this sum itself, of squared length 3, not the unit vector: the value of
`vertexNormal.normalize()` is dropped. -/
theorem vertexNormalEquallyWeighted_not_unit :
    cornerTetrahedron.vertexNormalEquallyWeighted 0 = ⟨-1, -1, -1⟩ ∧
    (cornerTetrahedron.vertexNormalEquallyWeighted 0).norm2 = 3 ∧
    (cornerTetrahedron.vertexNormalEquallyWeighted 0).norm ≠ 1 := by
  have hadj : cornerTetrahedron.mesh.adjacentFaces 0 = [1, 0, 3] := by decide
  have hval : cornerTetrahedron.vertexNormalEquallyWeighted 0 = ⟨-1, -1, -1⟩ := by
    unfold VertexPositionGeometry.vertexNormalEquallyWeighted
    simp only [hadj, List.foldl_cons, List.foldl_nil, cornerTetrahedron_faceNormal0,
      cornerTetrahedron_faceNormal1, cornerTetrahedron_faceNormal3]
    apply Vector3.ext <;> norm_num [Vector3.add_x, Vector3.add_y, Vector3.add_z]
  refine ⟨hval, ?_, ?_⟩
  · rw [hval]
    norm_num [Vector3.norm2]
  · rw [hval]
    unfold Vector3.norm
    intro h
    have h2 : Real.sqrt (Vector3.norm2 ⟨-1, -1, -1⟩) ^ 2 = 1 := by rw [h]; norm_num
    rw [Real.sq_sqrt (by norm_num [Vector3.norm2])] at h2
    norm_num [Vector3.norm2] at h2

/-- C15 fails on the code at a boundary halfedge. In the single triangle halfedge 1 has no
face and halfedge 0 has a twin without face; `dihedralAngle` reads `faceNormal` of both
faces without a test, so it does not return 0 there. -/
theorem dihedralAngle_boundary_unguarded :
    obtuseTriangle.mesh.face 1 = none ∧
    obtuseTriangle.mesh.face (obtuseTriangle.mesh.twin 0) = none ∧
    obtuseTriangle.dihedralAngle 1 = none ∧
    obtuseTriangle.dihedralAngle 0 = none := by
  have h1 : obtuseTriangle.mesh.face 1 = none := by decide
  have h0 : obtuseTriangle.mesh.face (obtuseTriangle.mesh.twin 0) = none := by decide
  refine ⟨h1, h0, ?_, ?_⟩
  · unfold VertexPositionGeometry.dihedralAngle
    rw [h1]
  · unfold VertexPositionGeometry.dihedralAngle
    rw [h0]
    cases obtuseTriangle.mesh.face 0 <;> rfl

/-- C16 as stated fails. In the triangle with the collinear vertices (0,0,0), (1,0,0),
(2,0,0) halfedge 0 is interior, the two vectors at the opposite vertex have zero cross
product, the product of the two lengths is 2, and the last division `cos / sin` of
`cotan` has the divisor `sin = 0`. -/
theorem cotan_degenerate_counterexample :
    collinearTriangle.mesh.isInterior 0 = true ∧
    (Vector3.cross (collinearTriangle.halfedgeVector (collinearTriangle.mesh.next 0))
      (collinearTriangle.halfedgeVector (collinearTriangle.mesh.twin
        (collinearTriangle.mesh.next (collinearTriangle.mesh.next 0))))).norm = 0 ∧
    collinearTriangle.cotanChecked 0 = none := by
  have hz : (Vector3.cross (collinearTriangle.halfedgeVector (collinearTriangle.mesh.next 0))
      (collinearTriangle.halfedgeVector (collinearTriangle.mesh.twin
        (collinearTriangle.mesh.next (collinearTriangle.mesh.next 0))))).norm = 0 := by
    norm_num [VertexPositionGeometry.halfedgeVector, collinearTriangle, singleTriangle,
      lookup, Vector3.cross, Vector3.norm, Vector3.norm2, Vector3.sub_x, Vector3.sub_y,
      Vector3.sub_z]
  exact ⟨by decide, hz, cotanChecked_of_zero collinearTriangle hz⟩

/-- C16, amended. `cotan(he)` has no guard: with `v1`, `v2` the halfedge vectors of
`he.next()` and `he.next().next().twin()`, one of its divisions has a zero divisor
exactly when `cross(v1, v2)` is zero; when the cross product is not zero, no divisor
is zero and `cotan(he)` returns the finite value `dot(v1, v2) / |cross(v1, v2)|`. -/
theorem cotan_divides_by_zero_iff (G : VertexPositionGeometry) (hW : G.mesh.WellFormed)
    {he : Nat} (hh : he < G.mesh.nHalfedges) :
    (G.cotanChecked he = none ↔
      (Vector3.cross (G.halfedgeVector (G.mesh.next he))
        (G.halfedgeVector (G.mesh.twin (G.mesh.next (G.mesh.next he))))).norm = 0) ∧
    ((Vector3.cross (G.halfedgeVector (G.mesh.next he))
        (G.halfedgeVector (G.mesh.twin (G.mesh.next (G.mesh.next he))))).norm ≠ 0 →
      G.cotanChecked he = some (G.cotan he) ∧
      G.cotan he = Vector3.dot (G.halfedgeVector (G.mesh.next he))
          (G.halfedgeVector (G.mesh.twin (G.mesh.next (G.mesh.next he))))
        / (Vector3.cross (G.halfedgeVector (G.mesh.next he))
          (G.halfedgeVector (G.mesh.twin (G.mesh.next (G.mesh.next he))))).norm) := by
  constructor
  · constructor
    · intro hnone
      by_contra hne
      have hpos := lt_of_le_of_ne (Vector3.norm_nonneg _) (Ne.symm hne)
      rw [(cotanChecked_of_pos G hW hh hpos).1] at hnone
      exact Option.some_ne_none _ hnone
    · exact cotanChecked_of_zero G
  · intro hne
    exact cotanChecked_of_pos G hW hh (lt_of_le_of_ne (Vector3.norm_nonneg _) (Ne.symm hne))

/-- C16, amended, at halfedge 0 of the tetrahedron with vertices at the origin and the
three unit points, where `cotan` is 1. -/
theorem cotan_divides_by_zero_iff_witness :
    cornerTetrahedron.mesh.WellFormed ∧
    cornerTetrahedron.cotanChecked 0 = some (cornerTetrahedron.cotan 0) ∧
    cornerTetrahedron.cotan 0 = 1 :=
  ⟨by decide,
    ((cotan_divides_by_zero_iff cornerTetrahedron (by decide)
      (by decide : (0 : Nat) < cornerTetrahedron.mesh.nHalfedges)).2
      (by
        rw [corner_cross_norm cornerTetrahedron (by decide) (by decide)
          (by decide : (0 : Nat) < cornerTetrahedron.mesh.nHalfedges)
          (by decide : cornerTetrahedron.mesh.face 0 = some 1)]
        exact (mul_pos (by norm_num) (cornerTetrahedron_nonDegenerate 1 (by decide))).ne')).1,
    cornerTetrahedron_cotan0⟩

/-- C17. For an interior halfedge `he` of a triangular face of positive area, with tail
`a`, tip `b` and opposite vertex `c`: the two vectors that `cotan` uses,
`halfedgeVector(he.next())` and `halfedgeVector(he.next().next().twin())`, are `c - b`
and `c - a`, and `cotan(he)` equals `dot(a - c, b - c) / |cross(a - c, b - c)|`, which
is also the quotient formed from the two vectors of the code. -/
theorem cotan_opposite_corner (G : VertexPositionGeometry) (hW : G.mesh.WellFormed)
    (hT : G.mesh.Triangulated) {he f : Nat} (hh : he < G.mesh.nHalfedges)
    (hf : G.mesh.face he = some f) (hA : 0 < G.faceArea f) :
    G.halfedgeVector (G.mesh.next he)
      = G.inputVertexPositions (G.mesh.tipVertex (G.mesh.next he))
        - G.inputVertexPositions (G.mesh.tipVertex he) ∧
    G.halfedgeVector (G.mesh.twin (G.mesh.next (G.mesh.next he)))
      = G.inputVertexPositions (G.mesh.tipVertex (G.mesh.next he))
        - G.inputVertexPositions (G.mesh.tailVertex he) ∧
    G.cotan he
      = Vector3.dot
          (G.inputVertexPositions (G.mesh.tailVertex he)
            - G.inputVertexPositions (G.mesh.tipVertex (G.mesh.next he)))
          (G.inputVertexPositions (G.mesh.tipVertex he)
            - G.inputVertexPositions (G.mesh.tipVertex (G.mesh.next he)))
        / (Vector3.cross
          (G.inputVertexPositions (G.mesh.tailVertex he)
            - G.inputVertexPositions (G.mesh.tipVertex (G.mesh.next he)))
          (G.inputVertexPositions (G.mesh.tipVertex he)
            - G.inputVertexPositions (G.mesh.tipVertex (G.mesh.next he)))).norm ∧
    G.cotan he
      = Vector3.dot (G.halfedgeVector (G.mesh.next he))
          (G.halfedgeVector (G.mesh.twin (G.mesh.next (G.mesh.next he))))
        / (Vector3.cross (G.halfedgeVector (G.mesh.next he))
          (G.halfedgeVector (G.mesh.twin (G.mesh.next (G.mesh.next he))))).norm := by
  refine ⟨halfedgeVector_next G hW hh,
    halfedgeVector_twin_next_next G hW hh (next_cycle hW hT hh hf).1,
    cotan_corner G hW hT hh hf hA, ?_⟩
  rw [cotan_interior G hW hT hh hf hA, corner_cross_norm G hW hT hh hf]

/-- C17 at halfedge 0 of the tetrahedron with vertices at the origin and the three unit
points. -/
theorem cotan_opposite_corner_witness :
    cornerTetrahedron.mesh.WellFormed ∧ cornerTetrahedron.mesh.Triangulated ∧
    cornerTetrahedron.mesh.face 0 = some 1 ∧ 0 < cornerTetrahedron.faceArea 1 ∧
    cornerTetrahedron.cotan 0
      = Vector3.dot
          (cornerTetrahedron.inputVertexPositions (cornerTetrahedron.mesh.tailVertex 0)
            - cornerTetrahedron.inputVertexPositions
                (cornerTetrahedron.mesh.tipVertex (cornerTetrahedron.mesh.next 0)))
          (cornerTetrahedron.inputVertexPositions (cornerTetrahedron.mesh.tipVertex 0)
            - cornerTetrahedron.inputVertexPositions
                (cornerTetrahedron.mesh.tipVertex (cornerTetrahedron.mesh.next 0)))
        / (Vector3.cross
          (cornerTetrahedron.inputVertexPositions (cornerTetrahedron.mesh.tailVertex 0)
            - cornerTetrahedron.inputVertexPositions
                (cornerTetrahedron.mesh.tipVertex (cornerTetrahedron.mesh.next 0)))
          (cornerTetrahedron.inputVertexPositions (cornerTetrahedron.mesh.tipVertex 0)
            - cornerTetrahedron.inputVertexPositions
                (cornerTetrahedron.mesh.tipVertex (cornerTetrahedron.mesh.next 0)))).norm :=
  ⟨by decide, by decide, by decide, cornerTetrahedron_nonDegenerate 1 (by decide),
    (cotan_opposite_corner cornerTetrahedron (by decide) (by decide)
      (by decide : (0 : Nat) < cornerTetrahedron.mesh.nHalfedges)
      (by decide : cornerTetrahedron.mesh.face 0 = some 1)
      (cornerTetrahedron_nonDegenerate 1 (by decide))).2.2.1⟩

/-- C18 fails on the code. In the tetrahedron whose four vertices coincide, halfedge 0
does not lie on a boundary edge, so `angle` reaches its last line; both vectors `l1` and
`l2` have length zero, and the quotient `dot(l1, l2) / (norm(l1) * norm(l2))` that is
passed to `acos` without a clamp has divisor zero, so no angle in `[0, pi]` results. -/
theorem angle_zero_length_not_clamped :
    coincidentTetrahedron.mesh.edgeIsBoundary (coincidentTetrahedron.mesh.edge 0) = false ∧
    (coincidentTetrahedron.halfedgeVector 0).norm = 0 ∧
    (coincidentTetrahedron.halfedgeVector (coincidentTetrahedron.mesh.twin
      (coincidentTetrahedron.mesh.next (coincidentTetrahedron.mesh.next 0)))).norm = 0 ∧
    VertexPositionGeometry.divChecked
      (Vector3.dot (coincidentTetrahedron.halfedgeVector 0)
        (coincidentTetrahedron.halfedgeVector (coincidentTetrahedron.mesh.twin
          (coincidentTetrahedron.mesh.next (coincidentTetrahedron.mesh.next 0)))))
      ((coincidentTetrahedron.halfedgeVector 0).norm
        * (coincidentTetrahedron.halfedgeVector (coincidentTetrahedron.mesh.twin
          (coincidentTetrahedron.mesh.next (coincidentTetrahedron.mesh.next 0)))).norm)
      = none := by
  have hn1 : (coincidentTetrahedron.halfedgeVector 0).norm = 0 := by
    norm_num [VertexPositionGeometry.halfedgeVector, coincidentTetrahedron, tetrahedron,
      lookup, Vector3.norm, Vector3.norm2, Vector3.sub_x, Vector3.sub_y, Vector3.sub_z]
  have hn2 : (coincidentTetrahedron.halfedgeVector (coincidentTetrahedron.mesh.twin
      (coincidentTetrahedron.mesh.next (coincidentTetrahedron.mesh.next 0)))).norm = 0 := by
    norm_num [VertexPositionGeometry.halfedgeVector, coincidentTetrahedron, tetrahedron,
      lookup, Vector3.norm, Vector3.norm2, Vector3.sub_x, Vector3.sub_y, Vector3.sub_z]
  refine ⟨by decide, hn1, hn2, ?_⟩
  unfold VertexPositionGeometry.divChecked
  rw [hn1, hn2, if_pos (mul_zero (0 : ℝ))]

/-- C19. On a manifold mesh, closed triangle meshes included, and for any values of
`cotan`, the matrix of `laplaceMatrix()` taken with
`edgeCotanWeight(e) = 0.5 * (cotan(e.halfedge()) + cotan(e.halfedge().twin()))` has the
dimensions of `d0ᵀ * star1 * d0` and, at every index pair `(u, v)`, the entry of
`d0ᵀ * star1 * d0` plus the entry of `1e-8 * I`, where
`d0 = buildExteriorDerivative0Form()` and `star1 = buildHodgeStar1Form()`. -/
theorem laplace_eq_product {K : Type} [LinearOrderedField K] (M : SurfaceMesh)
    (hW : M.WellFormed) (cotan : Nat → K) {u v : Nat} (hu : u < M.nVertices)
    (hv : v < M.nVertices) :
    (laplaceMatrix M
        (fun e => 0.5 * (cotan (M.edgeHalfedge e) + cotan (M.twin (M.edgeHalfedge e))))).rows
      = (buildExteriorDerivative0Form M : SparseMatrix K).transpose.rows ∧
    (laplaceMatrix M
        (fun e => 0.5 * (cotan (M.edgeHalfedge e) + cotan (M.twin (M.edgeHalfedge e))))).cols
      = (buildExteriorDerivative0Form M : SparseMatrix K).cols ∧
    (laplaceMatrix M
        (fun e => 0.5 * (cotan (M.edgeHalfedge e) + cotan (M.twin (M.edgeHalfedge e))))).coeff
        u v
      = (buildExteriorDerivative0Form M : SparseMatrix K).transpose.mulCoeff3
          (buildHodgeStar1Form M cotan) (buildExteriorDerivative0Form M) u v
        + (if u = v then 1e-8 else 0) := by
  refine ⟨rfl, rfl, ?_⟩
  have _hv := hv
  rw [laplace_coeff_edges hW _ hu v, product_coeff]
  congr 1
  apply Finset.sum_congr rfl
  intro e he
  have he2 := Finset.mem_range.mp he
  rw [d0_coeff M he2 u, d0_coeff M he2 v]
  split_ifs <;> ring1

/-- C19 at the entry `(0, 1)` of the tetrahedron mesh, over the rationals, with the value
`h` of `cotan` at halfedge `h`. -/
theorem laplace_eq_product_witness :
    tetrahedron.WellFormed ∧
    (laplaceMatrix tetrahedron
        (fun e => 0.5 * (((tetrahedron.edgeHalfedge e : Nat) : ℚ)
          + ((tetrahedron.twin (tetrahedron.edgeHalfedge e) : Nat) : ℚ)))).coeff 0 1
      = (buildExteriorDerivative0Form tetrahedron : SparseMatrix ℚ).transpose.mulCoeff3
          (buildHodgeStar1Form tetrahedron (fun h => ((h : Nat) : ℚ)))
          (buildExteriorDerivative0Form tetrahedron) 0 1
        + (if (0 : Nat) = 1 then 1e-8 else 0) :=
  ⟨by decide,
    (laplace_eq_product tetrahedron (by decide) (fun h => ((h : Nat) : ℚ))
      (by decide : (0 : Nat) < tetrahedron.nVertices)
      (by decide : (1 : Nat) < tetrahedron.nVertices)).2.2⟩

/-- C20. On a closed manifold triangle mesh without degenerate faces the values of
`circumcentricDualArea(v)` over all vertices add up to `totalArea()`, and the area of
each face is one quarter of the sum, over its three halfedges, of the squared edge
length times `cotan` of the halfedge; no sign condition on the cotans is needed. -/
theorem circumcentricDualArea_sum_eq_totalArea (G : VertexPositionGeometry)
    (hM : G.mesh.ClosedManifoldTriangleMesh) (hG : G.NonDegenerate) :
    ∑ v ∈ Finset.range G.mesh.nVertices, G.circumcentricDualArea v
      = totalArea G.mesh G.faceArea ∧
    ∀ f, f < G.mesh.nFaces →
      G.faceArea f
        = ((G.mesh.adjacentHalfedges f).map (fun he =>
            G.edgeLength (G.mesh.edge he) * G.edgeLength (G.mesh.edge he)
              * G.cotan he)).sum / 4 := by
  refine ⟨sum_circumcentricDualArea G hM hG, ?_⟩
  intro f hf
  rw [face_cotan_sum G hM.1 hM.2.1 hG hf]
  ring

/-- C20 at the tetrahedron with vertices at the origin and the three unit points. -/
theorem circumcentricDualArea_sum_eq_totalArea_witness :
    cornerTetrahedron.mesh.ClosedManifoldTriangleMesh ∧ cornerTetrahedron.NonDegenerate ∧
    ∑ v ∈ Finset.range cornerTetrahedron.mesh.nVertices,
        cornerTetrahedron.circumcentricDualArea v
      = totalArea cornerTetrahedron.mesh cornerTetrahedron.faceArea :=
  ⟨by decide, cornerTetrahedron_nonDegenerate,
    (circumcentricDualArea_sum_eq_totalArea cornerTetrahedron (by decide)
      cornerTetrahedron_nonDegenerate).1⟩

/-- C21. For every mesh and any edge weights, the matrix assembled by
`complexLaplaceMatrix()` as written is `nVertices` by `nVertices`, every off-diagonal
entry is 0 and every diagonal entry is `1e-8` with imaginary part 0: the `-cot` triplets
written at `(v, v)` cancel against the accumulated `value` written at `(v, v)` after
the loop. -/
theorem complexLaplaceMatrix_eq_shift {K : Type} [LinearOrderedField K] (M : SurfaceMesh)
    (edgeCotanWeight : Nat → K) :
    (complexLaplaceMatrix M edgeCotanWeight).rows = M.nVertices ∧
    (complexLaplaceMatrix M edgeCotanWeight).cols = M.nVertices ∧
    (∀ u v, u ≠ v → (complexLaplaceMatrix M edgeCotanWeight).coeff u v = (0, 0)) ∧
    (∀ v, v < M.nVertices →
      (complexLaplaceMatrix M edgeCotanWeight).coeff v v = (1e-8, 0)) := by
  refine ⟨rfl, rfl, ?_, ?_⟩
  · intro u v huv
    rw [complexLaplace_offdiag M edgeCotanWeight huv]
    rfl
  · intro v hv
    exact complexLaplace_diag M edgeCotanWeight hv

/-- C21 at the tetrahedron with vertices at the origin and the three unit points, with
the cotan weights of that geometry: entry `(0, 1)` is 0 and entry `(0, 0)` is `1e-8`. -/
theorem complexLaplaceMatrix_eq_shift_witness :
    (0 : Nat) ≠ 1 ∧ (0 : Nat) < cornerTetrahedron.mesh.nVertices ∧
    (complexLaplaceMatrix cornerTetrahedron.mesh cornerTetrahedron.edgeCotanWeight).coeff 0 1
      = (0, 0) ∧
    (complexLaplaceMatrix cornerTetrahedron.mesh cornerTetrahedron.edgeCotanWeight).coeff 0 0
      = (1e-8, 0) :=
  ⟨by decide, by decide,
    (complexLaplaceMatrix_eq_shift cornerTetrahedron.mesh
      cornerTetrahedron.edgeCotanWeight).2.2.1 0 1 (by decide),
    (complexLaplaceMatrix_eq_shift cornerTetrahedron.mesh
      cornerTetrahedron.edgeCotanWeight).2.2.2 0 (by decide)⟩

end Claims

end DDG
